import Mathlib

/-!
Verification development for the `pytest-ordering` repository.

This file gives a shallow embedding of the constraint-graph core of the
repository (`pytest_ordering/basegraph.py`, `pytest_ordering/graphs/directedgraph.py`,
`pytest_ordering/configs.py`, `pytest_ordering/utils.py`,
`pytest_ordering/testitemssorter.py`) and proves or refutes the frozen
claims about it.

Modelling conventions:
* Python `int` vertex ids become `Nat` (ids are only ever allocated from a
  counter starting at 0 and are never negative).
* Python `defaultdict(list)` adjacency dictionaries become total functions
  `Nat → List Nat`; a missing key reads as `[]`, exactly as `defaultdict`.
* Python exceptions become an explicit error type `PyErr` threaded through
  `Except`.  `SortingError` is imported by `testitemssorter.py` from
  `pytest_ordering.utils` but its class body is not part of the sources;
  it is modelled as a plain error kind carrying its message, which is all
  its callers use.
* `print` calls are ignored (they do not affect any claimed behaviour).
* The response cache of `BaseDirectedGraph` (`_recompute_cycle` / `_cycle`)
  is not modelled: every mutating operation of the class invalidates the
  cache, so `get_graph_cycle` is observationally a pure function of the
  vertices and the adjacency, which is what the embedding defines.
* Unbounded Python recursion (which the interpreter stops with
  `RecursionError`) is modelled with an explicit gas parameter; running out
  of gas produces `PyErr.recursionError`, the analogue of the interpreter's
  recursion failure.
-/

namespace PyOrd

/-- Error kinds raised by the embedded code.  `validationError` is
`pytest_ordering.utils.ValidationError`; `sortingError` is the
`SortingError` that `testitemssorter.py` imports from the utils module
(its class body is not in the sources; it is modelled as an error kind
carrying the message its callers construct); `valueError` and
`indexError` are Python's built-in `ValueError` and `IndexError`;
`recursionError` is Python's built-in `RecursionError`. -/
inductive PyErr where
  | validationError (msg : String)
  | sortingError (msg : String)
  | valueError (msg : String)
  | indexError
  | recursionError
  deriving DecidableEq, Repr

/-- Sorted duplicate-free insertion, ascending. -/
def sortedInsert (x : Nat) : List Nat → List Nat
  | [] => [x]
  | y :: ys =>
    if x < y then x :: y :: ys
    else if x = y then y :: ys
    else y :: sortedInsert x ys

/-- Models CPython's `list(set(l))` for a list of small non-negative
integers: duplicates are dropped and the survivors are iterated in
ascending order.  (CPython iterates an `int` set in hash-table slot
order; `hash(i) = i`, so for the small ids produced in the scenarios
of this development the iteration order is ascending.) -/
def pySetList (l : List Nat) : List Nat := l.foldr sortedInsert []

/-- `utils.require_in_list` for string arguments: raises
`ValidationError` when the item is not among the valid ones.  (The
embedded message omits the quote characters of the Python f-string;
no claim inspects this message.) -/
def require_in_list (item : String) (valid : List String) : Except PyErr Unit :=
  if item ∈ valid then .ok ()
  else .error (.validationError
    ("Item " ++ item ++ " not in valid items list: " ++ String.intercalate ", " valid))

/-- The state of `basegraph.BaseDirectedGraph`: the insertion-ordered
vertex list and the forward and inverse adjacency dictionaries. -/
structure BaseDirectedGraph where
  vertices : List Nat
  graph : Nat → List Nat
  graph_inv : Nat → List Nat

namespace BaseDirectedGraph

/-- `BaseDirectedGraph.__init__`. -/
def init : BaseDirectedGraph := ⟨[], fun _ => [], fun _ => []⟩

/-- `BaseDirectedGraph.add_vertex`. -/
def add_vertex (g : BaseDirectedGraph) (v : Nat) : BaseDirectedGraph :=
  if v ∈ g.vertices then g else { g with vertices := g.vertices ++ [v] }

/-- `BaseDirectedGraph.remove_vertex`: drops the vertex from the vertex
list, drops its own adjacency entries, and erases the first occurrence
of the vertex from every other adjacency list (Python's `list.remove`). -/
def remove_vertex (g : BaseDirectedGraph) (v : Nat) : BaseDirectedGraph :=
  if v ∈ g.vertices then
    { vertices := g.vertices.erase v
      graph := fun k => if k = v then [] else (g.graph k).erase v
      graph_inv := fun k => if k = v then [] else (g.graph_inv k).erase v }
  else g

/-- `BaseDirectedGraph.add_edge`: auto-creates both endpoints, then
appends the edge to the forward and inverse adjacency unless the forward
adjacency already holds it. -/
def add_edge (g : BaseDirectedGraph) (a b : Nat) : BaseDirectedGraph :=
  let g1 := (g.add_vertex a).add_vertex b
  if b ∈ g1.graph a then g1
  else
    { g1 with
      graph := Function.update g1.graph a (g1.graph a ++ [b])
      graph_inv := Function.update g1.graph_inv b (g1.graph_inv b ++ [a]) }

/-- `BaseDirectedGraph.remove_edge`.  (On the success path Python removes
the first occurrence from both adjacency lists; `List.erase` is a no-op
when the entry is absent, which can only differ from Python when the
forward/inverse symmetry is already broken — no claim exercises that.) -/
def remove_edge (g : BaseDirectedGraph) (a b : Nat) : BaseDirectedGraph :=
  if b ∈ g.graph a then
    { g with
      graph := Function.update g.graph a ((g.graph a).erase b)
      graph_inv := Function.update g.graph_inv b ((g.graph_inv b).erase a) }
  else g

end BaseDirectedGraph

/-- The neighbour loop of `BaseDirectedGraph.get_subcycle`, parametrised by
the recursive call `sub` (which receives one unit less fuel).  `v` is the
vertex whose neighbours are walked and `vidx` its position in the vertex
list.  Returning `([], …)` corresponds to the Python function reaching its
final `return []` after popping `v` from the recursion stack; a non-empty
first component is a discovered partial cycle, returned without popping,
exactly as the two early `return` statements of the source. -/
def subcycle_loop (sub : Nat → List Bool → List Bool → Option (List Nat × List Bool × List Bool))
    (g : BaseDirectedGraph) (v vidx : Nat) :
    List Nat → List Bool → List Bool → Option (List Nat × List Bool × List Bool)
  | [], visited, stack => some ([], visited, stack.set vidx false)
  | u :: rest, visited, stack =>
    let uidx := g.vertices.indexOf u
    if visited.getD uidx false = false then
      match sub u visited stack with
      | none => none
      | some (subc, visited', stack') =>
        match subc with
        | [] => subcycle_loop sub g v vidx rest visited' stack'
        | _ => some (subc ++ [v], visited', stack')
    else if stack.getD uidx false then some ([v], visited, stack)
    else subcycle_loop sub g v vidx rest visited stack

/-- `BaseDirectedGraph.get_subcycle`: depth-first search for a cycle.
`visited` and `recursion_stack` are the positional boolean lists of the
source, indexed by `self.vertices.index(vertex_id)`.  The fuel bounds the
recursion depth; `none` is the analogue of the interpreter's recursion
failure and is proved unreachable for the fuel `get_graph_cycle` supplies. -/
def get_subcycle : Nat → BaseDirectedGraph → Nat → List Bool → List Bool →
    Option (List Nat × List Bool × List Bool)
  | 0, _, _, _, _ => none
  | fuel + 1, g, v, visited, stack =>
    let vidx := g.vertices.indexOf v
    subcycle_loop (fun u vis st => get_subcycle fuel g u vis st) g v vidx (g.graph v)
      (visited.set vidx true) (stack.set vidx true)

/-- Fuel supplied to each top-level `get_subcycle` call: one more than the
number of vertices, which bounds the depth of the visit (every recursive
call is made on a freshly-visited vertex). -/
def subcycleFuel (g : BaseDirectedGraph) : Nat := g.vertices.length + 1

/-- The `for vertex_idx, vertex_id in enumerate(self.vertices)` loop of
`BaseDirectedGraph.get_graph_cycle`; `i` is the enumeration index. -/
def graph_cycle_go (g : BaseDirectedGraph) :
    List Nat → Nat → List Bool → List Bool → Option (List Nat)
  | [], _, _, _ => some []
  | v :: rest, i, visited, stack =>
    if visited.getD i false = false then
      match get_subcycle (subcycleFuel g) g v visited stack with
      | none => none
      | some (cyc, visited', stack') =>
        match cyc with
        | [] => graph_cycle_go g rest (i + 1) visited' stack'
        | _ => some (cyc.reverse ++ [v])
    else graph_cycle_go g rest (i + 1) visited stack

/-- `BaseDirectedGraph.get_graph_cycle`, fallible form (`none` = recursion
fuel exhausted, proved impossible below for duplicate-free vertex lists). -/
def get_graph_cycleO (g : BaseDirectedGraph) : Option (List Nat) :=
  graph_cycle_go g g.vertices 0
    (List.replicate g.vertices.length false) (List.replicate g.vertices.length false)

/-- `BaseDirectedGraph.get_graph_cycle`.  The default for the (unreachable)
fuel-exhaustion case is the empty list. -/
def get_graph_cycle (g : BaseDirectedGraph) : List Nat := (get_graph_cycleO g).getD []

/-- `BaseDirectedGraph.is_cyclic`: the cycle list is non-empty. -/
def is_cyclic (g : BaseDirectedGraph) : Bool := !(get_graph_cycle g).isEmpty

mutual

/-- `BaseDirectedGraph._get_vertex_dependants`, on one adjacency function
`adj` (the forward or the inverse dictionary, fixed by the caller's
`direction`).  The Python function reads the *live* list `adj v`, and its
`dependant_vertices += …` extends that same list in place while the
`for` loop is still walking it; the state is therefore threaded: the
result is the final adjacency function together with the final value of
`adj v` (the list the source returns).  The gas bounds the total number
of call entries and loop steps; exhaustion models the interpreter's
recursion failure. -/
def get_vertex_dependants_core : Nat → (Nat → List Nat) → Nat →
    Option ((Nat → List Nat) × List Nat)
  | 0, _, _ => none
  | gas + 1, adj, v =>
    match adj v with
    | [] => some (adj, [])
    | _ => dependants_loop gas adj v 0

/-- The `for dependant_vertex in dependant_vertices` loop of
`_get_vertex_dependants`: position `i` walks the live list `adj v`,
which grows as results are appended to it. -/
def dependants_loop : Nat → (Nat → List Nat) → Nat → Nat →
    Option ((Nat → List Nat) × List Nat)
  | 0, _, _, _ => none
  | gas + 1, adj, v, i =>
    if h : i < (adj v).length then
      match get_vertex_dependants_core gas adj ((adj v).get ⟨i, h⟩) with
      | none => none
      | some (adj1, res) => dependants_loop gas (Function.update adj1 v (adj1 v ++ res)) v (i + 1)
    else some (adj, adj v)

end

/-- The recursion budget of the interpreter (`sys.getrecursionlimit()`
controls it in Python); the exact value is immaterial to every claim —
the theorems about cyclic graphs quantify over every budget and the
theorems about acyclic graphs are conditional on successful return — so
a small budget is used to keep concrete evaluation cheap. -/
def recursion_limit : Nat := 20

/-- `BaseDirectedGraph.get_vertex_dependants`: validates the direction,
runs the private traversal on the corresponding adjacency dictionary and
deduplicates the result through `list(set(...))`.  On a recursion failure
the source prints a diagnostic and re-raises; the partial in-place
mutations of the failure path are not modelled (no claim depends on
them), so the original graph is returned alongside the error. -/
def BaseDirectedGraph.get_vertex_dependants (g : BaseDirectedGraph) (v : Nat)
    (direction : String) : BaseDirectedGraph × Except PyErr (List Nat) :=
  match require_in_list direction ["forward", "backward"] with
  | .error e => (g, .error e)
  | .ok _ =>
    if direction = "forward" then
      match get_vertex_dependants_core recursion_limit g.graph v with
      | none => (g, .error .recursionError)
      | some (adj1, res) => ({ g with graph := adj1 }, .ok (pySetList res))
    else
      match get_vertex_dependants_core recursion_limit g.graph_inv v with
      | none => (g, .error .recursionError)
      | some (adj1, res) => ({ g with graph_inv := adj1 }, .ok (pySetList res))

/-- `BaseDirectedGraph.get_next_end_vertex`: the first remaining vertex
with no outgoing edge, or a `ValueError`.  (The embedded messages omit
the quote characters; no claim inspects them.) -/
def get_next_end_vertex (graph : BaseDirectedGraph) (remaining : List Nat) :
    Except PyErr Nat :=
  match remaining with
  | [] => .error (.valueError
      "Input remaining_vertices is empty. Please provide a non-empty input list.")
  | _ =>
    match remaining.find? (fun v => (graph.graph v).isEmpty) with
    | some v => .ok v
    | none => .error (.valueError
        ("None of the remaining vertices has no outgoing edges, i.e. they are part of a cycle. "
          ++ "Please use the get_graph_cycle function to identify the vertex that are part of the cycle."))

/-- The `while len(unsorted_vertices) > 1` loop of
`BaseDirectedGraph.sort_graph`, followed by the final
`sorted_vertices.append(unsorted_vertices[0])` (an `IndexError` when no
vertex remains) and the reversal. -/
def sort_graph_loop : Nat → BaseDirectedGraph → List Nat → List Nat →
    Except PyErr (List Nat)
  | fuel, working, unsorted, sorted =>
    if 1 < unsorted.length then
      match fuel with
      | 0 => .error .indexError
      | fuel + 1 =>
        match get_next_end_vertex working unsorted with
        | .error e => .error e
        | .ok v =>
          sort_graph_loop fuel (working.remove_vertex v) (unsorted.erase v) (sorted ++ [v])
    else
      match unsorted with
      | [] => .error .indexError
      | v :: _ => .ok ((sorted ++ [v]).reverse)

/-- `BaseDirectedGraph.sort_graph`: works on a deep copy of the graph (a
plain value here) and on a copy of the vertex list.  The structural fuel
is the length of the vertex list; each loop iteration removes exactly
one remaining vertex, so the fuel-exhaustion branch of the loop is
unreachable (the loop condition `1 < length` fails no later than the
fuel). -/
def BaseDirectedGraph.sort_graph (g : BaseDirectedGraph) : Except PyErr (List Nat) :=
  sort_graph_loop g.vertices.length g g.vertices []

/-- Insertion-ordered dictionary update, as a Python `d[k] = v`
assignment: an existing key keeps its position, a new key is appended. -/
def dictInsert {α β : Type} [DecidableEq α] : List (α × β) → α → β → List (α × β)
  | [], k, v => [(k, v)]
  | (k', v') :: t, k, v =>
    if k = k' then (k, v) :: t else (k', v') :: dictInsert t k v

/-- First-match dictionary lookup. -/
def dictGet {α β : Type} [DecidableEq α] : List (α × β) → α → Option β
  | [], _ => none
  | (k', v') :: t, k => if k = k' then some v' else dictGet t k

/-- Dictionary `pop`: removes the entry of a key.  (Our dictionaries are
built only through `dictInsert`, which keeps keys unique, so removing
every match coincides with Python's removal of the single entry.) -/
def dictPop {α β : Type} [DecidableEq α] (d : List (α × β)) (k : α) : List (α × β) :=
  d.filter (fun p => p.1 ≠ k)

/-- The state of `graphs.directedgraph.DirectedGraph`: the identifier
wrapper around the integer graph.  Tokens are strings (the solver uses
test-item names). -/
structure DirectedGraph where
  new_id : Nat
  vertices_map : List (String × Nat)
  vertices_map_inv : List (Nat × String)
  graph : BaseDirectedGraph

namespace DirectedGraph

/-- `DirectedGraph.__init__`. -/
def init : DirectedGraph := ⟨0, [], [], BaseDirectedGraph.init⟩

/-- `DirectedGraph.add_vertex`: unconditionally allocates the next
integer id, records the mapping in both directions and adds the vertex
to the base graph.  Returns the updated graph and the allocated id. -/
def add_vertex (g : DirectedGraph) (tok : String) : DirectedGraph × Nat :=
  let vid := g.new_id
  (⟨vid + 1,
    dictInsert g.vertices_map tok vid,
    dictInsert g.vertices_map_inv vid tok,
    g.graph.add_vertex vid⟩, vid)

/-- `DirectedGraph._get_vertex_id`: the id of an existing token, or a
fresh vertex for an unseen one. -/
def get_vertex_id (g : DirectedGraph) (tok : String) : DirectedGraph × Nat :=
  match dictGet g.vertices_map tok with
  | some vid => (g, vid)
  | none => g.add_vertex tok

/-- `DirectedGraph.remove_vertex`. -/
def remove_vertex (g : DirectedGraph) (tok : String) : DirectedGraph :=
  match dictGet g.vertices_map tok with
  | none => g
  | some vid =>
    ⟨g.new_id,
      dictPop g.vertices_map tok,
      dictPop g.vertices_map_inv vid,
      g.graph.remove_vertex vid⟩

/-- `DirectedGraph.add_edge`. -/
def add_edge (g : DirectedGraph) (a b : String) : DirectedGraph :=
  let (g1, ia) := g.get_vertex_id a
  let (g2, ib) := g1.get_vertex_id b
  { g2 with graph := g2.graph.add_edge ia ib }

/-- Token of an internal id (`self.vertices_map_inv[vertex_id]`; the
lookup cannot fail on the executed paths, the default is never read on
them). -/
def tokenOf (g : DirectedGraph) (vid : Nat) : String :=
  (dictGet g.vertices_map_inv vid).getD ""

/-- `DirectedGraph.graph_cycle`: the base-graph cycle, mapped back to
tokens. -/
def graph_cycle (g : DirectedGraph) : List String :=
  (get_graph_cycle g.graph).map g.tokenOf

/-- `DirectedGraph.is_graph_acyclic`. -/
def is_graph_acyclic (g : DirectedGraph) : Bool := g.graph_cycle.isEmpty

/-- `DirectedGraph.get_vertex_dependants`: validates the direction,
translates the token (creating a vertex for an unseen token, as
`_get_vertex_id` does), runs the base traversal — which mutates the
adjacency in place, hence the returned graph — and maps the ids back to
tokens. -/
def get_vertex_dependants (g : DirectedGraph) (tok : String) (direction : String) :
    DirectedGraph × Except PyErr (List String) :=
  match require_in_list direction ["forward", "backward"] with
  | .error e => (g, .error e)
  | .ok _ =>
    let (g1, vid) := g.get_vertex_id tok
    let (bg, res) := g1.graph.get_vertex_dependants vid direction
    let g2 := { g1 with graph := bg }
    match res with
    | .error e => (g2, .error e)
    | .ok ids => (g2, .ok (ids.map g2.tokenOf))

/-- `DirectedGraph.sort_graph`: validates the isolated-vertices policy,
deep-copies the base graph and delegates the sort, mapping ids to
tokens.  The source passes `isolated_vertices_position` through to
`BaseDirectedGraph.sort_graph`, whose signature takes no such parameter
and whose algorithm never consults the policy; the delegation is
therefore modelled as running the base sort unchanged. -/
def sort_graph (g : DirectedGraph) (isolated_vertices_position : String) :
    Except PyErr (List String) :=
  match require_in_list isolated_vertices_position ["start", "end"] with
  | .error e => .error e
  | .ok _ =>
    match g.graph.sort_graph with
    | .error e => .error e
    | .ok ids => .ok (ids.map g.tokenOf)

end DirectedGraph

/-- `configs.start_test_items_map`. -/
def start_test_items_map : List (String × Nat) :=
  [("first", 0), ("second", 1), ("third", 2), ("fourth", 3), ("fifth", 4),
   ("sixth", 5), ("seventh", 6), ("eighth", 7), ("ninth", 8), ("tenth", 9)]

/-- `configs.end_test_items_map`. -/
def end_test_items_map : List (String × Nat) :=
  [("tenth_to_last", 0), ("ninth_to_last", 1), ("eighth_to_last", 2),
   ("seventh_to_last", 3), ("sixth_to_last", 4), ("fifth_to_last", 5),
   ("fourth_to_last", 6), ("third_to_last", 7), ("second_to_last", 8), ("last", 9)]

/-- `configs.special_test_items`. -/
def special_test_items : List String :=
  start_test_items_map.map Prod.fst ++ end_test_items_map.map Prod.fst

/-- The state of `testitemssorter.TestItemsSorter`.  The `test_items`
dictionary maps an item id to the pytest item object; only its keys are
ever consulted, so it is modelled as the insertion-ordered key list. -/
structure TestItemsSorter where
  test_items : List String
  start_items : List (Option String)
  end_items : List (Option String)
  graph : DirectedGraph

namespace TestItemsSorter

/-- `TestItemsSorter.__init__`. -/
def init : TestItemsSorter :=
  ⟨[], List.replicate start_test_items_map.length none,
    List.replicate end_test_items_map.length none, DirectedGraph.init⟩

/-- `TestItemsSorter.add_test_item` (the item id is the test item's name,
per `get_test_item_id`).  Validates a declared special position, adds the
item and its vertex when unseen, then records the slot. -/
def add_test_item (s : TestItemsSorter) (tok : String) (special : Option String) :
    Except PyErr TestItemsSorter := do
  match special with
  | some sp => require_in_list sp special_test_items
  | none => pure ()
  let s1 :=
    if tok ∈ s.test_items then s
    else { s with test_items := s.test_items ++ [tok], graph := (s.graph.add_vertex tok).1 }
  match special with
  | none => pure s1
  | some sp =>
    match dictGet start_test_items_map sp with
    | some rank => pure { s1 with start_items := s1.start_items.set rank (some tok) }
    | none =>
      match dictGet end_test_items_map sp with
      | some rank => pure { s1 with end_items := s1.end_items.set rank (some tok) }
      | none => pure s1

/-- `TestItemsSorter.add_relation`. -/
def add_relation (s : TestItemsSorter) (a b : String) : TestItemsSorter :=
  { s with graph := s.graph.add_edge a b }

/-- The occupied start slots in rank order
(`[i for i in self.start_items if i is not None]`). -/
def startIds (s : TestItemsSorter) : List String := s.start_items.filterMap id

/-- The occupied end slots in rank order. -/
def endIds (s : TestItemsSorter) : List String := s.end_items.filterMap id

/-- Folds `add_edge` over the consecutive pairs of a token list. -/
def addChainEdges (g : DirectedGraph) : List String → DirectedGraph
  | a :: b :: rest => addChainEdges (g.add_edge a b) (b :: rest)
  | _ => g

/-- `TestItemsSorter.add_start_relations`. -/
def add_start_relations (s : TestItemsSorter) : TestItemsSorter :=
  { s with graph := addChainEdges s.graph s.startIds }

/-- `TestItemsSorter.add_end_relations`. -/
def add_end_relations (s : TestItemsSorter) : TestItemsSorter :=
  { s with graph := addChainEdges s.graph s.endIds }

/-- `TestItemsSorter.check_no_execution_loop`: raises `SortingError` with
the arrow-joined cycle when the graph is cyclic. -/
def check_no_execution_loop (s : TestItemsSorter) : Except PyErr Unit :=
  if s.graph.is_graph_acyclic then .ok ()
  else .error (.sortingError
    ("The test items contain a relations loop:\n"
      ++ String.intercalate " -> " s.graph.graph_cycle ++ "\n"))

/-- Order-preserving first-occurrence deduplication, then removal of the
members of `ys`: models the `list(set(xs) - set(ys))` of the error
messages.  (CPython string-set iteration order depends on string hashes;
no claim inspects a non-empty difference, so a deterministic order is
chosen.) -/
def pyStrSetDiff (xs ys : List String) : List String :=
  (xs.dedup).filter (fun x => x ∉ ys)

/-- `TestItemsSorter.check_start_items_execution_order`: the backward
dependants of the last occupied start slot, reversed with that item
appended, must equal the occupied start slots in rank order.  The
dependants query mutates the graph in place, hence the returned state. -/
def check_start_items_execution_order (s : TestItemsSorter) :
    Except PyErr TestItemsSorter :=
  match hids : s.startIds with
  | [] => .ok s
  | _ :: _ =>
    let lastId := s.startIds.getLast (by simp [hids])
    let (g1, res) := s.graph.get_vertex_dependants lastId "backward"
    let s1 := { s with graph := g1 }
    match res with
    | .error e => .error e
    | .ok deps =>
      let execution_order := deps.reverse ++ [lastId]
      if s.startIds = execution_order then .ok s1
      else .error (.sortingError
        ("\n The start test items cannot be executed in the correct order.\n Items: "
          ++ String.intercalate ", " (pyStrSetDiff execution_order s.startIds)
          ++ " point to a start item.\n "
          ++ "Please remove these dependencies to execute the tests in the desired order."))

/-- `TestItemsSorter.check_end_items_execution_order`: the forward
dependants of the first occupied end slot, with that item prepended,
must equal the occupied end slots in rank order. -/
def check_end_items_execution_order (s : TestItemsSorter) :
    Except PyErr TestItemsSorter :=
  match s.endIds with
  | [] => .ok s
  | firstId :: _ =>
    let (g1, res) := s.graph.get_vertex_dependants firstId "forward"
    let s1 := { s with graph := g1 }
    match res with
    | .error e => .error e
    | .ok deps =>
      let execution_order := firstId :: deps
      if s.endIds = execution_order then .ok s1
      else .error (.sortingError
        ("\n The end test items cannot be executed in the correct order.\n End test items are pointing "
          ++ "to items: " ++ String.intercalate ", " (pyStrSetDiff execution_order s.endIds)
          ++ ".\n Please remove these dependencies to execute the tests in the desired order."))

/-- `TestItemsSorter.check_if_sorting_possible`: materialise the slot
chains, then run the cycle check and the two order checks.  The order
checks mutate the sorter's graph in place, so the final state is
returned. -/
def check_if_sorting_possible (s : TestItemsSorter) : Except PyErr TestItemsSorter := do
  let s := s.add_start_relations.add_end_relations
  check_no_execution_loop s
  let s ← check_start_items_execution_order s
  let s ← check_end_items_execution_order s
  pure s

/-- `TestItemsSorter.sort_test_items_ids`: validate, deep-copy the graph,
remove the slot items from the copy, sort the remainder with the `end`
isolated-vertices policy and concatenate.  The sorter state after the
(mutating) checks is returned alongside the ordered id list, as a caller
of the Python method would observe it on `self`. -/
def sort_test_items_ids (s : TestItemsSorter) :
    Except PyErr (TestItemsSorter × List String) := do
  let s ← check_if_sorting_possible s
  let graphCopy := s.startIds.foldl (fun g t => DirectedGraph.remove_vertex g t) s.graph
  let graphCopy := s.endIds.foldl (fun g t => DirectedGraph.remove_vertex g t) graphCopy
  let remaining ← graphCopy.sort_graph "end"
  pure (s, s.startIds ++ remaining ++ s.endIds)

end TestItemsSorter

/-! ### Semantic predicates

Reachability over an adjacency function, used to state the graph-theoretic
claims.  A path is witnessed by the explicit list of its intermediate
vertices, so path facts about concrete graphs can be established by
computation. -/

/-- `chainB adj a l b`: the vertices of `l` form the (possibly empty)
interior of an edge path from `a` to `b`. -/
def chainB (adj : Nat → List Nat) : Nat → List Nat → Nat → Bool
  | a, [], b => decide (b ∈ adj a)
  | a, x :: l, b => decide (x ∈ adj a) && chainB adj x l b

/-- `Reaches adj a b`: a non-empty edge path leads from `a` to `b`. -/
def Reaches (adj : Nat → List Nat) (a b : Nat) : Prop :=
  ∃ l, chainB adj a l b = true

/-- A cycle is reachable from `v` (`v` may itself lie on the cycle). -/
def CycleReachable (adj : Nat → List Nat) (v : Nat) : Prop :=
  ∃ w, (w = v ∨ Reaches adj v w) ∧ Reaches adj w w

/-- How `_get_vertex_dependants` evolves the adjacency state: every list
only grows at its end, and everything appended to the list of `k` was
already reachable from `k` — so the reachability relation is untouched. -/
def DepsGrowth (adj adj' : Nat → List Nat) : Prop :=
  ∀ k, ∃ ext, adj' k = adj k ++ ext ∧ ∀ x ∈ ext, Reaches adj k x

/-- Reflexive-or-reaching: `b` is `a` itself or reachable from `a`. -/
def ReachStar (adj : Nat → List Nat) (a b : Nat) : Prop :=
  a = b ∨ Reaches adj a b

/-- The flag of vertex `u` in one of the positional boolean lists of the
depth-first search (indexed by `self.vertices.index(u)`, out-of-range
reads defaulting to `False`). -/
def FlagAt (g : BaseDirectedGraph) (flags : List Bool) (u : Nat) : Prop :=
  flags.getD (g.vertices.indexOf u) false = true

/-- `u` is black in Tarjan's colouring: visited and no longer on the
recursion stack. -/
def BlackAt (g : BaseDirectedGraph) (visited stack : List Bool) (u : Nat) : Prop :=
  FlagAt g visited u ∧ ¬ FlagAt g stack u

/-- The depth-first-search invariant: the recursion stack is contained
in the visited set, the black vertices are closed under adjacency, and
no black vertex lies on a cycle. -/
def DfsInv (g : BaseDirectedGraph) (visited stack : List Bool) : Prop :=
  (∀ u, FlagAt g stack u → FlagAt g visited u)
  ∧ (∀ u, BlackAt g visited stack u → ∀ w ∈ g.graph u, BlackAt g visited stack w)
  ∧ (∀ u, BlackAt g visited stack u → ¬ Reaches g.graph u u)

/-- Pointwise truth-preservation between two boolean lists (the visited
list only ever gains `True` entries). -/
def BoolLE (l l' : List Bool) : Prop :=
  List.Forall₂ (fun a b => a = true → b = true) l l'

/-- The forward/inverse symmetry invariant of the adjacency
dictionaries (holds for every graph built through the class's own
mutating operations; the claim C7 shows the dependants *query* breaks
it). -/
def BaseDirectedGraph.SymAdj (g : BaseDirectedGraph) : Prop :=
  ∀ a b, b ∈ g.graph a ↔ a ∈ g.graph_inv b

/-- Every integer vertex present in the base graph has a token in the
inverse mapping (true of identifier graphs built through the wrapper's
own operations, which only ever hand mapped ids to the base graph). -/
def DirectedGraph.VertsMapped (g : DirectedGraph) : Prop :=
  ∀ vid ∈ g.graph.vertices, ∃ tok, dictGet g.vertices_map_inv vid = some tok

/-- A token-level edge of an identifier graph: both tokens are mapped
and the corresponding integer edge is in the forward adjacency. -/
def DirectedGraph.TokEdge (g : DirectedGraph) (a b : String) : Prop :=
  ∃ ia ib, dictGet g.vertices_map a = some ia ∧ dictGet g.vertices_map b = some ib
    ∧ ib ∈ g.graph.graph ia

/-- Slot tokens of the sorter are registered in its graph. -/
def TestItemsSorter.SlotsRegistered (s : TestItemsSorter) : Prop :=
  (∀ t ∈ s.startIds, ∃ vid, dictGet s.graph.vertices_map t = some vid)
  ∧ (∀ t ∈ s.endIds, ∃ vid, dictGet s.graph.vertices_map t = some vid)

/-- The adjacency of a base graph only mentions vertices of its vertex
list (true of every graph built through the class's own operations). -/
def BaseDirectedGraph.EdgesClosed (g : BaseDirectedGraph) : Prop :=
  ∀ a b, b ∈ g.graph a → a ∈ g.vertices ∧ b ∈ g.vertices

/-- The bijection invariant of the identifier graph: the two mapping
dictionaries are mutually inverse, every mapped id is a present vertex
of the base graph, and every mapped id is below the allocation counter
(so a fresh id can never alias a mapped one). -/
def DirectedGraph.MapInv (g : DirectedGraph) : Prop :=
  (∀ tok vid, dictGet g.vertices_map tok = some vid ↔ dictGet g.vertices_map_inv vid = some tok)
  ∧ (∀ tok vid, dictGet g.vertices_map tok = some vid →
      vid ∈ g.graph.vertices ∧ vid < g.new_id)

/-- The reachable-state invariant of the solver's identifier graph:
the mapping bijection, duplicate-free base vertices, adjacency confined
to present vertices, forward/inverse symmetry and inverse-mapping
totality.  All five components hold of every graph built through
`add_vertex` on unseen tokens, `_get_vertex_id` and `add_edge`, which is
how the solver builds its graph. -/
def DirectedGraph.WellFormed (g : DirectedGraph) : Prop :=
  g.MapInv
  ∧ g.graph.vertices.Nodup
  ∧ g.graph.EdgesClosed
  ∧ g.graph.SymAdj
  ∧ g.VertsMapped

/-! ### Concrete scenarios -/

/-- Unwraps a sorter construction that provably succeeds (used only to
name concrete scenario states). -/
def buildOk (e : Except PyErr TestItemsSorter) : TestItemsSorter :=
  match e with
  | .ok s => s
  | .error _ => TestItemsSorter.init

/-- End-to-end scenario 3 of the specification: three plain items and the
relations `t1 before t2`, `t2 before t3`, `t3 before t1`. -/
def sessionRelationCycle : TestItemsSorter :=
  (((buildOk (do
    let s ← TestItemsSorter.init.add_test_item "t1" none
    let s ← s.add_test_item "t2" none
    s.add_test_item "t3" none)).add_relation "t1" "t2").add_relation "t2" "t3").add_relation "t3" "t1"

/-- End-to-end scenario 2 of the specification: `t1` at head rank
`first`, `t2` at head rank `second`, and the relation `t2 before t1`. -/
def sessionHeadContradiction : TestItemsSorter :=
  (buildOk (do
    let s ← TestItemsSorter.init.add_test_item "t1" (some "first")
    s.add_test_item "t2" (some "second"))).add_relation "t2" "t1"

/-- Three items declared at head ranks `first`, `second`, `third`, in
registration order and with no relation at all: a perfectly consistent
head declaration. -/
def sessionThreeHeads : TestItemsSorter :=
  buildOk (do
    let s ← TestItemsSorter.init.add_test_item "t1" (some "first")
    let s ← s.add_test_item "t2" (some "second")
    s.add_test_item "t3" (some "third"))

/-- A session whose only registered item occupies a head slot, so that
the remainder handed to the final topological sort is empty. -/
def sessionOnlyHead : TestItemsSorter :=
  buildOk (TestItemsSorter.init.add_test_item "t1" (some "first"))

/-- A full session for the resolution pipeline: `t1` at head rank
`first`, a plain item `t2`, `t3` at tail rank `last`, and the relation
`t1 before t2`. -/
def sessionHeadMidTail : TestItemsSorter :=
  (buildOk (do
    let s ← TestItemsSorter.init.add_test_item "t1" (some "first")
    let s ← s.add_test_item "t2" none
    s.add_test_item "t3" (some "last"))).add_relation "t1" "t2"

/-- The state/output pair returned by the resolution pipeline on
`sessionHeadMidTail` (the run provably succeeds; the default is never
used). -/
def sessionHeadMidTailRun : TestItemsSorter × List String :=
  (TestItemsSorter.sort_test_items_ids sessionHeadMidTail).toOption.getD
    (TestItemsSorter.init, [])

/-- Base graph with the edges `0 → 1` and `1 → 2`. -/
def graphChain2 : BaseDirectedGraph :=
  (BaseDirectedGraph.init.add_edge 0 1).add_edge 1 2

/-- Base graph with the single self-loop `0 → 0`. -/
def graphSelfLoop : BaseDirectedGraph := BaseDirectedGraph.init.add_edge 0 0

/-- Identifier graph with the edge `a → b` and the isolated vertex `c`,
registered last. -/
def graphIsolatedLast : DirectedGraph :=
  ((DirectedGraph.init.add_edge "a" "b").add_vertex "c").1

/-- Identifier graph after calling `add_vertex` twice with the same
token. -/
def graphDoubleAdd : DirectedGraph :=
  ((DirectedGraph.init.add_vertex "a").1.add_vertex "a").1

/-- Identifier graph with exactly the edges `A → B`, `B → C`, `C → A`. -/
def graphTriangle : DirectedGraph :=
  ((DirectedGraph.init.add_edge "A" "B").add_edge "B" "C").add_edge "C" "A"

/-! ## Dictionary lemmas -/

theorem dictGet_dictInsert {α β : Type} [DecidableEq α] (d : List (α × β)) (k k' : α) (v : β) :
    dictGet (dictInsert d k v) k' = if k' = k then some v else dictGet d k' := by
  induction d with
  | nil => by_cases hk' : k' = k <;> simp [dictInsert, dictGet, hk']
  | cons hd t ih =>
    obtain ⟨k0, v0⟩ := hd
    by_cases hk : k = k0
    · subst hk
      by_cases hk' : k' = k <;> simp [dictInsert, dictGet, hk']
    · by_cases hk' : k' = k0
      · subst hk'
        have hne : ¬ k' = k := fun h => hk (Eq.symm h)
        simp [dictInsert, dictGet, hk, hne]
      · simp [dictInsert, dictGet, hk, hk', ih]

theorem dictGet_dictPop {α β : Type} [DecidableEq α] (d : List (α × β)) (k k' : α) :
    dictGet (dictPop d k) k' = if k' = k then none else dictGet d k' := by
  induction d with
  | nil => simp [dictPop, dictGet]
  | cons hd t ih =>
    obtain ⟨k0, v0⟩ := hd
    by_cases hk : k0 = k
    · subst hk
      by_cases hk' : k' = k0
      · subst hk'
        simpa [dictPop, dictGet] using ih
      · simpa [dictPop, dictGet, hk'] using ih
    · by_cases hk' : k' = k0
      · subst hk'
        simp [dictPop, dictGet, hk, List.filter]
      · simp only [dictPop, List.filter, decide_not] at ih ⊢
        simp [dictGet, hk, hk', ih]

/-! ## Basic facts about the base graph operations -/

theorem mem_vertices_add_vertex {g : BaseDirectedGraph} {v w : Nat} (h : v ∈ g.vertices) :
    v ∈ (g.add_vertex w).vertices := by
  unfold BaseDirectedGraph.add_vertex
  split <;> simp [h]

theorem mem_vertices_add_vertex_self (g : BaseDirectedGraph) (v : Nat) :
    v ∈ (g.add_vertex v).vertices := by
  unfold BaseDirectedGraph.add_vertex
  split
  · assumption
  · simp

theorem mem_vertices_add_edge {g : BaseDirectedGraph} {v a b : Nat} (h : v ∈ g.vertices) :
    v ∈ (g.add_edge a b).vertices := by
  unfold BaseDirectedGraph.add_edge
  simp only []
  split <;> exact mem_vertices_add_vertex (mem_vertices_add_vertex h)

/-! ## Claim C2 — cycle detection error kind -/

/-- C2 counterexample.  On the scenario `t1 before t2`, `t2 before t3`,
`t3 before t1`, `resolve` (`sort_test_items_ids`) raises `SortingError` —
the very kind the claim says it must *not* raise — with the cycle
arrow-joined into the message.  No distinct `RelationCycleError` kind
exists anywhere in the sources (`PyErr` lists every kind they raise), so
the claim that the failure is "a distinct error kind, not SortingError"
is false. -/
theorem c2_counterexample :
    TestItemsSorter.sort_test_items_ids sessionRelationCycle
      = .error (.sortingError
        "The test items contain a relations loop:\nt1 -> t2 -> t3 -> t1\n") := rfl

/-- C2 amended: if the relation/position graph is cyclic after chain
materialization, `resolve` fails with `SortingError` (the same kind used
for head/tail-order violations — no distinct `RelationCycleError`
exists), carrying the discovered cycle as an arrow-joined token sequence
in the message; on the `t1/t2/t3` scenario the message embeds
`t1 -> t2 -> t3 -> t1`. -/
theorem c2_cycle_raises_sorting_error (s : TestItemsSorter)
    (h : (s.add_start_relations.add_end_relations).graph.is_graph_acyclic = false) :
    TestItemsSorter.sort_test_items_ids s = .error (.sortingError
      ("The test items contain a relations loop:\n"
        ++ String.intercalate " -> " (s.add_start_relations.add_end_relations).graph.graph_cycle
        ++ "\n")) := by
  unfold TestItemsSorter.sort_test_items_ids TestItemsSorter.check_if_sorting_possible
  unfold TestItemsSorter.check_no_execution_loop
  simp [h, Bind.bind, Except.bind]

/-- C2 amended witness: the amended statement applied to the concrete
scenario. -/
theorem c2_cycle_raises_sorting_error_witness :
    TestItemsSorter.sort_test_items_ids sessionRelationCycle = .error (.sortingError
      ("The test items contain a relations loop:\n"
        ++ String.intercalate " -> "
            (sessionRelationCycle.add_start_relations.add_end_relations).graph.graph_cycle
        ++ "\n")) :=
  c2_cycle_raises_sorting_error sessionRelationCycle rfl

/-! ## Claim C4 — dependants on a cyclic region (counterexample part) -/

/-- C4 counterexample.  On the one-vertex graph with the self-loop
`0 → 0`, `get_vertex_dependants` surfaces the raw interpreter recursion
failure (`RecursionError`, printed about and re-raised by the source) —
not a translated `GraphCycleError`; no such error kind exists in the
sources (`PyErr` lists every kind they raise). -/
theorem c4_counterexample :
    (graphSelfLoop.get_vertex_dependants 0 "forward").2 = .error .recursionError := rfl

/-! ## Claim C5 — head-order validation -/

/-- C5 (code bug).  First conjunct: with `t1`, `t2`, `t3` registered in
this order at the consistent head ranks `first`, `second`, `third` and
no relation declared at all, `resolve` nevertheless raises
`SortingError` (naming no offending token): the head-order check pipes
the predecessor closure through `list(set(...))`, which reorders it by
internal integer id — ascending registration order — so the comparison
list comes out as `[t2, t1, t3]` instead of `[t1, t2, t3]`.  The claim
says the check passes on consistent declarations.  Second conjunct: the
claim's scenario (`t1` at `first`, `t2` at `second`, relation `t2 before
t1`) does raise `SortingError`, as claimed (the contradiction already
forms a cycle with the materialised chain edge `t1 → t2`). -/
theorem c5_head_check_rejects_consistent_heads :
    TestItemsSorter.sort_test_items_ids sessionThreeHeads
      = .error (.sortingError
        ("\n The start test items cannot be executed in the correct order.\n Items: "
          ++ " point to a start item.\n "
          ++ "Please remove these dependencies to execute the tests in the desired order."))
    ∧ TestItemsSorter.sort_test_items_ids sessionHeadContradiction
      = .error (.sortingError
        "The test items contain a relations loop:\nt1 -> t2 -> t1\n") :=
  ⟨rfl, rfl⟩

/-! ## Claim C6 — isolated-vertex policy of the topological sort -/

/-- C6 (code bug).  The policy argument is validated against exactly
`start` and `end` (third conjunct), but it has no effect on the sort:
on the graph with edge `a → b` and the isolated vertex `c` (registered
last, internal id 2 — no incoming and no outgoing edge, as the second
and fourth conjuncts show), the `end` policy returns `[c, a, b]`,
placing the isolated vertex *before* every non-isolated one.  The base
sort the wrapper delegates to takes no policy parameter and never
consults it. -/
theorem c6_isolated_vertex_sorted_first :
    graphIsolatedLast.sort_graph "end" = .ok ["c", "a", "b"]
    ∧ graphIsolatedLast.graph.graph 2 = []
    ∧ graphIsolatedLast.sort_graph "middle"
        = .error (.validationError "Item middle not in valid items list: start, end")
    ∧ graphIsolatedLast.graph.graph 0 = [1]
    ∧ graphIsolatedLast.graph.graph_inv 2 = []
    ∧ dictGet graphIsolatedLast.vertices_map "c" = some 2 :=
  ⟨rfl, rfl, rfl, rfl, rfl, rfl⟩

/-! ## Claim C7 — forward/inverse adjacency symmetry -/

/-- C7 (code bug).  On the graph with edges `0 → 1`, `1 → 2`, the
read-only query `get_vertex_dependants(0, forward)` mutates the forward
adjacency in place — `_get_vertex_dependants` extends the live
dictionary list — leaving `graph[0] = [1, 2]` while the inverse
adjacency still has `graph_inv[2] = [1]`: the edge `(0, 2)` now exists
in forward with no `(2, 0)` counterpart in inverse, so the symmetry
invariant is not preserved and the query does not leave the adjacency
structures unchanged. -/
theorem c7_dependants_query_mutates_adjacency :
    (graphChain2.get_vertex_dependants 0 "forward").1.graph 0 = [1, 2]
    ∧ graphChain2.graph 0 = [1]
    ∧ (graphChain2.get_vertex_dependants 0 "forward").1.graph_inv 2 = [1]
    ∧ (2 ∈ (graphChain2.get_vertex_dependants 0 "forward").1.graph 0
        ∧ 0 ∉ (graphChain2.get_vertex_dependants 0 "forward").1.graph_inv 2) :=
  ⟨rfl, rfl, rfl, by decide⟩

/-! ## Claim C8 — token/id mapping bijection -/

/-- C8 counterexample.  Calling `add_vertex` twice with the same token
creates a second internal id for it: the inverse mapping ends with both
`0 ↦ "a"` and `1 ↦ "a"`, the forward mapping is overwritten to
`"a" ↦ 1`, and both integer vertices are present in the base graph —
the mapping is no longer a bijection restricted to present vertices. -/
theorem c8_counterexample :
    graphDoubleAdd.vertices_map_inv = [(0, "a"), (1, "a")]
    ∧ dictGet graphDoubleAdd.vertices_map "a" = some 1
    ∧ graphDoubleAdd.graph.vertices = [0, 1]
    ∧ graphDoubleAdd.new_id = 2 :=
  ⟨rfl, rfl, rfl, rfl⟩

theorem mapInv_init : DirectedGraph.init.MapInv := by
  constructor <;> intro tok vid <;> simp [DirectedGraph.init, dictGet]

theorem mapInv_add_vertex_absent {g : DirectedGraph} {tok : String} (hInv : g.MapInv)
    (habs : dictGet g.vertices_map tok = none) : (g.add_vertex tok).1.MapInv := by
  obtain ⟨hiff, hbound⟩ := hInv
  constructor
  · intro tok' vid'
    show dictGet (dictInsert g.vertices_map tok g.new_id) tok' = some vid'
      ↔ dictGet (dictInsert g.vertices_map_inv g.new_id tok) vid' = some tok'
    rw [dictGet_dictInsert, dictGet_dictInsert]
    by_cases ht : tok' = tok
    · subst ht
      by_cases hv : vid' = g.new_id
      · subst hv; simp
      · simp only [if_pos rfl, if_neg hv]
        constructor
        · intro hL
          cases hL
          exact absurd rfl hv
        · intro hR
          have := (hiff tok' vid').mpr hR
          rw [habs] at this
          cases this
    · by_cases hv : vid' = g.new_id
      · subst hv
        simp only [if_neg ht, if_pos rfl]
        constructor
        · intro hL
          exact absurd (hbound tok' _ hL).2 (lt_irrefl _)
        · intro hR
          cases hR
          exact absurd rfl ht
      · simp only [if_neg ht, if_neg hv]
        exact hiff tok' vid'
  · intro tok' vid' h'
    rw [show (g.add_vertex tok).1.vertices_map = dictInsert g.vertices_map tok g.new_id from rfl,
      dictGet_dictInsert] at h'
    by_cases ht : tok' = tok
    · rw [if_pos ht] at h'
      cases h'
      exact ⟨mem_vertices_add_vertex_self _ _, Nat.lt_succ_self _⟩
    · rw [if_neg ht] at h'
      obtain ⟨hm, hb⟩ := hbound tok' vid' h'
      exact ⟨mem_vertices_add_vertex hm, Nat.lt_succ_of_lt hb⟩

theorem mapInv_get_vertex_id {g : DirectedGraph} (tok : String) (hInv : g.MapInv) :
    (g.get_vertex_id tok).1.MapInv := by
  unfold DirectedGraph.get_vertex_id
  rcases hd : dictGet g.vertices_map tok with _ | vid
  · simp only [hd]
    exact mapInv_add_vertex_absent hInv hd
  · simp only [hd]
    exact hInv

theorem mapInv_add_edge {g : DirectedGraph} (a b : String) (hInv : g.MapInv) :
    (g.add_edge a b).MapInv := by
  have h2 := mapInv_get_vertex_id b (mapInv_get_vertex_id a hInv)
  obtain ⟨hiff, hbound⟩ := h2
  constructor
  · intro tok vid
    exact hiff tok vid
  · intro tok vid h'
    obtain ⟨hm, hb⟩ := hbound tok vid h'
    exact ⟨mem_vertices_add_edge hm, hb⟩

theorem mapInv_remove_vertex {g : DirectedGraph} (tok : String) (hInv : g.MapInv) :
    (g.remove_vertex tok).MapInv := by
  obtain ⟨hiff, hbound⟩ := hInv
  unfold DirectedGraph.remove_vertex
  rcases hd : dictGet g.vertices_map tok with _ | vid
  · simp only [hd]
    exact ⟨hiff, hbound⟩
  · simp only [hd]
    constructor
    · intro tok' vid'
      show dictGet (dictPop g.vertices_map tok) tok' = some vid'
        ↔ dictGet (dictPop g.vertices_map_inv vid) vid' = some tok'
      rw [dictGet_dictPop, dictGet_dictPop]
      by_cases ht : tok' = tok
      · subst ht
        by_cases hv : vid' = vid
        · simp [hv]
        · simp only [if_pos rfl, if_neg hv]
          constructor
          · intro h; cases h
          · intro hR
            have := (hiff tok' vid').mpr hR
            rw [hd] at this
            cases this
            exact absurd rfl hv
      · by_cases hv : vid' = vid
        · subst hv
          simp only [if_neg ht, if_pos rfl]
          constructor
          · intro hL
            have h1 := (hiff tok' vid').mp hL
            have h2 := (hiff tok vid').mp hd
            rw [h1] at h2
            cases h2
            exact absurd rfl ht
          · intro h; cases h
        · simp only [if_neg ht, if_neg hv]
          exact hiff tok' vid'
    · intro tok' vid' h'
      rw [show (⟨g.new_id, dictPop g.vertices_map tok, dictPop g.vertices_map_inv vid,
            g.graph.remove_vertex vid⟩ : DirectedGraph).vertices_map
          = dictPop g.vertices_map tok from rfl, dictGet_dictPop] at h'
      have ht : ¬ tok' = tok := by
        intro h
        rw [if_pos h] at h'
        cases h'
      rw [if_neg ht] at h'
      obtain ⟨hm, hb⟩ := hbound tok' vid' h'
      have hv : vid' ≠ vid := by
        intro h
        subst h
        have h1 := (hiff tok' vid').mp h'
        have h2 := (hiff tok vid').mp hd
        rw [h1] at h2
        cases h2
        exact absurd rfl ht
      refine ⟨?_, hb⟩
      show vid' ∈ (g.graph.remove_vertex vid).vertices
      unfold BaseDirectedGraph.remove_vertex
      split
      · exact (List.mem_erase_of_ne hv).mpr hm
      · exact hm

/-- C8 amended: `_get_vertex_id` on a present token allocates nothing
(first conjunct); `add_vertex` itself always allocates the next counter
value and bumps the counter (second conjunct); `remove_vertex` leaves
the counter untouched, so ids are never reused (third conjunct); and the
bijection invariant `MapInv` is preserved by `_get_vertex_id`,
`add_edge`, `remove_vertex`, and by `add_vertex` on an *unseen* token —
but not by `add_vertex` on a present token, per the counterexample. -/
theorem c8_mapping_invariant :
    (∀ (g : DirectedGraph) (tok : String) (vid : Nat),
      dictGet g.vertices_map tok = some vid → g.get_vertex_id tok = (g, vid))
    ∧ (∀ (g : DirectedGraph) (tok : String),
      (g.add_vertex tok).2 = g.new_id ∧ (g.add_vertex tok).1.new_id = g.new_id + 1)
    ∧ (∀ (g : DirectedGraph) (tok : String), (g.remove_vertex tok).new_id = g.new_id)
    ∧ (∀ (g : DirectedGraph) (tok : String), g.MapInv →
      dictGet g.vertices_map tok = none → (g.add_vertex tok).1.MapInv)
    ∧ (∀ (g : DirectedGraph) (tok : String), g.MapInv → (g.get_vertex_id tok).1.MapInv)
    ∧ (∀ (g : DirectedGraph) (a b : String), g.MapInv → (g.add_edge a b).MapInv)
    ∧ (∀ (g : DirectedGraph) (tok : String), g.MapInv → (g.remove_vertex tok).MapInv) := by
  refine ⟨?_, ?_, ?_, ?_, ?_, ?_, ?_⟩
  · intro g tok vid h
    unfold DirectedGraph.get_vertex_id
    simp only [h]
  · intro g tok
    exact ⟨rfl, rfl⟩
  · intro g tok
    unfold DirectedGraph.remove_vertex
    rcases hd : dictGet g.vertices_map tok with _ | vid <;> simp only [hd]
  · intro g tok hInv habs
    exact mapInv_add_vertex_absent hInv habs
  · intro g tok hInv
    exact mapInv_get_vertex_id tok hInv
  · intro g a b hInv
    exact mapInv_add_edge a b hInv
  · intro g tok hInv
    exact mapInv_remove_vertex tok hInv

/-- C8 amended witness: an existing token keeps its id through
`_get_vertex_id` on a concrete graph, and the invariant holds of a
concretely built graph. -/
theorem c8_mapping_invariant_witness :
    DirectedGraph.get_vertex_id graphDoubleAdd "a" = (graphDoubleAdd, 1)
    ∧ DirectedGraph.MapInv (DirectedGraph.init.add_edge "a" "b") :=
  ⟨c8_mapping_invariant.1 graphDoubleAdd "a" 1 rfl,
   c8_mapping_invariant.2.2.2.2.2.1 DirectedGraph.init "a" "b" mapInv_init⟩

/-! ## Claim C9 — recognized absolute-position names -/

/-- C9 counterexample.  The set of recognized absolute-position names
(`configs.special_test_items`, the list `add_test_item` validates
against) has 20 members — ten head ranks (`first` … `tenth`) and ten
tail ranks (`tenth_to_last` … `last`) — not 16; in particular `ninth`
is recognized although the claim allows only 8 head ranks. -/
theorem c9_counterexample :
    special_test_items.length = 20
    ∧ ¬ special_test_items.length = 16
    ∧ "ninth" ∈ special_test_items
    ∧ "ninth_to_last" ∈ special_test_items := by decide

/-- C9 amended: the recognized absolute-position names are exactly these
20 — 10 head ranks (ranks 0..9 from the start) and 10 tail ranks (ranks
0..9 from the end) — and each slot array has one `Option`al cell per
rank (10 cells), holding at most one vertex per rank. -/
theorem c9_amended_recognized_positions :
    special_test_items =
      ["first", "second", "third", "fourth", "fifth", "sixth", "seventh", "eighth",
        "ninth", "tenth", "tenth_to_last", "ninth_to_last", "eighth_to_last",
        "seventh_to_last", "sixth_to_last", "fifth_to_last", "fourth_to_last",
        "third_to_last", "second_to_last", "last"]
    ∧ start_test_items_map.map Prod.snd = [0, 1, 2, 3, 4, 5, 6, 7, 8, 9]
    ∧ end_test_items_map.map Prod.snd = [0, 1, 2, 3, 4, 5, 6, 7, 8, 9]
    ∧ TestItemsSorter.init.start_items = List.replicate 10 none
    ∧ TestItemsSorter.init.end_items = List.replicate 10 none :=
  ⟨rfl, rfl, rfl, rfl, rfl⟩

/-! ## Claim C10 — empty remainder crashes the final sort -/

/-- C10.  The base topological sort on a graph with zero vertices does
not return the empty sequence: it unconditionally reads the last
remaining element and fails with `IndexError` (first conjunct, for
every graph with an empty vertex list).  Consequently a session whose
every registered item occupies a head or tail slot — here a single item
at head rank `first` — fails in `sort_test_items_ids` with that
`IndexError` instead of returning the head and tail tokens alone
(second conjunct). -/
theorem c10_empty_remainder_sort_fails :
    (∀ g : BaseDirectedGraph, g.vertices = [] → g.sort_graph = .error .indexError)
    ∧ TestItemsSorter.sort_test_items_ids sessionOnlyHead = .error .indexError := by
  constructor
  · intro g hg
    unfold BaseDirectedGraph.sort_graph
    rw [hg]
    rfl
  · rfl

/-- C10 witness: the universally quantified first conjunct applied to
the freshly initialised graph. -/
theorem c10_empty_remainder_sort_fails_witness :
    BaseDirectedGraph.init.sort_graph = .error .indexError :=
  c10_empty_remainder_sort_fails.1 BaseDirectedGraph.init rfl

/-! ## Reachability toolkit -/

theorem reaches_of_mem {adj : Nat → List Nat} {a b : Nat} (h : b ∈ adj a) :
    Reaches adj a b :=
  ⟨[], by simpa [chainB] using h⟩

theorem chainB_append {adj : Nat → List Nat} {b c : Nat} {l₂ : List Nat}
    (h₂ : chainB adj b l₂ c = true) :
    ∀ {l₁ : List Nat} {a : Nat}, chainB adj a l₁ b = true →
      chainB adj a (l₁ ++ b :: l₂) c = true := by
  intro l₁
  induction l₁ with
  | nil =>
    intro a h₁
    simp only [chainB, decide_eq_true_eq] at h₁
    simp only [List.nil_append, chainB, Bool.and_eq_true, decide_eq_true_eq]
    exact ⟨h₁, h₂⟩
  | cons x l ih =>
    intro a h₁
    simp only [chainB, Bool.and_eq_true, decide_eq_true_eq] at h₁
    simp only [List.cons_append, chainB, Bool.and_eq_true, decide_eq_true_eq]
    exact ⟨h₁.1, ih h₁.2⟩

theorem reaches_trans {adj : Nat → List Nat} {a b c : Nat}
    (h₁ : Reaches adj a b) (h₂ : Reaches adj b c) : Reaches adj a c := by
  obtain ⟨l₁, hc₁⟩ := h₁
  obtain ⟨l₂, hc₂⟩ := h₂
  exact ⟨l₁ ++ b :: l₂, chainB_append hc₂ hc₁⟩

theorem chainB_subset {adj adj' : Nat → List Nat}
    (hsub : ∀ k x, x ∈ adj k → x ∈ adj' k) :
    ∀ (l : List Nat) (a b : Nat), chainB adj a l b = true → chainB adj' a l b = true := by
  intro l
  induction l with
  | nil =>
    intro a b h
    simp only [chainB, decide_eq_true_eq] at h ⊢
    exact hsub a b h
  | cons x t ih =>
    intro a b h
    simp only [chainB, Bool.and_eq_true, decide_eq_true_eq] at h ⊢
    exact ⟨hsub a x h.1, ih x b h.2⟩

theorem reaches_of_subset {adj adj' : Nat → List Nat}
    (hsub : ∀ k x, x ∈ adj k → x ∈ adj' k) {a b : Nat}
    (h : Reaches adj a b) : Reaches adj' a b := by
  obtain ⟨l, hc⟩ := h
  exact ⟨l, chainB_subset hsub l a b hc⟩

theorem depsGrowth_refl (adj : Nat → List Nat) : DepsGrowth adj adj :=
  fun k => ⟨[], by simp⟩

theorem depsGrowth_subset {adj adj' : Nat → List Nat} (hg : DepsGrowth adj adj') :
    ∀ k x, x ∈ adj k → x ∈ adj' k := by
  intro k x hx
  obtain ⟨ext, heq, _⟩ := hg k
  rw [heq]
  exact List.mem_append_left _ hx

theorem reaches_growth_rev {adj adj' : Nat → List Nat} (hg : DepsGrowth adj adj') :
    ∀ (l : List Nat) (a b : Nat), chainB adj' a l b = true → Reaches adj a b := by
  intro l
  induction l with
  | nil =>
    intro a b h
    simp only [chainB, decide_eq_true_eq] at h
    obtain ⟨ext, heq, hext⟩ := hg a
    rw [heq] at h
    rcases List.mem_append.mp h with h' | h'
    · exact reaches_of_mem h'
    · exact hext b h'
  | cons x t ih =>
    intro a b h
    simp only [chainB, Bool.and_eq_true, decide_eq_true_eq] at h
    have hax : Reaches adj a x := by
      obtain ⟨ext, heq, hext⟩ := hg a
      rw [heq] at h
      rcases List.mem_append.mp h.1 with h' | h'
      · exact reaches_of_mem h'
      · exact hext x h'
    exact reaches_trans hax (ih x b h.2)

theorem reaches_of_growth {adj adj' : Nat → List Nat} (hg : DepsGrowth adj adj')
    {a b : Nat} (h : Reaches adj' a b) : Reaches adj a b := by
  obtain ⟨l, hc⟩ := h
  exact reaches_growth_rev hg l a b hc

theorem depsGrowth_comp {adj adj₁ adj₂ : Nat → List Nat}
    (h1 : DepsGrowth adj adj₁) (h2 : DepsGrowth adj₁ adj₂) : DepsGrowth adj adj₂ := by
  intro k
  obtain ⟨e1, q1, r1⟩ := h1 k
  obtain ⟨e2, q2, r2⟩ := h2 k
  refine ⟨e1 ++ e2, ?_, ?_⟩
  · rw [q2, q1, List.append_assoc]
  · intro x hx
    rcases List.mem_append.mp hx with h' | h'
    · exact r1 x h'
    · exact reaches_of_growth h1 (r2 x h')

theorem reaches_ne_nil {adj : Nat → List Nat} {v b : Nat} (h : Reaches adj v b) :
    adj v ≠ [] := by
  obtain ⟨l, hc⟩ := h
  cases l with
  | nil =>
    simp only [chainB, decide_eq_true_eq] at hc
    exact List.ne_nil_of_mem hc
  | cons x t =>
    simp only [chainB, Bool.and_eq_true, decide_eq_true_eq] at hc
    exact List.ne_nil_of_mem hc.1

theorem cycleReachable_step {adj : Nat → List Nat} {v : Nat}
    (h : CycleReachable adj v) : ∃ u ∈ adj v, CycleReachable adj u := by
  obtain ⟨w, hw, hww⟩ := h
  rcases hw with rfl | hvw
  · have hww' := hww
    obtain ⟨l, hc⟩ := hww
    cases l with
    | nil =>
      simp only [chainB, decide_eq_true_eq] at hc
      exact ⟨w, hc, w, Or.inl rfl, hww'⟩
    | cons x t =>
      simp only [chainB, Bool.and_eq_true, decide_eq_true_eq] at hc
      exact ⟨x, hc.1, w, Or.inr ⟨t, hc.2⟩, hww'⟩
  · obtain ⟨l, hc⟩ := hvw
    cases l with
    | nil =>
      simp only [chainB, decide_eq_true_eq] at hc
      exact ⟨w, hc, w, Or.inl rfl, hww⟩
    | cons x t =>
      simp only [chainB, Bool.and_eq_true, decide_eq_true_eq] at hc
      exact ⟨x, hc.1, w, Or.inr ⟨t, hc.2⟩, hww⟩

theorem mem_sortedInsert (x y : Nat) (l : List Nat) :
    y ∈ sortedInsert x l ↔ y = x ∨ y ∈ l := by
  induction l with
  | nil => simp [sortedInsert]
  | cons z zs ih =>
    simp only [sortedInsert]
    split
    · simp
    · split
      · next h1 h2 =>
        subst h2
        simp only [List.mem_cons]
        tauto
      · simp only [List.mem_cons, ih]
        tauto

theorem mem_pySetList (y : Nat) (l : List Nat) : y ∈ pySetList l ↔ y ∈ l := by
  induction l with
  | nil => simp [pySetList]
  | cons x t ih =>
    show y ∈ sortedInsert x (pySetList t) ↔ _
    rw [mem_sortedInsert, ih]
    simp

/-! ## Correctness of the dependants traversal -/

theorem get_congr {α : Type} (l l' : List α) (h : l = l') (j : Nat)
    (hj : j < l.length) (hj' : j < l'.length) : l.get ⟨j, hj⟩ = l'.get ⟨j, hj'⟩ := by
  subst h
  rfl

theorem get_append_left' {α : Type} (l t : List α) (j : Nat) (hj : j < l.length)
    (hjt : j < (l ++ t).length) : (l ++ t).get ⟨j, hjt⟩ = l.get ⟨j, hj⟩ := by
  induction l generalizing j with
  | nil => exact absurd hj (by simp)
  | cons x xs ih =>
    cases j with
    | zero => rfl
    | succ j => exact ih j (by simpa using hj) (by simpa using hjt)

theorem deps_success_spec : ∀ gas : Nat,
    (∀ adj v adj' out, get_vertex_dependants_core gas adj v = some (adj', out) →
      DepsGrowth adj adj' ∧ out = adj' v ∧ (∀ b, Reaches adj v b → b ∈ out))
    ∧ (∀ adj v i adj' out, dependants_loop gas adj v i = some (adj', out) →
      DepsGrowth adj adj' ∧ out = adj' v ∧
        ∀ j (hj : j < (adj v).length), i ≤ j →
          (adj v).get ⟨j, hj⟩ ∈ out ∧
          ∀ b, Reaches adj ((adj v).get ⟨j, hj⟩) b → b ∈ out) := by
  intro gas
  induction gas with
  | zero =>
    constructor
    · intro adj v adj' out h; cases h
    · intro adj v i adj' out h; cases h
  | succ gas ih =>
    obtain ⟨ihc, ihl⟩ := ih
    constructor
    · intro adj v adj' out h
      rw [get_vertex_dependants_core] at h
      rcases hadj : adj v with _ | ⟨u0, rest⟩
      · simp only [hadj] at h
        cases h
        refine ⟨depsGrowth_refl adj, hadj.symm, ?_⟩
        intro b hb
        exact absurd hadj (reaches_ne_nil hb)
      · simp only [hadj] at h
        obtain ⟨hg, hout, hcompl⟩ := ihl adj v 0 adj' out h
        refine ⟨hg, hout, ?_⟩
        intro b hb
        obtain ⟨l, hc⟩ := hb
        cases l with
        | nil =>
          simp only [chainB, decide_eq_true_eq] at hc
          obtain ⟨n, hn⟩ := List.mem_iff_get.mp hc
          have H := hcompl n.1 n.2 (Nat.zero_le _)
          exact hn ▸ H.1
        | cons x t =>
          simp only [chainB, Bool.and_eq_true, decide_eq_true_eq] at hc
          obtain ⟨n, hn⟩ := List.mem_iff_get.mp hc.1
          have H := hcompl n.1 n.2 (Nat.zero_le _)
          have hx : Reaches adj x b := ⟨t, hc.2⟩
          rw [← hn] at hx
          exact H.2 b hx
    · intro adj v i adj' out h
      rw [dependants_loop] at h
      by_cases hlt : i < (adj v).length
      · rw [dif_pos hlt] at h
        rcases hcore : get_vertex_dependants_core gas adj ((adj v).get ⟨i, hlt⟩)
          with _ | ⟨adj1, res⟩
        · simp only [hcore] at h
          cases h
        · simp only [hcore] at h
          obtain ⟨hg1, hres, hcompl_u⟩ := ihc adj _ adj1 res hcore
          have humem : (adj v).get ⟨i, hlt⟩ ∈ adj v := List.get_mem _ _ _
          have hres_reach : ∀ x ∈ res, Reaches adj1 v x := by
            intro x hx
            rw [hres] at hx
            obtain ⟨ext, heq, hext⟩ := hg1 ((adj v).get ⟨i, hlt⟩)
            rw [heq] at hx
            have hux : Reaches adj ((adj v).get ⟨i, hlt⟩) x := by
              rcases List.mem_append.mp hx with h' | h'
              · exact reaches_of_mem h'
              · exact hext x h'
            have hvx : Reaches adj v x :=
              reaches_trans (reaches_of_mem humem) hux
            exact reaches_of_subset (depsGrowth_subset hg1) hvx
          have hg12 : DepsGrowth adj1 (Function.update adj1 v (adj1 v ++ res)) := by
            intro k
            by_cases hk : k = v
            · subst hk
              exact ⟨res, by simp [Function.update], hres_reach⟩
            · exact ⟨[], by simp [Function.update, hk], by simp⟩
          have hgA : DepsGrowth adj (Function.update adj1 v (adj1 v ++ res)) :=
            depsGrowth_comp hg1 hg12
          obtain ⟨hg2', hout, hcompl'⟩ := ihl _ v (i + 1) adj' out h
          refine ⟨depsGrowth_comp hgA hg2', hout, ?_⟩
          intro j hj hij
          have hupd : Function.update adj1 v (adj1 v ++ res) v = adj1 v ++ res := by
            simp [Function.update]
          obtain ⟨ext1, heq1, _⟩ := hg1 v
          have hlen2 : (adj v).length ≤ (Function.update adj1 v (adj1 v ++ res) v).length := by
            rw [hupd, heq1]
            simp only [List.length_append]
            omega
          have hj2 : j < (Function.update adj1 v (adj1 v ++ res) v).length :=
            lt_of_lt_of_le hj hlen2
          have hE : Function.update adj1 v (adj1 v ++ res) v = (adj v ++ ext1) ++ res := by
            rw [hupd, heq1]
          have hjE : j < ((adj v ++ ext1) ++ res).length := by
            rw [← hE]
            exact hj2
          have hjL : j < (adj v ++ ext1).length := by
            simp only [List.length_append]
            omega
          have hget : (Function.update adj1 v (adj1 v ++ res) v).get ⟨j, hj2⟩
              = (adj v).get ⟨j, hj⟩ := by
            rw [get_congr _ _ hE j hj2 hjE]
            rw [get_append_left' _ _ j hjL hjE]
            rw [get_append_left' _ _ j hj hjL]
          rcases Nat.eq_or_lt_of_le hij with rfl | hij'
          · constructor
            · have h1 : (adj v).get ⟨i, hj⟩ ∈ Function.update adj1 v (adj1 v ++ res) v :=
                depsGrowth_subset hgA v _ (List.get_mem _ _ _)
              have h2 := depsGrowth_subset hg2' v _ h1
              rw [hout]
              exact h2
            · intro b hb
              have hb' : b ∈ res := hcompl_u b hb
              have h1 : b ∈ Function.update adj1 v (adj1 v ++ res) v := by
                rw [hupd]
                exact List.mem_append_right _ hb'
              have h2 := depsGrowth_subset hg2' v _ h1
              rw [hout]
              exact h2
          · have H := hcompl' j hj2 hij'
            rw [hget] at H
            refine ⟨H.1, ?_⟩
            intro b hb
            exact H.2 b (reaches_of_subset (depsGrowth_subset hgA) hb)
      · rw [dif_neg hlt] at h
        cases h
        refine ⟨depsGrowth_refl adj, rfl, ?_⟩
        intro j hj hij
        exact absurd (lt_of_le_of_lt hij hj) hlt

theorem depsGrowth_length_le {adj adj' : Nat → List Nat} (hg : DepsGrowth adj adj')
    (k : Nat) : (adj k).length ≤ (adj' k).length := by
  obtain ⟨ext, heq, _⟩ := hg k
  rw [heq]
  simp only [List.length_append]
  omega

theorem depsGrowth_get {adj adj' : Nat → List Nat} (hg : DepsGrowth adj adj')
    (k j : Nat) (hj : j < (adj k).length) (hj' : j < (adj' k).length) :
    (adj' k).get ⟨j, hj'⟩ = (adj k).get ⟨j, hj⟩ := by
  obtain ⟨ext, heq, _⟩ := hg k
  rw [get_congr _ _ heq j hj' (by rw [← heq]; exact hj')]
  exact get_append_left' _ _ j hj _

theorem cycleReachable_mono {adj adj' : Nat → List Nat}
    (hs : ∀ k x, x ∈ adj k → x ∈ adj' k) {u : Nat}
    (h : CycleReachable adj u) : CycleReachable adj' u := by
  obtain ⟨w, hw, hww⟩ := h
  exact ⟨w, hw.imp id (reaches_of_subset hs), reaches_of_subset hs hww⟩

theorem deps_update_growth {gas : Nat} {adj adj1 : Nat → List Nat} {v u : Nat}
    {res : List Nat} (hu : u ∈ adj v)
    (hcore : get_vertex_dependants_core gas adj u = some (adj1, res)) :
    DepsGrowth adj (Function.update adj1 v (adj1 v ++ res)) := by
  obtain ⟨hg1, hres, _⟩ := (deps_success_spec gas).1 _ _ _ _ hcore
  have hres_reach : ∀ x ∈ res, Reaches adj1 v x := by
    intro x hx
    rw [hres] at hx
    obtain ⟨ext, heq, hext⟩ := hg1 u
    rw [heq] at hx
    have hux : Reaches adj u x := by
      rcases List.mem_append.mp hx with h' | h'
      · exact reaches_of_mem h'
      · exact hext x h'
    exact reaches_of_subset (depsGrowth_subset hg1)
      (reaches_trans (reaches_of_mem hu) hux)
  have hg12 : DepsGrowth adj1 (Function.update adj1 v (adj1 v ++ res)) := by
    intro k
    by_cases hk : k = v
    · subst hk
      exact ⟨res, by simp [Function.update], hres_reach⟩
    · exact ⟨[], by simp [Function.update, hk], by simp⟩
  exact depsGrowth_comp hg1 hg12

theorem deps_cycle_none : ∀ gas : Nat,
    (∀ adj v, CycleReachable adj v → get_vertex_dependants_core gas adj v = none)
    ∧ (∀ adj v i adj' out, dependants_loop gas adj v i = some (adj', out) →
        ∀ j (hj : j < (adj v).length), i ≤ j →
          ¬ CycleReachable adj ((adj v).get ⟨j, hj⟩)) := by
  intro gas
  induction gas with
  | zero =>
    constructor
    · intro adj v _
      rfl
    · intro adj v i adj' out h
      cases h
  | succ gas ih =>
    obtain ⟨ihA, ihB⟩ := ih
    constructor
    · intro adj v hcyc
      rw [get_vertex_dependants_core]
      rcases hadj : adj v with _ | ⟨u0, rest⟩
      · exfalso
        obtain ⟨u, hu, _⟩ := cycleReachable_step hcyc
        rw [hadj] at hu
        cases hu
      · simp only [hadj]
        rcases hloop : dependants_loop gas adj v 0 with _ | ⟨adj', out⟩
        · rfl
        · exfalso
          obtain ⟨u, hu, hcu⟩ := cycleReachable_step hcyc
          obtain ⟨n, hn⟩ := List.mem_iff_get.mp hu
          have H := ihB adj v 0 adj' out hloop n.1 n.2 (Nat.zero_le _)
          rw [hn] at H
          exact H hcu
    · intro adj v i adj' out h j hj hij
      rw [dependants_loop] at h
      by_cases hlt : i < (adj v).length
      · rw [dif_pos hlt] at h
        rcases hcore : get_vertex_dependants_core gas adj ((adj v).get ⟨i, hlt⟩)
          with _ | ⟨adj1, res⟩
        · simp only [hcore] at h
          cases h
        · simp only [hcore] at h
          rcases Nat.eq_or_lt_of_le hij with rfl | hij'
          · intro hcyc
            have hcore' : get_vertex_dependants_core gas adj ((adj v).get ⟨i, hj⟩)
                = some (adj1, res) := hcore
            rw [ihA adj ((adj v).get ⟨i, hj⟩) hcyc] at hcore'
            cases hcore'
          · have hgA := deps_update_growth (List.get_mem _ _ _) hcore
            have hj2 : j < (Function.update adj1 v (adj1 v ++ res) v).length :=
              lt_of_lt_of_le hj (depsGrowth_length_le hgA v)
            have H := ihB _ v (i + 1) adj' out h j hj2 hij'
            rw [depsGrowth_get hgA v j hj hj2] at H
            intro hcyc
            exact H (cycleReachable_mono (depsGrowth_subset hgA) hcyc)
      · rw [dif_neg hlt] at h
        exact (hlt (lt_of_le_of_lt hij hj)).elim

theorem deps_core_exact {gas : Nat} {adj : Nat → List Nat} {v : Nat}
    {adj1 : Nat → List Nat} {res : List Nat}
    (hcore : get_vertex_dependants_core gas adj v = some (adj1, res)) :
    ∀ b, b ∈ res ↔ Reaches adj v b := by
  obtain ⟨hg1, hres, hcompl⟩ := (deps_success_spec gas).1 _ _ _ _ hcore
  intro b
  constructor
  · intro hb
    rw [hres] at hb
    obtain ⟨ext, heq, hext⟩ := hg1 v
    rw [heq] at hb
    rcases List.mem_append.mp hb with h' | h'
    · exact reaches_of_mem h'
    · exact hext b h'
  · exact hcompl b

/-- C4 amended.  `get_vertex_dependants` returns, on success, exactly the
transitive closure of successors (forward) or predecessors (backward) of
`id` — excluding `id` itself, which could only appear via a cycle, in
which case the call does not succeed; and whenever a cycle is reachable
from `id` it fails with the raw interpreter recursion failure
(`RecursionError`, printed about and re-raised by the source), not a
translated `GraphCycleError` — no such kind exists in the sources. -/
theorem c4_dependants_closure_or_recursion_error :
    (∀ (g : BaseDirectedGraph) (v : Nat) (g' : BaseDirectedGraph) (out : List Nat),
      g.get_vertex_dependants v "forward" = (g', .ok out) →
      ∀ b, b ∈ out ↔ Reaches g.graph v b)
    ∧ (∀ (g : BaseDirectedGraph) (v : Nat) (g' : BaseDirectedGraph) (out : List Nat),
      g.get_vertex_dependants v "backward" = (g', .ok out) →
      ∀ b, b ∈ out ↔ Reaches g.graph_inv v b)
    ∧ (∀ (g : BaseDirectedGraph) (v : Nat), CycleReachable g.graph v →
      (g.get_vertex_dependants v "forward").2 = .error .recursionError)
    ∧ (∀ (g : BaseDirectedGraph) (v : Nat), CycleReachable g.graph_inv v →
      (g.get_vertex_dependants v "backward").2 = .error .recursionError) := by
  refine ⟨?_, ?_, ?_, ?_⟩
  · intro g v g' out h
    rcases hcore : get_vertex_dependants_core recursion_limit g.graph v with _ | ⟨adj1, res⟩
    · have hred : g.get_vertex_dependants v "forward" = (g, .error .recursionError) := by
        unfold BaseDirectedGraph.get_vertex_dependants
        rw [show require_in_list "forward" ["forward", "backward"] = Except.ok () from rfl]
        simp [hcore]
      rw [hred] at h
      simp at h
    · have hred : g.get_vertex_dependants v "forward"
          = ({ g with graph := adj1 }, .ok (pySetList res)) := by
        unfold BaseDirectedGraph.get_vertex_dependants
        rw [show require_in_list "forward" ["forward", "backward"] = Except.ok () from rfl]
        simp [hcore]
      rw [hred] at h
      have hout : out = pySetList res := by
        have h2 := congrArg Prod.snd h
        simp only [] at h2
        cases h2
        rfl
      intro b
      rw [hout, mem_pySetList]
      exact deps_core_exact hcore b
  · intro g v g' out h
    rcases hcore : get_vertex_dependants_core recursion_limit g.graph_inv v with _ | ⟨adj1, res⟩
    · have hred : g.get_vertex_dependants v "backward" = (g, .error .recursionError) := by
        unfold BaseDirectedGraph.get_vertex_dependants
        rw [show require_in_list "backward" ["forward", "backward"] = Except.ok () from rfl]
        simp [hcore]
      rw [hred] at h
      simp at h
    · have hred : g.get_vertex_dependants v "backward"
          = ({ g with graph_inv := adj1 }, .ok (pySetList res)) := by
        unfold BaseDirectedGraph.get_vertex_dependants
        rw [show require_in_list "backward" ["forward", "backward"] = Except.ok () from rfl]
        simp [hcore]
      rw [hred] at h
      have hout : out = pySetList res := by
        have h2 := congrArg Prod.snd h
        simp only [] at h2
        cases h2
        rfl
      intro b
      rw [hout, mem_pySetList]
      exact deps_core_exact hcore b
  · intro g v hcyc
    have hnone := (deps_cycle_none recursion_limit).1 g.graph v hcyc
    unfold BaseDirectedGraph.get_vertex_dependants
    rw [show require_in_list "forward" ["forward", "backward"] = Except.ok () from rfl]
    simp [hnone]
  · intro g v hcyc
    have hnone := (deps_cycle_none recursion_limit).1 g.graph_inv v hcyc
    unfold BaseDirectedGraph.get_vertex_dependants
    rw [show require_in_list "backward" ["forward", "backward"] = Except.ok () from rfl]
    simp [hnone]

/-! ## Boolean-list and flag lemmas for the depth-first search -/

theorem getD_set_self {α : Type} (l : List α) (i : Nat) (b d : α) (h : i < l.length) :
    (l.set i b).getD i d = b := by
  induction l generalizing i with
  | nil => exact absurd h (by simp)
  | cons x xs ih =>
    cases i with
    | zero => rfl
    | succ i => exact ih i (by simpa using h)

theorem getD_set_ne {α : Type} (l : List α) (i j : Nat) (b d : α) (h : i ≠ j) :
    (l.set i b).getD j d = l.getD j d := by
  induction l generalizing i j with
  | nil => simp
  | cons x xs ih =>
    cases i with
    | zero =>
      cases j with
      | zero => exact absurd rfl h
      | succ j => rfl
    | succ i =>
      cases j with
      | zero => rfl
      | succ j => exact ih i j (by omega)

theorem set_false_id (l : List Bool) (i : Nat) (h : l.getD i false = false) :
    l.set i false = l := by
  induction l generalizing i with
  | nil => rfl
  | cons x xs ih =>
    cases i with
    | zero =>
      simp only [List.getD, List.get?, Option.getD] at h
      simp [h]
    | succ i =>
      simp only [List.set]
      rw [ih i h]

theorem boolLE_refl (l : List Bool) : BoolLE l l :=
  List.forall₂_same.mpr (fun _ _ h => h)

theorem boolLE_trans {l₁ l₂ l₃ : List Bool} (h₁ : BoolLE l₁ l₂) (h₂ : BoolLE l₂ l₃) :
    BoolLE l₁ l₃ := by
  induction h₁ generalizing l₃ with
  | nil => cases h₂; exact List.Forall₂.nil
  | cons hab t ih =>
    cases h₂ with
    | cons hbc t' => exact List.Forall₂.cons (fun h => hbc (hab h)) (ih t')

theorem boolLE_length {l l' : List Bool} (h : BoolLE l l') : l.length = l'.length :=
  List.Forall₂.length_eq h

theorem boolLE_getD {l l' : List Bool} (h : BoolLE l l') (j : Nat)
    (hj : l.getD j false = true) : l'.getD j false = true := by
  induction h generalizing j with
  | nil => simpa using hj
  | cons hab t ih =>
    cases j with
    | zero => exact hab hj
    | succ j => exact ih j hj

theorem boolLE_set_true (l : List Bool) (i : Nat) : BoolLE l (l.set i true) := by
  induction l generalizing i with
  | nil => exact List.Forall₂.nil
  | cons x xs ih =>
    cases i with
    | zero => exact List.Forall₂.cons (fun _ => rfl) (boolLE_refl xs)
    | succ i => exact List.Forall₂.cons (fun h => h) (ih i)

theorem boolLE_count_false {l l' : List Bool} (h : BoolLE l l') :
    l'.count false ≤ l.count false := by
  induction h with
  | nil => exact Nat.le_refl _
  | cons hab t ih =>
    rename_i a b l₁ l₂
    cases hb : b with
    | true =>
      cases a <;> simp [List.count_cons, hb] <;> omega
    | false =>
      have ha : a = false := by
        cases ha : a
        · rfl
        · rw [ha] at hab; rw [hab rfl] at hb; cases hb
      simp [List.count_cons, hb, ha]
      omega

theorem count_false_set_true_lt (l : List Bool) (i : Nat) (hi : i < l.length)
    (h : l.getD i false = false) : (l.set i true).count false < l.count false := by
  induction l generalizing i with
  | nil => exact absurd hi (by simp)
  | cons x xs ih =>
    cases i with
    | zero =>
      simp only [List.getD] at h
      subst h
      simp [List.count_cons]
    | succ i =>
      have := ih i (by simpa using hi) h
      cases x <;> simp [List.count_cons] <;> omega

theorem flagAt_set_self {g : BaseDirectedGraph} {v : Nat} (hv : v ∈ g.vertices)
    (flags : List Bool) (hlen : flags.length = g.vertices.length) :
    FlagAt g (flags.set (g.vertices.indexOf v) true) v := by
  unfold FlagAt
  have hidx : g.vertices.indexOf v < flags.length := by
    rw [hlen]
    exact List.indexOf_lt_length.mpr hv
  exact getD_set_self _ _ _ _ hidx

theorem flagAt_set_other {g : BaseDirectedGraph} {u v : Nat} (hnd : g.vertices.Nodup)
    (hv : v ∈ g.vertices) (huv : u ≠ v) (flags : List Bool) (b : Bool) :
    FlagAt g (flags.set (g.vertices.indexOf v) b) u ↔ FlagAt g flags u := by
  unfold FlagAt
  rw [getD_set_ne]
  intro hEq
  by_cases hu : u ∈ g.vertices
  · exact huv ((List.indexOf_inj hv hu).mp hEq).symm
  · have h1 : g.vertices.indexOf u = g.vertices.length := by
      rw [List.indexOf_eq_length]
      exact hu
    have h2 : g.vertices.indexOf v < g.vertices.length :=
      List.indexOf_lt_length.mpr hv
    omega

theorem flagAt_not_mem {g : BaseDirectedGraph} {u : Nat} (hu : u ∉ g.vertices)
    (flags : List Bool) (hlen : flags.length = g.vertices.length) :
    ¬ FlagAt g flags u := by
  unfold FlagAt
  have h1 : g.vertices.indexOf u = g.vertices.length := by
    rw [List.indexOf_eq_length]
    exact hu
  rw [h1, List.getD_eq_default]
  · simp
  · omega

theorem flagAt_mono {g : BaseDirectedGraph} {flags flags' : List Bool}
    (h : BoolLE flags flags') {u : Nat} (hu : FlagAt g flags u) : FlagAt g flags' u :=
  boolLE_getD h _ hu

theorem black_closed_reach {g : BaseDirectedGraph} {visited stack : List Bool}
    (hcl : ∀ u, BlackAt g visited stack u → ∀ w ∈ g.graph u, BlackAt g visited stack w)
    {u x : Nat} (hu : BlackAt g visited stack u) (hr : Reaches g.graph u x) :
    BlackAt g visited stack x := by
  obtain ⟨l, hc⟩ := hr
  induction l generalizing u with
  | nil =>
    simp only [chainB, decide_eq_true_eq] at hc
    exact hcl u hu x hc
  | cons y t ih =>
    simp only [chainB, Bool.and_eq_true, decide_eq_true_eq] at hc
    exact ih (hcl u hu y hc.1) hc.2

/-! ## Depth-first search: monotonicity and fuel sufficiency -/

theorem subcycle_loop_mono
    (sub : Nat → List Bool → List Bool → Option (List Nat × List Bool × List Bool))
    (hsub : ∀ u vis st res vis' st', sub u vis st = some (res, vis', st') →
      BoolLE vis vis' ∧ st'.length = st.length)
    (g : BaseDirectedGraph) (v vidx : Nat) :
    ∀ (neighbors : List Nat) (visited stack : List Bool) (res : List Nat)
      (visited' stack' : List Bool),
      subcycle_loop sub g v vidx neighbors visited stack = some (res, visited', stack') →
      BoolLE visited visited' ∧ stack'.length = stack.length := by
  intro neighbors
  induction neighbors with
  | nil =>
    intro visited stack res visited' stack' h
    cases h
    exact ⟨boolLE_refl _, List.length_set _ _ _⟩
  | cons u rest ih =>
    intro visited stack res visited' stack' h
    rw [subcycle_loop] at h
    by_cases hg : visited.getD (g.vertices.indexOf u) false = false
    · rw [if_pos hg] at h
      rcases hres : sub u visited stack with _ | ⟨subc, vis1, st1⟩
      · rw [hres] at h
        cases h
      · rw [hres] at h
        obtain ⟨hm1, hl1⟩ := hsub u visited stack subc vis1 st1 hres
        cases subc with
        | nil =>
          obtain ⟨hm2, hl2⟩ := ih vis1 st1 res visited' stack' h
          exact ⟨boolLE_trans hm1 hm2, by omega⟩
        | cons c cs =>
          cases h
          exact ⟨hm1, hl1⟩
    · rw [if_neg hg] at h
      by_cases hst : stack.getD (g.vertices.indexOf u) false = true
      · simp only [hst, if_true] at h
        cases h
        exact ⟨boolLE_refl _, rfl⟩
      · have hst' : stack.getD (g.vertices.indexOf u) false = false := by
          cases hb : stack.getD (g.vertices.indexOf u) false
          · rfl
          · exact absurd hb hst
        simp only [hst', if_false, Bool.false_eq_true] at h
        exact ih visited stack res visited' stack' h

theorem subcycle_mono : ∀ (fuel : Nat) (g : BaseDirectedGraph) (v : Nat)
    (visited stack : List Bool) (res : List Nat) (visited' stack' : List Bool),
    get_subcycle fuel g v visited stack = some (res, visited', stack') →
    BoolLE visited visited' ∧ stack'.length = stack.length := by
  intro fuel
  induction fuel with
  | zero =>
    intro g v visited stack res visited' stack' h
    cases h
  | succ fuel ih =>
    intro g v visited stack res visited' stack' h
    rw [get_subcycle] at h
    obtain ⟨hm, hl⟩ := subcycle_loop_mono _ (fun u vis st r v' s' hh => ih g u vis st r v' s' hh)
      g v _ (g.graph v) _ _ res visited' stack' h
    refine ⟨boolLE_trans (boolLE_set_true _ _) hm, ?_⟩
    rw [hl, List.length_set]

theorem subcycle_fuel_sufficient : ∀ (fuel : Nat) (g : BaseDirectedGraph) (v : Nat)
    (visited stack : List Bool),
    g.EdgesClosed →
    visited.count false ≤ fuel →
    visited.getD (g.vertices.indexOf v) false = false →
    v ∈ g.vertices →
    visited.length = g.vertices.length →
    get_subcycle fuel g v visited stack ≠ none := by
  intro fuel
  induction fuel with
  | zero =>
    intro g v visited stack _ hcnt hunv hv hlen
    exfalso
    have hidx : g.vertices.indexOf v < visited.length := by
      rw [hlen]
      exact List.indexOf_lt_length.mpr hv
    have hget : visited.get ⟨_, hidx⟩ = false := by
      rw [← List.getD_eq_get visited false hidx]
      exact hunv
    have hmem : false ∈ visited := hget ▸ List.get_mem _ _ _
    have := List.count_pos_iff_mem.mpr hmem
    omega
  | succ fuel ih =>
    intro g v visited stack hec hcnt hunv hv hlen
    rw [get_subcycle]
    have hidx : g.vertices.indexOf v < visited.length := by
      rw [hlen]
      exact List.indexOf_lt_length.mpr hv
    have hcnt1 : (visited.set (g.vertices.indexOf v) true).count false ≤ fuel := by
      have := count_false_set_true_lt visited _ hidx hunv
      omega
    have hlen1 : (visited.set (g.vertices.indexOf v) true).length = g.vertices.length := by
      rw [List.length_set]
      exact hlen
    have loopclaim : ∀ (neighbors : List Nat), (∀ u ∈ neighbors, u ∈ g.vertices) →
        ∀ (vis st : List Bool), vis.count false ≤ fuel → vis.length = g.vertices.length →
        subcycle_loop (fun u vis st => get_subcycle fuel g u vis st) g v
          (g.vertices.indexOf v) neighbors vis st ≠ none := by
      intro neighbors
      induction neighbors with
      | nil =>
        intro _ vis st _ _
        simp [subcycle_loop]
      | cons u rest ihl =>
        intro hnb vis st hc hl
        rw [subcycle_loop]
        by_cases hg : vis.getD (g.vertices.indexOf u) false = false
        · rw [if_pos hg]
          rcases hres : get_subcycle fuel g u vis st with _ | ⟨subc, vis1, st1⟩
          · exact absurd hres (ih g u vis st hec hc hg (hnb u (by simp)) hl)
          · obtain ⟨hm1, _⟩ := subcycle_mono fuel g u vis st subc vis1 st1 hres
            cases subc with
            | nil =>
              exact ihl (fun w hw => hnb w (by simp [hw])) vis1 st1
                (le_trans (boolLE_count_false hm1) hc)
                (by rw [← boolLE_length hm1]; exact hl)
            | cons c cs => simp
        · rw [if_neg hg]
          by_cases hst : st.getD (g.vertices.indexOf u) false = true
          · rw [if_pos hst]
            simp
          · have hst' : st.getD (g.vertices.indexOf u) false = false := by
              cases hb : st.getD (g.vertices.indexOf u) false
              · rfl
              · exact absurd hb hst
            simp only [hst', Bool.false_eq_true, if_false]
            exact ihl (fun w hw => hnb w (by simp [hw])) vis st hc hl
    exact loopclaim (g.graph v) (fun u hu => (hec v u hu).2) _ _ hcnt1 hlen1

theorem not_flagAt_iff {g : BaseDirectedGraph} {flags : List Bool} {u : Nat} :
    ¬ FlagAt g flags u ↔ flags.getD (g.vertices.indexOf u) false = false := by
  unfold FlagAt
  cases h : flags.getD (g.vertices.indexOf u) false <;> simp [h]

/-- Specification of the neighbour loop of the depth-first search, under
the colouring invariant: on a clean return (`[]`) the stack is restored
with `v` popped, the invariant still holds with `v` grey, and every
walked neighbour has been blackened; a non-empty return witnesses a
cycle in the graph. -/
theorem dfs_loop_spec
    (g : BaseDirectedGraph) (hnd : g.vertices.Nodup) (hec : g.EdgesClosed)
    (v : Nat) (hv : v ∈ g.vertices)
    (sub : Nat → List Bool → List Bool → Option (List Nat × List Bool × List Bool))
    (hsubm : ∀ u vis st res vis' st', sub u vis st = some (res, vis', st') →
      BoolLE vis vis' ∧ st'.length = st.length)
    (hsub : ∀ (u : Nat) (vis st : List Bool) (res : List Nat) (vis' st' : List Bool),
      u ∈ g.vertices →
      vis.length = g.vertices.length → st.length = g.vertices.length →
      ¬ FlagAt g vis u →
      DfsInv g vis st →
      (∀ x, FlagAt g st x → ReachStar g.graph x u) →
      sub u vis st = some (res, vis', st') →
      (res = [] → st' = st ∧ DfsInv g vis' st' ∧ BlackAt g vis' st' u)
        ∧ (res ≠ [] → ∃ w, Reaches g.graph w w)) :
    ∀ (neighbors : List Nat), (∀ u ∈ neighbors, u ∈ g.graph v) →
    ∀ (visited stack : List Bool) (res : List Nat) (visited' stack' : List Bool),
      visited.length = g.vertices.length → stack.length = g.vertices.length →
      FlagAt g visited v → FlagAt g stack v →
      DfsInv g visited stack →
      (∀ x, FlagAt g stack x → ReachStar g.graph x v) →
      subcycle_loop sub g v (g.vertices.indexOf v) neighbors visited stack
        = some (res, visited', stack') →
      (res = [] →
        stack' = stack.set (g.vertices.indexOf v) false
        ∧ DfsInv g visited' stack
        ∧ FlagAt g visited' v
        ∧ visited'.length = g.vertices.length
        ∧ (∀ u ∈ neighbors, BlackAt g visited' stack u))
      ∧ (res ≠ [] → ∃ w, Reaches g.graph w w) := by
  intro neighbors
  induction neighbors with
  | nil =>
    intro hmem visited stack res visited' stack' hvl hsl hflagv hflagsv hInv hgrey h
    cases h
    refine ⟨fun _ => ⟨rfl, hInv, hflagv, hvl, by simp⟩, fun h0 => absurd rfl h0⟩
  | cons u rest ih =>
    intro hmem visited stack res visited' stack' hvl hsl hflagv hflagsv hInv hgrey h
    have hu_edge : u ∈ g.graph v := by
      refine hmem u ?_
      simp
    have hrest_edge : ∀ w ∈ rest, w ∈ g.graph v := by
      intro w hw
      refine hmem w ?_
      simp [hw]
    have hu_mem : u ∈ g.vertices := (hec v u hu_edge).2
    rw [subcycle_loop] at h
    by_cases hg : visited.getD (g.vertices.indexOf u) false = false
    · rw [if_pos hg] at h
      rcases hres : sub u visited stack with _ | ⟨subc, vis1, st1⟩
      · rw [hres] at h
        cases h
      · rw [hres] at h
        have hUnvis : ¬ FlagAt g visited u := not_flagAt_iff.mpr hg
        have hgrey_u : ∀ x, FlagAt g stack x → ReachStar g.graph x u := by
          intro x hx
          rcases hgrey x hx with rfl | hxv
          · exact Or.inr (reaches_of_mem hu_edge)
          · exact Or.inr (reaches_trans hxv (reaches_of_mem hu_edge))
        obtain ⟨hok, hcyc⟩ := hsub u visited stack subc vis1 st1 hu_mem hvl hsl
          hUnvis hInv hgrey_u hres
        obtain ⟨hm1, hsl1⟩ := hsubm u visited stack subc vis1 st1 hres
        cases subc with
        | nil =>
          obtain ⟨hst1, hInv1, hBlack_u⟩ := hok rfl
          rw [hst1] at h hInv1 hBlack_u
          have hv1len : vis1.length = g.vertices.length := by
            rw [← boolLE_length hm1]
            exact hvl
          obtain ⟨hA, hB⟩ := ih hrest_edge vis1 stack res visited' stack'
            hv1len hsl (flagAt_mono hm1 hflagv) hflagsv hInv1 hgrey h
          refine ⟨?_, hB⟩
          intro hres0
          obtain ⟨hst', hInv', hflagv', hlen', hblacks⟩ := hA hres0
          refine ⟨hst', hInv', hflagv', hlen', ?_⟩
          intro w hw
          rcases List.mem_cons.mp hw with rfl | hw'
          · obtain ⟨hm2, _⟩ := subcycle_loop_mono sub hsubm g v _ rest vis1 stack
              res visited' stack' h
            exact ⟨flagAt_mono hm2 hBlack_u.1, hBlack_u.2⟩
          · exact hblacks w hw'
        | cons c cs =>
          cases h
          refine ⟨fun h0 => absurd h0 (by simp), fun _ => hcyc (by simp)⟩
    · rw [if_neg hg] at h
      have hVis_u : FlagAt g visited u := by
        unfold FlagAt
        cases hb : visited.getD (g.vertices.indexOf u) false
        · exact absurd hb hg
        · rfl
      by_cases hst : stack.getD (g.vertices.indexOf u) false = true
      · rw [if_pos hst] at h
        cases h
        refine ⟨fun h0 => absurd h0 (List.cons_ne_nil v []), fun _ => ?_⟩
        have hgu : FlagAt g stack u := hst
        rcases hgrey u hgu with rfl | huv
        · exact ⟨u, reaches_of_mem hu_edge⟩
        · exact ⟨u, reaches_trans huv (reaches_of_mem hu_edge)⟩
      · have hst' : stack.getD (g.vertices.indexOf u) false = false := by
          cases hb : stack.getD (g.vertices.indexOf u) false
          · rfl
          · exact absurd hb hst
        simp only [hst', Bool.false_eq_true, if_false] at h
        have hBlack_u : BlackAt g visited stack u := ⟨hVis_u, fun hh => hst hh⟩
        obtain ⟨hA, hB⟩ := ih hrest_edge visited stack res visited' stack'
          hvl hsl hflagv hflagsv hInv hgrey h
        refine ⟨?_, hB⟩
        intro hres0
        obtain ⟨hst'', hInv', hflagv', hlen', hblacks⟩ := hA hres0
        refine ⟨hst'', hInv', hflagv', hlen', ?_⟩
        intro w hw
        rcases List.mem_cons.mp hw with rfl | hw'
        · obtain ⟨hm2, _⟩ := subcycle_loop_mono sub hsubm g v _ rest visited stack
            res visited' stack' h
          exact ⟨flagAt_mono hm2 hBlack_u.1, hBlack_u.2⟩
        · exact hblacks w hw'

/-- Specification of `get_subcycle` under the colouring invariant: on a
clean return the stack is restored exactly, the invariant holds again
and the explored vertex is black; a non-empty return witnesses a cycle. -/
theorem dfs_subcycle_spec : ∀ (fuel : Nat) (g : BaseDirectedGraph),
    g.vertices.Nodup → g.EdgesClosed →
    ∀ (u : Nat) (vis st : List Bool) (res : List Nat) (vis' st' : List Bool),
      u ∈ g.vertices →
      vis.length = g.vertices.length → st.length = g.vertices.length →
      ¬ FlagAt g vis u →
      DfsInv g vis st →
      (∀ x, FlagAt g st x → ReachStar g.graph x u) →
      get_subcycle fuel g u vis st = some (res, vis', st') →
      (res = [] → st' = st ∧ DfsInv g vis' st' ∧ BlackAt g vis' st' u)
      ∧ (res ≠ [] → ∃ w, Reaches g.graph w w) := by
  intro fuel
  induction fuel with
  | zero =>
    intro g _ _ u vis st res vis' st' _ _ _ _ _ _ h
    cases h
  | succ fuel ih =>
    intro g hnd hec u vis st res vis' st' hu hvl hsl hunv hInv hgrey h
    rw [get_subcycle] at h
    have hstu : st.getD (g.vertices.indexOf u) false = false := by
      cases hb : st.getD (g.vertices.indexOf u) false
      · rfl
      · exact absurd (hInv.1 u hb) hunv
    have hvl1 : (vis.set (g.vertices.indexOf u) true).length = g.vertices.length := by
      rw [List.length_set]; exact hvl
    have hsl1 : (st.set (g.vertices.indexOf u) true).length = g.vertices.length := by
      rw [List.length_set]; exact hsl
    have hflagu1 : FlagAt g (vis.set (g.vertices.indexOf u) true) u :=
      flagAt_set_self hu vis (by rw [hvl])
    have hflagsu1 : FlagAt g (st.set (g.vertices.indexOf u) true) u :=
      flagAt_set_self hu st (by rw [hsl])
    have hFlagVisEq : ∀ x, x ≠ u →
        (FlagAt g (vis.set (g.vertices.indexOf u) true) x ↔ FlagAt g vis x) :=
      fun x hx => flagAt_set_other hnd hu hx vis true
    have hFlagStEq : ∀ x, x ≠ u →
        (FlagAt g (st.set (g.vertices.indexOf u) true) x ↔ FlagAt g st x) :=
      fun x hx => flagAt_set_other hnd hu hx st true
    have hBlackEq : ∀ x, x ≠ u →
        (BlackAt g (vis.set (g.vertices.indexOf u) true) (st.set (g.vertices.indexOf u) true) x
          ↔ BlackAt g vis st x) := by
      intro x hx
      unfold BlackAt
      rw [hFlagVisEq x hx, hFlagStEq x hx]
    have hInv1 : DfsInv g (vis.set (g.vertices.indexOf u) true)
        (st.set (g.vertices.indexOf u) true) := by
      refine ⟨?_, ?_, ?_⟩
      · intro x hx
        by_cases hxu : x = u
        · subst hxu
          exact hflagu1
        · rw [hFlagStEq x hxu] at hx
          rw [hFlagVisEq x hxu]
          exact hInv.1 x hx
      · intro x hx w hw
        by_cases hxu : x = u
        · subst hxu
          exact absurd hflagsu1 hx.2
        · have hxb : BlackAt g vis st x := (hBlackEq x hxu).mp hx
          have hwb := hInv.2.1 x hxb w hw
          have hwu : w ≠ u := by
            intro hEq
            subst hEq
            exact hunv hwb.1
          exact (hBlackEq w hwu).mpr hwb
      · intro x hx
        by_cases hxu : x = u
        · subst hxu
          exact absurd hflagsu1 hx.2
        · exact hInv.2.2 x ((hBlackEq x hxu).mp hx)
    have hgrey1 : ∀ x, FlagAt g (st.set (g.vertices.indexOf u) true) x →
        ReachStar g.graph x u := by
      intro x hx
      by_cases hxu : x = u
      · exact Or.inl hxu
      · rw [hFlagStEq x hxu] at hx
        rcases hgrey x hx with rfl | hxr
        · exact Or.inl rfl
        · exact Or.inr hxr
    obtain ⟨hA, hB⟩ := dfs_loop_spec g hnd hec u hu
      (fun w vs ss => get_subcycle fuel g w vs ss)
      (fun w vs ss r v2 s2 hh => subcycle_mono fuel g w vs ss r v2 s2 hh)
      (fun w vs ss r v2 s2 hw hvv hss hnv hin hgg hh =>
        ih g hnd hec w vs ss r v2 s2 hw hvv hss hnv hin hgg hh)
      (g.graph u) (fun w hw => hw)
      _ _ res vis' st' hvl1 hsl1 hflagu1 hflagsu1 hInv1 hgrey1 h
    refine ⟨?_, hB⟩
    intro hres0
    obtain ⟨hst', hInv', hflagu', hlen', hblacks⟩ := hA hres0
    have hsetst : (st.set (g.vertices.indexOf u) true).set (g.vertices.indexOf u) false
        = st := by
      rw [List.set_set]
      exact set_false_id st _ hstu
    rw [hsetst] at hst'
    have hnotstu : ¬ FlagAt g st u := not_flagAt_iff.mpr hstu
    have hBlackEq' : ∀ x, x ≠ u →
        (BlackAt g vis' (st.set (g.vertices.indexOf u) true) x ↔ BlackAt g vis' st x) := by
      intro x hx
      unfold BlackAt
      rw [hFlagStEq x hx]
    rw [hst']
    refine ⟨rfl, ⟨?_, ?_, ?_⟩, hflagu', hnotstu⟩
    · intro x hx
      by_cases hxu : x = u
      · subst hxu
        exact absurd hx hnotstu
      · exact hInv'.1 x ((hFlagStEq x hxu).mpr hx)
    · intro x hx w hw
      by_cases hxu : x = u
      · rw [hxu] at hw
        have hwb := hblacks w hw
        have hwu : w ≠ u := by
          intro hEq
          rw [hEq] at hwb
          exact hwb.2 hflagsu1
        exact (hBlackEq' w hwu).mp hwb
      · have hxb : BlackAt g vis' (st.set (g.vertices.indexOf u) true) x :=
          (hBlackEq' x hxu).mpr hx
        have hwb := hInv'.2.1 x hxb w hw
        by_cases hwu : w = u
        · rw [hwu]
          exact ⟨hflagu', hnotstu⟩
        · exact (hBlackEq' w hwu).mp hwb
    · intro x hx
      by_cases hxu : x = u
      · rw [hxu]
        intro hreach
        obtain ⟨l, hc⟩ := hreach
        cases l with
        | nil =>
          simp only [chainB, decide_eq_true_eq] at hc
          exact (hblacks u hc).2 hflagsu1
        | cons y t =>
          simp only [chainB, Bool.and_eq_true, decide_eq_true_eq] at hc
          have hyb := hblacks y hc.1
          have hub := black_closed_reach hInv'.2.1 hyb ⟨t, hc.2⟩
          exact hub.2 hflagsu1
      · exact hInv'.2.2 x ((hBlackEq' x hxu).mpr hx)

theorem getD_replicate_false (n j : Nat) : (List.replicate n false).getD j false = false := by
  induction n generalizing j with
  | zero => rfl
  | succ n ih =>
    cases j with
    | zero => rfl
    | succ j => exact ih j

theorem flagAt_replicate_false (g : BaseDirectedGraph) (n : Nat) (x : Nat) :
    ¬ FlagAt g (List.replicate n false) x := by
  unfold FlagAt
  rw [getD_replicate_false]
  simp

/-- The outer vertex loop of `get_graph_cycle` never exhausts the fuel
handed to `get_subcycle`: the fuel is one more than the vertex count,
which bounds the number of unvisited vertices. -/
theorem graph_cycle_go_ne_none (g : BaseDirectedGraph) (hnd : g.vertices.Nodup)
    (hec : g.EdgesClosed) :
    ∀ (rest : List Nat) (i : Nat) (visited stack : List Bool),
      g.vertices.drop i = rest →
      visited.length = g.vertices.length →
      graph_cycle_go g rest i visited stack ≠ none := by
  intro rest
  induction rest with
  | nil =>
    intro i visited stack _ _
    simp [graph_cycle_go]
  | cons v rest' ih =>
    intro i visited stack hrest hvl
    have hi : i < g.vertices.length := by
      by_contra hle
      rw [List.drop_eq_nil_of_le (by omega)] at hrest
      cases hrest
    have hdrop := List.drop_eq_getElem_cons hi
    rw [hdrop] at hrest
    have hv : v = g.vertices[i] := by
      cases hrest
      rfl
    have hrest' : g.vertices.drop (i + 1) = rest' := by
      cases hrest
      rfl
    have hvmem : v ∈ g.vertices := by
      rw [hv]
      exact List.getElem_mem _
    have hidx : g.vertices.indexOf v = i := by
      rw [hv]
      exact List.indexOf_getElem hnd i hi
    rw [graph_cycle_go]
    by_cases hg : visited.getD i false = false
    · rw [if_pos hg]
      rcases hsub : get_subcycle (subcycleFuel g) g v visited stack
        with _ | ⟨cyc, visited1, stack1⟩
      · exfalso
        refine subcycle_fuel_sufficient (subcycleFuel g) g v visited stack hec ?_ ?_ hvmem hvl hsub
        · unfold subcycleFuel
          have := List.count_le_length false visited
          omega
        · rw [hidx]
          exact hg
      · cases cyc with
        | nil =>
          obtain ⟨hm, _⟩ := subcycle_mono _ g v visited stack _ _ _ hsub
          exact ih (i + 1) visited1 stack1 hrest'
            (by rw [← boolLE_length hm]; exact hvl)
        | cons c cs => simp
    · rw [if_neg hg]
      exact ih (i + 1) visited stack hrest' hvl

/-- Specification of the outer vertex loop of `get_graph_cycle`: an
empty result means the whole graph is acyclic, a non-empty result means
a cycle exists. -/
theorem graph_cycle_go_spec (g : BaseDirectedGraph) (hnd : g.vertices.Nodup)
    (hec : g.EdgesClosed) :
    ∀ (rest : List Nat) (i : Nat) (visited stack : List Bool),
      g.vertices.drop i = rest →
      visited.length = g.vertices.length → stack.length = g.vertices.length →
      DfsInv g visited stack →
      (∀ x, ¬ FlagAt g stack x) →
      (∀ x ∈ g.vertices, x ∈ rest ∨ FlagAt g visited x) →
      ∀ (cyc : List Nat),
        graph_cycle_go g rest i visited stack = some cyc →
        (cyc = [] → ∀ w, ¬ Reaches g.graph w w)
        ∧ (cyc ≠ [] → ∃ w, Reaches g.graph w w) := by
  intro rest
  induction rest with
  | nil =>
    intro i visited stack _ hvl hsl hInv hstk hproc cyc h
    cases h
    refine ⟨fun _ => ?_, fun h0 => absurd rfl h0⟩
    intro w hr
    have hwmem : w ∈ g.vertices := by
      obtain ⟨l, hc⟩ := hr
      cases l with
      | nil =>
        simp only [chainB, decide_eq_true_eq] at hc
        exact (hec w w hc).1
      | cons y t =>
        simp only [chainB, Bool.and_eq_true, decide_eq_true_eq] at hc
        exact (hec w y hc.1).1
    have hvis : FlagAt g visited w := by
      rcases hproc w hwmem with h' | h'
      · cases h'
      · exact h'
    exact hInv.2.2 w ⟨hvis, hstk w⟩ hr
  | cons v rest' ih =>
    intro i visited stack hrest hvl hsl hInv hstk hproc cyc h
    have hi : i < g.vertices.length := by
      by_contra hle
      rw [List.drop_eq_nil_of_le (by omega)] at hrest
      cases hrest
    have hdrop := List.drop_eq_getElem_cons hi
    rw [hdrop] at hrest
    have hv : v = g.vertices[i] := by
      cases hrest
      rfl
    have hrest' : g.vertices.drop (i + 1) = rest' := by
      cases hrest
      rfl
    have hvmem : v ∈ g.vertices := by
      rw [hv]
      exact List.getElem_mem _
    have hidx : g.vertices.indexOf v = i := by
      rw [hv]
      exact List.indexOf_getElem hnd i hi
    rw [graph_cycle_go] at h
    by_cases hg : visited.getD i false = false
    · rw [if_pos hg] at h
      rcases hsub : get_subcycle (subcycleFuel g) g v visited stack
        with _ | ⟨c, visited1, stack1⟩
      · rw [hsub] at h
        cases h
      · rw [hsub] at h
        have hUnvis : ¬ FlagAt g visited v := by
          rw [not_flagAt_iff, hidx]
          exact hg
        obtain ⟨hok, hcyc⟩ := dfs_subcycle_spec (subcycleFuel g) g hnd hec v
          visited stack c visited1 stack1 hvmem hvl hsl hUnvis hInv
          (fun x hx => absurd hx (hstk x)) hsub
        cases c with
        | nil =>
          obtain ⟨hst1, hInv1, hBlack⟩ := hok rfl
          obtain ⟨hm, _⟩ := subcycle_mono _ g v visited stack _ _ _ hsub
          rw [hst1] at hInv1 hBlack h
          refine ih (i + 1) visited1 stack hrest'
            (by rw [← boolLE_length hm]; exact hvl) hsl hInv1 hstk ?_ cyc h
          intro x hx
          rcases hproc x hx with h' | h'
          · rcases List.mem_cons.mp h' with rfl | h''
            · exact Or.inr hBlack.1
            · exact Or.inl h''
          · exact Or.inr (flagAt_mono hm h')
        | cons cc ccs =>
          cases h
          refine ⟨fun h0 => absurd h0 (by simp), fun _ => hcyc (by simp)⟩
    · rw [if_neg hg] at h
      have hFlagv : FlagAt g visited v := by
        unfold FlagAt
        rw [hidx]
        cases hb : visited.getD i false
        · exact absurd hb hg
        · rfl
      refine ih (i + 1) visited stack hrest' hvl hsl hInv hstk ?_ cyc h
      intro x hx
      rcases hproc x hx with h' | h'
      · rcases List.mem_cons.mp h' with rfl | h''
        · exact Or.inr hFlagv
        · exact Or.inl h''
      · exact Or.inr h'

/-! ## Structural invariants of the base graph operations -/

theorem edgesClosed_init : BaseDirectedGraph.init.EdgesClosed := by
  intro a b hb
  cases hb

theorem nodup_init : BaseDirectedGraph.init.vertices.Nodup := List.nodup_nil

theorem edgesClosed_add_vertex {g : BaseDirectedGraph} (h : g.EdgesClosed) (v : Nat) :
    (g.add_vertex v).EdgesClosed := by
  intro a b hb
  unfold BaseDirectedGraph.add_vertex at hb ⊢
  split at hb
  · split
    · exact h a b hb
    · exact h a b hb
  · obtain ⟨h1, h2⟩ := h a b hb
    split
    · exact ⟨h1, h2⟩
    · exact ⟨List.mem_append_left _ h1, List.mem_append_left _ h2⟩

theorem nodup_add_vertex {g : BaseDirectedGraph} (h : g.vertices.Nodup) (v : Nat) :
    (g.add_vertex v).vertices.Nodup := by
  unfold BaseDirectedGraph.add_vertex
  split
  · exact h
  · rename_i hv
    simp [List.nodup_append, h, hv]

theorem vertices_add_edge_eq (g : BaseDirectedGraph) (a b : Nat) :
    (g.add_edge a b).vertices = ((g.add_vertex a).add_vertex b).vertices := by
  unfold BaseDirectedGraph.add_edge
  simp only []
  split <;> rfl

theorem nodup_add_edge {g : BaseDirectedGraph} (h : g.vertices.Nodup) (a b : Nat) :
    (g.add_edge a b).vertices.Nodup := by
  rw [vertices_add_edge_eq]
  exact nodup_add_vertex (nodup_add_vertex h a) b

theorem add_vertex_graph (g : BaseDirectedGraph) (v : Nat) :
    (g.add_vertex v).graph = g.graph := by
  unfold BaseDirectedGraph.add_vertex
  split <;> rfl

theorem add_vertex_graph_inv (g : BaseDirectedGraph) (v : Nat) :
    (g.add_vertex v).graph_inv = g.graph_inv := by
  unfold BaseDirectedGraph.add_vertex
  split <;> rfl

theorem mem_add_edge_graph {g : BaseDirectedGraph} {a b x y : Nat}
    (hy : y ∈ (g.add_edge a b).graph x) : y ∈ g.graph x ∨ (x = a ∧ y = b) := by
  unfold BaseDirectedGraph.add_edge at hy
  simp only [add_vertex_graph] at hy
  split at hy
  · rw [add_vertex_graph, add_vertex_graph] at hy
    exact Or.inl hy
  · dsimp only at hy
    by_cases hx : x = a
    · subst hx
      rw [Function.update_same] at hy
      rcases List.mem_append.mp hy with h' | h'
      · exact Or.inl h'
      · simp only [List.mem_singleton] at h'
        exact Or.inr ⟨rfl, h'⟩
    · rw [Function.update_noteq hx] at hy
      exact Or.inl hy

theorem edgesClosed_add_edge {g : BaseDirectedGraph} (h : g.EdgesClosed) (a b : Nat) :
    (g.add_edge a b).EdgesClosed := by
  intro x y hy
  rw [vertices_add_edge_eq]
  rcases mem_add_edge_graph hy with h' | ⟨rfl, rfl⟩
  · obtain ⟨h1, h2⟩ := h x y h'
    exact ⟨mem_vertices_add_vertex (mem_vertices_add_vertex h1),
      mem_vertices_add_vertex (mem_vertices_add_vertex h2)⟩
  · exact ⟨mem_vertices_add_vertex (mem_vertices_add_vertex_self g x),
      mem_vertices_add_vertex_self _ y⟩

theorem nodup_remove_vertex {g : BaseDirectedGraph} (h : g.vertices.Nodup) (v : Nat) :
    (g.remove_vertex v).vertices.Nodup := by
  unfold BaseDirectedGraph.remove_vertex
  split
  · exact h.erase v
  · exact h

/-! ## Claim C3 — cycle detection -/

/-- C3.  First conjunct: for every graph whose vertex list is
duplicate-free and whose adjacency stays inside the vertex list (true of
every graph the class's own operations build), `get_graph_cycle` returns
the empty sequence exactly when the graph is acyclic.  The remaining
conjuncts settle the concrete triangle `A → B, B → C, C → A`: the
reported cycle is `[A, B, C, A]` — its element set is exactly
`{A, B, C}` and each consecutive pair follows one edge of the cycle
direction (the starting vertex is repeated at the end to close the
walk); the embedding is a pure function of the graph, so the result is
deterministic in the vertex insertion order. -/
theorem c3_cycle_iff_acyclic :
    (∀ g : BaseDirectedGraph, g.vertices.Nodup → g.EdgesClosed →
      (get_graph_cycle g = [] ↔ ∀ w, ¬ Reaches g.graph w w))
    ∧ get_graph_cycle graphTriangle.graph = [0, 1, 2, 0]
    ∧ graphTriangle.graph_cycle = ["A", "B", "C", "A"]
    ∧ graphTriangle.graph_cycle.toFinset = {"A", "B", "C"}
    ∧ List.Chain' (fun a b => b ∈ graphTriangle.graph.graph a)
        (get_graph_cycle graphTriangle.graph) := by
  have hchain : List.Chain' (fun a b => b ∈ graphTriangle.graph.graph a)
      (get_graph_cycle graphTriangle.graph) := by
    rw [show get_graph_cycle graphTriangle.graph = [0, 1, 2, 0] from rfl]
    exact List.chain'_cons.mpr ⟨by decide, List.chain'_cons.mpr ⟨by decide,
      List.chain'_cons.mpr ⟨by decide, List.chain'_singleton 0⟩⟩⟩
  refine ⟨?_, rfl, rfl, by decide, hchain⟩
  intro g hnd hec
  have hInv0 : DfsInv g (List.replicate g.vertices.length false)
      (List.replicate g.vertices.length false) := by
    refine ⟨?_, ?_, ?_⟩
    · intro x hx
      exact absurd hx (flagAt_replicate_false g _ x)
    · intro x hx
      exact absurd hx.1 (flagAt_replicate_false g _ x)
    · intro x hx
      exact absurd hx.1 (flagAt_replicate_false g _ x)
  have hdrop0 : g.vertices.drop 0 = g.vertices := List.drop_zero _
  have hlen : (List.replicate g.vertices.length (false : Bool)).length
      = g.vertices.length := List.length_replicate _ _
  constructor
  · intro hempty w
    rcases hgo : get_graph_cycleO g with _ | cyc
    · exact absurd hgo (graph_cycle_go_ne_none g hnd hec g.vertices 0 _ _ hdrop0 hlen)
    · have hcyc0 : cyc = [] := by
        unfold get_graph_cycle at hempty
        rw [hgo] at hempty
        exact hempty
      exact (graph_cycle_go_spec g hnd hec g.vertices 0 _ _ hdrop0 hlen hlen hInv0
        (fun x => flagAt_replicate_false g _ x) (fun x hx => Or.inl hx) cyc hgo).1 hcyc0 w
  · intro hacyc
    rcases hgo : get_graph_cycleO g with _ | cyc
    · exact absurd hgo (graph_cycle_go_ne_none g hnd hec g.vertices 0 _ _ hdrop0 hlen)
    · unfold get_graph_cycle
      rw [hgo]
      show cyc = []
      by_contra hne
      obtain ⟨w, hw⟩ := (graph_cycle_go_spec g hnd hec g.vertices 0 _ _ hdrop0 hlen hlen
        hInv0 (fun x => flagAt_replicate_false g _ x) (fun x hx => Or.inl hx) cyc hgo).2 hne
      exact hacyc w hw

/-- C3 witness: the universally quantified conjunct applied to the
concrete triangle graph — since its reported cycle is non-empty, the
triangle is not acyclic. -/
theorem c3_cycle_iff_acyclic_witness :
    ¬ (∀ w, ¬ Reaches graphTriangle.graph.graph w w) := by
  intro hac
  have hec : graphTriangle.graph.EdgesClosed :=
    edgesClosed_add_edge (edgesClosed_add_edge (edgesClosed_add_edge edgesClosed_init 0 1) 1 2) 2 0
  have h := (c3_cycle_iff_acyclic.1 graphTriangle.graph (by decide) hec).mpr hac
  rw [c3_cycle_iff_acyclic.2.1] at h
  cases h

/-- C4 amended witness: on the chain `0 → 1 → 2` the forward dependants
of `0` succeed and contain exactly the reachable vertices (here: `2` is
reported reachable), and on the self-loop graph a cycle is reachable
from `0`, so the call fails with the raw `RecursionError`. -/
theorem c4_dependants_closure_witness :
    Reaches graphChain2.graph 0 2
    ∧ (graphSelfLoop.get_vertex_dependants 0 "forward").2 = .error .recursionError :=
  ⟨(c4_dependants_closure_or_recursion_error.1 graphChain2 0
      (graphChain2.get_vertex_dependants 0 "forward").1 [1, 2] rfl 2).mp (by decide),
   c4_dependants_closure_or_recursion_error.2.2.1 graphSelfLoop 0
     ⟨0, Or.inl rfl, ⟨[], by decide⟩⟩⟩

/-! ## Claim C1 — list-position toolkit -/

theorem indexOf_lt_of_decomp {α : Type} [DecidableEq α] {l l1 l2 l3 : List α} {a b : α}
    (h : l = l1 ++ a :: (l2 ++ b :: l3)) (hnd : l.Nodup) : l.indexOf a < l.indexOf b := by
  subst h
  rw [List.nodup_append] at hnd
  have hna : a ∉ l1 := fun hmem => hnd.2.2 hmem (by simp)
  have hnb1 : b ∉ l1 := fun hmem => hnd.2.2 hmem (by simp)
  have hnd2 := List.nodup_cons.mp hnd.2.1
  have hba : a ≠ b := by
    intro hmem
    subst hmem
    exact hnd2.1 (by simp)
  have hnb2 : b ∉ l2 := by
    intro hmem
    have := hnd2.2
    rw [List.nodup_append] at this
    exact this.2.2 hmem (by simp)
  rw [List.indexOf_append_of_not_mem hna, List.indexOf_append_of_not_mem hnb1]
  rw [List.indexOf_cons_self]
  rw [List.indexOf_cons_ne _ hba, List.indexOf_append_of_not_mem hnb2,
    List.indexOf_cons_self]
  omega

theorem indexOf_map_of_inj {α β : Type} [DecidableEq α] [DecidableEq β]
    {f : α → β} : ∀ {l : List α} {x : α},
    (∀ y ∈ l, f y = f x → y = x) → x ∈ l → (l.map f).indexOf (f x) = l.indexOf x := by
  intro l
  induction l with
  | nil =>
    intro x _ hx
    cases hx
  | cons y t ih =>
    intro x hinj hx
    by_cases hyx : y = x
    · subst hyx
      simp only [List.map_cons, List.indexOf_cons_self]
    · have hfy : f x ≠ f y := fun h => hyx (hinj y (by simp) h.symm)
      have hxy : x ≠ y := fun h => hyx h.symm
      have hx' : x ∈ t := by
        rcases List.mem_cons.mp hx with h | h
        · exact absurd h.symm hyx
        · exact h
      rw [List.map_cons, List.indexOf_cons_ne _ hfy.symm, List.indexOf_cons_ne _ hxy.symm,
        ih (fun z hz => hinj z (List.mem_cons_of_mem _ hz)) hx']

/-! ## Claim C1 — reachability helpers -/

theorem chainB_target_mem {g : BaseDirectedGraph} (hec : g.EdgesClosed) :
    ∀ (l : List Nat) (a b : Nat), chainB g.graph a l b = true → b ∈ g.vertices := by
  intro l
  induction l with
  | nil =>
    intro a b h
    simp only [chainB, decide_eq_true_eq] at h
    exact (hec a b h).2
  | cons x t ih =>
    intro a b h
    simp only [chainB, Bool.and_eq_true, decide_eq_true_eq] at h
    exact ih x b h.2

theorem reach_source_mem {g : BaseDirectedGraph} (hec : g.EdgesClosed) {a b : Nat}
    (h : Reaches g.graph a b) : a ∈ g.vertices := by
  obtain ⟨l, hc⟩ := h
  cases l with
  | nil =>
    simp only [chainB, decide_eq_true_eq] at hc
    exact (hec a b hc).1
  | cons x t =>
    simp only [chainB, Bool.and_eq_true, decide_eq_true_eq] at hc
    exact (hec a x hc.1).1

theorem reach_target_mem {g : BaseDirectedGraph} (hec : g.EdgesClosed) {a b : Nat}
    (h : Reaches g.graph a b) : b ∈ g.vertices := by
  obtain ⟨l, hc⟩ := h
  exact chainB_target_mem hec l a b hc

theorem edgesClosed_growth {g : BaseDirectedGraph} {adj' : Nat → List Nat}
    (hec : g.EdgesClosed) (hg : DepsGrowth g.graph adj') :
    ∀ x y, y ∈ adj' x → x ∈ g.vertices ∧ y ∈ g.vertices := by
  intro x y hy
  obtain ⟨ext, heq, hext⟩ := hg x
  rw [heq] at hy
  rcases List.mem_append.mp hy with h | h
  · exact hec x y h
  · have hr := hext y h
    exact ⟨reach_source_mem hec hr, reach_target_mem hec hr⟩

theorem chainB_symm {g : BaseDirectedGraph} (hs : g.SymAdj) :
    ∀ (l : List Nat) (a b : Nat), chainB g.graph a l b = true →
      Reaches g.graph_inv b a := by
  intro l
  induction l with
  | nil =>
    intro a b h
    simp only [chainB, decide_eq_true_eq] at h
    exact reaches_of_mem ((hs a b).mp h)
  | cons x t ih =>
    intro a b h
    simp only [chainB, Bool.and_eq_true, decide_eq_true_eq] at h
    exact reaches_trans (ih x b h.2) (reaches_of_mem ((hs a x).mp h.1))

theorem reaches_symm {g : BaseDirectedGraph} (hs : g.SymAdj) {a b : Nat}
    (h : Reaches g.graph a b) : Reaches g.graph_inv b a := by
  obtain ⟨l, hc⟩ := h
  exact chainB_symm hs l a b hc

theorem reach_order {adj : Nat → List Nat} {out : List Nat}
    (hstep : ∀ x y, y ∈ adj x → out.indexOf x < out.indexOf y) :
    ∀ (l : List Nat) (a b : Nat), chainB adj a l b = true →
      out.indexOf a < out.indexOf b := by
  intro l
  induction l with
  | nil =>
    intro a b h
    simp only [chainB, decide_eq_true_eq] at h
    exact hstep a b h
  | cons x t ih =>
    intro a b h
    simp only [chainB, Bool.and_eq_true, decide_eq_true_eq] at h
    exact lt_trans (hstep a x h.1) (ih x b h.2)

/-! ## Claim C1 — base operation facts -/

theorem mem_add_vertex_cases {g : BaseDirectedGraph} {v w : Nat}
    (h : w ∈ (g.add_vertex v).vertices) : w ∈ g.vertices ∨ w = v := by
  unfold BaseDirectedGraph.add_vertex at h
  split at h
  · exact Or.inl h
  · rcases List.mem_append.mp h with h' | h'
    · exact Or.inl h'
    · exact Or.inr (List.mem_singleton.mp h')

theorem mem_add_edge_self (g : BaseDirectedGraph) (a b : Nat) :
    b ∈ (g.add_edge a b).graph a := by
  unfold BaseDirectedGraph.add_edge
  simp only []
  split
  · next h =>
    simp only [add_vertex_graph] at h ⊢
    exact h
  · dsimp only
    rw [Function.update_same]
    simp

theorem mem_add_edge_of_mem {g : BaseDirectedGraph} {x y : Nat} (a b : Nat)
    (h : y ∈ g.graph x) : y ∈ (g.add_edge a b).graph x := by
  unfold BaseDirectedGraph.add_edge
  simp only []
  split
  · simp only [add_vertex_graph]
    exact h
  · dsimp only
    simp only [add_vertex_graph]
    by_cases hx : x = a
    · subst hx
      rw [Function.update_same]
      exact List.mem_append_left _ h
    · rw [Function.update_noteq hx]
      exact h

theorem symAdj_add_vertex {g : BaseDirectedGraph} (h : g.SymAdj) (v : Nat) :
    (g.add_vertex v).SymAdj := by
  intro a b
  rw [add_vertex_graph, add_vertex_graph_inv]
  exact h a b

theorem symAdj_add_edge {g : BaseDirectedGraph} (h : g.SymAdj) (a b : Nat) :
    (g.add_edge a b).SymAdj := by
  intro x y
  unfold BaseDirectedGraph.add_edge
  simp only []
  split
  · simp only [add_vertex_graph, add_vertex_graph_inv]
    exact h x y
  · dsimp only
    simp only [add_vertex_graph, add_vertex_graph_inv]
    by_cases hx : x = a
    · subst hx
      by_cases hy : y = b
      · subst hy
        rw [Function.update_same, Function.update_same]
        simp
      · rw [Function.update_same, Function.update_noteq hy]
        constructor
        · intro hmem
          rcases List.mem_append.mp hmem with h' | h'
          · exact (h x y).mp h'
          · exact absurd (List.mem_singleton.mp h') hy
        · intro hmem
          exact List.mem_append_left _ ((h x y).mpr hmem)
    · by_cases hy : y = b
      · subst hy
        rw [Function.update_noteq hx, Function.update_same]
        constructor
        · intro hmem
          exact List.mem_append_left _ ((h x y).mp hmem)
        · intro hmem
          rcases List.mem_append.mp hmem with h' | h'
          · exact (h x y).mpr h'
          · exact absurd (List.mem_singleton.mp h') hx
      · rw [Function.update_noteq hx, Function.update_noteq hy]
        exact h x y

theorem remove_vertex_mem_verts_up {g : BaseDirectedGraph} {v x : Nat}
    (h : x ∈ (g.remove_vertex v).vertices) : x ∈ g.vertices := by
  unfold BaseDirectedGraph.remove_vertex at h
  split at h
  · exact List.mem_of_mem_erase h
  · exact h

theorem remove_vertex_mem_verts_down {g : BaseDirectedGraph} {v x : Nat}
    (hx : x ∈ g.vertices) (hne : x ≠ v) : x ∈ (g.remove_vertex v).vertices := by
  unfold BaseDirectedGraph.remove_vertex
  split
  · exact (List.mem_erase_of_ne hne).mpr hx
  · exact hx

theorem remove_vertex_mem_adj_up {g : BaseDirectedGraph} {v x y : Nat}
    (h : y ∈ (g.remove_vertex v).graph x) : y ∈ g.graph x := by
  unfold BaseDirectedGraph.remove_vertex at h
  split at h
  · dsimp only at h
    split at h
    · cases h
    · exact List.mem_of_mem_erase h
  · exact h

theorem remove_vertex_mem_adj_down {g : BaseDirectedGraph} {v x y : Nat}
    (h : y ∈ g.graph x) (hx : x ≠ v) (hy : y ≠ v) :
    y ∈ (g.remove_vertex v).graph x := by
  unfold BaseDirectedGraph.remove_vertex
  split
  · dsimp only
    rw [if_neg hx]
    exact (List.mem_erase_of_ne hy).mpr h
  · exact h

/-! ## Claim C1 — wrapper operation facts -/

theorem get_vertex_id_maps (g : DirectedGraph) (tok : String) :
    dictGet (g.get_vertex_id tok).1.vertices_map tok = some (g.get_vertex_id tok).2 := by
  unfold DirectedGraph.get_vertex_id
  rcases hd : dictGet g.vertices_map tok with _ | vid
  · simp only [hd]
    show dictGet (dictInsert g.vertices_map tok g.new_id) tok = some g.new_id
    rw [dictGet_dictInsert]
    simp
  · simp only [hd]

theorem registered_add_vertex {g : DirectedGraph} {t : String} {v : Nat} (tok : String)
    (habs : dictGet g.vertices_map tok = none)
    (h : dictGet g.vertices_map t = some v) :
    dictGet (g.add_vertex tok).1.vertices_map t = some v := by
  show dictGet (dictInsert g.vertices_map tok g.new_id) t = some v
  rw [dictGet_dictInsert]
  have hne : t ≠ tok := by
    intro he
    rw [he, habs] at h
    cases h
  rw [if_neg hne]
  exact h

theorem registered_get_vertex_id {g : DirectedGraph} {t : String} {v : Nat} (tok : String)
    (h : dictGet g.vertices_map t = some v) :
    dictGet (g.get_vertex_id tok).1.vertices_map t = some v := by
  unfold DirectedGraph.get_vertex_id
  rcases hd : dictGet g.vertices_map tok with _ | vid
  · simp only [hd]
    exact registered_add_vertex tok hd h
  · simp only [hd]
    exact h

theorem registered_add_edge {g : DirectedGraph} {t : String} {v : Nat} (a b : String)
    (h : dictGet g.vertices_map t = some v) :
    dictGet (g.add_edge a b).vertices_map t = some v :=
  registered_get_vertex_id b (registered_get_vertex_id a h)

theorem get_vertex_id_adj (g : DirectedGraph) (tok : String) :
    (g.get_vertex_id tok).1.graph.graph = g.graph.graph := by
  unfold DirectedGraph.get_vertex_id
  rcases hd : dictGet g.vertices_map tok with _ | vid
  · simp only [hd]
    exact add_vertex_graph _ _
  · simp only [hd]

theorem get_vertex_id_adj_inv (g : DirectedGraph) (tok : String) :
    (g.get_vertex_id tok).1.graph.graph_inv = g.graph.graph_inv := by
  unfold DirectedGraph.get_vertex_id
  rcases hd : dictGet g.vertices_map tok with _ | vid
  · simp only [hd]
    exact add_vertex_graph_inv _ _
  · simp only [hd]

theorem add_edge_adj_mono {g : DirectedGraph} {ix iy : Nat} (a b : String)
    (h : iy ∈ g.graph.graph ix) : iy ∈ (g.add_edge a b).graph.graph ix := by
  have h1 : iy ∈ (g.get_vertex_id a).1.graph.graph ix := by
    rw [get_vertex_id_adj]
    exact h
  have h2 : iy ∈ ((g.get_vertex_id a).1.get_vertex_id b).1.graph.graph ix := by
    rw [get_vertex_id_adj]
    exact h1
  exact mem_add_edge_of_mem _ _ h2

theorem vertsMapped_add_vertex {g : DirectedGraph} (h : g.VertsMapped) (tok : String) :
    (g.add_vertex tok).1.VertsMapped := by
  intro vid hvid
  have hvid' : vid ∈ (g.graph.add_vertex g.new_id).vertices := hvid
  show ∃ t, dictGet (dictInsert g.vertices_map_inv g.new_id tok) vid = some t
  rw [dictGet_dictInsert]
  by_cases hv : vid = g.new_id
  · rw [if_pos hv]
    exact ⟨tok, rfl⟩
  · rw [if_neg hv]
    rcases mem_add_vertex_cases hvid' with h' | h'
    · exact h vid h'
    · exact absurd h' hv

theorem vertsMapped_get_vertex_id {g : DirectedGraph} (h : g.VertsMapped) (tok : String) :
    (g.get_vertex_id tok).1.VertsMapped := by
  unfold DirectedGraph.get_vertex_id
  rcases hd : dictGet g.vertices_map tok with _ | vid
  · simp only [hd]
    exact vertsMapped_add_vertex h tok
  · simp only [hd]
    exact h

theorem vertsMapped_add_edge {g : DirectedGraph} (hm : g.MapInv) (h : g.VertsMapped)
    (a b : String) : (g.add_edge a b).VertsMapped := by
  have hm2 : ((g.get_vertex_id a).1.get_vertex_id b).1.MapInv :=
    mapInv_get_vertex_id b (mapInv_get_vertex_id a hm)
  have h2 : ((g.get_vertex_id a).1.get_vertex_id b).1.VertsMapped :=
    vertsMapped_get_vertex_id (vertsMapped_get_vertex_id h a) b
  intro vid hvid
  have hvid' : vid ∈ ((((g.get_vertex_id a).1.get_vertex_id b).1.graph.add_vertex
      (g.get_vertex_id a).2).add_vertex
        ((g.get_vertex_id a).1.get_vertex_id b).2).vertices := by
    have := hvid
    rw [show (g.add_edge a b).graph
        = ((g.get_vertex_id a).1.get_vertex_id b).1.graph.add_edge (g.get_vertex_id a).2
          ((g.get_vertex_id a).1.get_vertex_id b).2 from rfl] at this
    rw [← vertices_add_edge_eq]
    exact this
  have hmapa : dictGet ((g.get_vertex_id a).1.get_vertex_id b).1.vertices_map a
      = some (g.get_vertex_id a).2 :=
    registered_get_vertex_id b (get_vertex_id_maps g a)
  have hmapb : dictGet ((g.get_vertex_id a).1.get_vertex_id b).1.vertices_map b
      = some ((g.get_vertex_id a).1.get_vertex_id b).2 :=
    get_vertex_id_maps _ b
  show ∃ t, dictGet ((g.get_vertex_id a).1.get_vertex_id b).1.vertices_map_inv vid = some t
  rcases mem_add_vertex_cases hvid' with h' | h'
  · rcases mem_add_vertex_cases h' with h'' | h''
    · exact h2 vid h''
    · exact ⟨a, by rw [← hm2.1]; rw [h'']; exact hmapa⟩
  · exact ⟨b, by rw [← hm2.1]; rw [h']; exact hmapb⟩

theorem wf_init : DirectedGraph.init.WellFormed := by
  refine ⟨mapInv_init, nodup_init, edgesClosed_init, ?_, ?_⟩
  · intro a b
    show b ∈ BaseDirectedGraph.init.graph a ↔ a ∈ BaseDirectedGraph.init.graph_inv b
    simp [BaseDirectedGraph.init]
  · intro vid hvid
    exact absurd hvid (by simp [DirectedGraph.init, BaseDirectedGraph.init])

theorem wf_add_vertex {g : DirectedGraph} (h : g.WellFormed) {tok : String}
    (habs : dictGet g.vertices_map tok = none) : (g.add_vertex tok).1.WellFormed := by
  obtain ⟨h1, h2, h3, h4, h5⟩ := h
  exact ⟨mapInv_add_vertex_absent h1 habs,
    nodup_add_vertex h2 _,
    edgesClosed_add_vertex h3 _,
    symAdj_add_vertex h4 _,
    vertsMapped_add_vertex h5 tok⟩

theorem wf_get_vertex_id {g : DirectedGraph} (h : g.WellFormed) (tok : String) :
    (g.get_vertex_id tok).1.WellFormed := by
  unfold DirectedGraph.get_vertex_id
  rcases hd : dictGet g.vertices_map tok with _ | vid
  · simp only [hd]
    exact wf_add_vertex h hd
  · simp only [hd]
    exact h

theorem wf_add_edge {g : DirectedGraph} (h : g.WellFormed) (a b : String) :
    (g.add_edge a b).WellFormed := by
  obtain ⟨hG1, hG2, hG3, hG4, hG5⟩ := wf_get_vertex_id (wf_get_vertex_id h a) b
  exact ⟨mapInv_add_edge a b h.1,
    nodup_add_edge hG2 _ _,
    edgesClosed_add_edge hG3 _ _,
    symAdj_add_edge hG4 _ _,
    vertsMapped_add_edge h.1 h.2.2.2.2 a b⟩

theorem wf_addChainEdges : ∀ (l : List String) {g : DirectedGraph}, g.WellFormed →
    (TestItemsSorter.addChainEdges g l).WellFormed
  | [], _, h => h
  | [_], _, h => h
  | a :: b :: rest, _, h => wf_addChainEdges (b :: rest) (wf_add_edge h a b)

theorem registered_addChainEdges :
    ∀ (l : List String) {g : DirectedGraph} {t : String} {v : Nat},
    dictGet g.vertices_map t = some v →
    dictGet (TestItemsSorter.addChainEdges g l).vertices_map t = some v
  | [], _, _, _, h => h
  | [_], _, _, _, h => h
  | a :: b :: rest, _, _, _, h =>
    registered_addChainEdges (b :: rest) (registered_add_edge a b h)

theorem tokEdge_add_edge_self (g : DirectedGraph) (a b : String) :
    (g.add_edge a b).TokEdge a b := by
  refine ⟨(g.get_vertex_id a).2, ((g.get_vertex_id a).1.get_vertex_id b).2, ?_, ?_, ?_⟩
  · exact registered_get_vertex_id b (get_vertex_id_maps g a)
  · exact get_vertex_id_maps _ b
  · exact mem_add_edge_self _ _ _

theorem tokEdge_add_edge_mono {g : DirectedGraph} {x y : String} (a b : String)
    (h : g.TokEdge x y) : (g.add_edge a b).TokEdge x y := by
  obtain ⟨ix, iy, hx, hy, hmem⟩ := h
  exact ⟨ix, iy, registered_add_edge a b hx, registered_add_edge a b hy,
    add_edge_adj_mono a b hmem⟩

theorem tokEdge_addChainEdges_mono :
    ∀ (l : List String) {g : DirectedGraph} {x y : String},
    g.TokEdge x y → (TestItemsSorter.addChainEdges g l).TokEdge x y
  | [], _, _, _, h => h
  | [_], _, _, _, h => h
  | a :: b :: rest, _, _, _, h =>
    tokEdge_addChainEdges_mono (b :: rest) (tokEdge_add_edge_mono a b h)

theorem addChainEdges_pairs : ∀ (l : List String) (g : DirectedGraph) (i : Nat)
    (hi : i + 1 < l.length),
    (TestItemsSorter.addChainEdges g l).TokEdge (l.get ⟨i, Nat.lt_of_succ_lt hi⟩)
      (l.get ⟨i + 1, hi⟩)
  | a :: b :: rest, g, 0, _ =>
    tokEdge_addChainEdges_mono (b :: rest) (tokEdge_add_edge_self g a b)
  | a :: b :: rest, g, i + 1, hi =>
    addChainEdges_pairs (b :: rest) (g.add_edge a b) i
      (by simpa using hi)
  | [], _, i, hi => absurd hi (by simp)
  | [_], _, i, hi => absurd hi (by simp)

theorem tok_chain_reach {G : DirectedGraph} {l : List String}
    (hpair : ∀ i (hi : i + 1 < l.length),
      G.TokEdge (l.get ⟨i, Nat.lt_of_succ_lt hi⟩) (l.get ⟨i + 1, hi⟩)) :
    ∀ j (hj : j < l.length) i (hij : i < j),
      ∃ ia ib, dictGet G.vertices_map (l.get ⟨i, lt_trans hij hj⟩) = some ia
        ∧ dictGet G.vertices_map (l.get ⟨j, hj⟩) = some ib
        ∧ Reaches G.graph.graph ia ib := by
  intro j
  induction j with
  | zero =>
    intro hj i hij
    exact absurd hij (Nat.not_lt_zero i)
  | succ j ih =>
    intro hj i hij
    obtain ⟨ia', ib', h1, h2, h3⟩ := hpair j hj
    rcases Nat.lt_succ_iff_lt_or_eq.mp hij with h' | h'
    · obtain ⟨ia, ib, g1, g2, g3⟩ := ih (Nat.lt_of_succ_lt hj) i h'
      have hbb : ib = ia' := by
        rw [h1] at g2
        exact (Option.some_injective _ g2).symm
      exact ⟨ia, ib', g1, h2,
        reaches_trans g3 (by rw [hbb]; exact reaches_of_mem h3)⟩
    · subst h'
      exact ⟨ia', ib', h1, h2, reaches_of_mem h3⟩

/-! ## Claim C1 — vertex removal facts -/

theorem remove_vertex_map_self (g : DirectedGraph) (tok : String) :
    dictGet (g.remove_vertex tok).vertices_map tok = none := by
  unfold DirectedGraph.remove_vertex
  rcases hd : dictGet g.vertices_map tok with _ | vid
  · simp only [hd]
  · simp only [hd]
    show dictGet (dictPop g.vertices_map tok) tok = none
    rw [dictGet_dictPop, if_pos rfl]

theorem remove_vertex_map_other {g : DirectedGraph} {t : String} (tok : String)
    (hne : t ≠ tok) :
    dictGet (g.remove_vertex tok).vertices_map t = dictGet g.vertices_map t := by
  unfold DirectedGraph.remove_vertex
  rcases hd : dictGet g.vertices_map tok with _ | vid
  · simp only [hd]
  · simp only [hd]
    show dictGet (dictPop g.vertices_map tok) t = _
    rw [dictGet_dictPop, if_neg hne]

theorem remove_vertex_inv_up {g : DirectedGraph} {v : Nat} {tok t : String}
    (h : dictGet (g.remove_vertex tok).vertices_map_inv v = some t) :
    dictGet g.vertices_map_inv v = some t := by
  unfold DirectedGraph.remove_vertex at h
  rcases hd : dictGet g.vertices_map tok with _ | vid
  · simp only [hd] at h
    exact h
  · simp only [hd] at h
    have h' : dictGet (dictPop g.vertices_map_inv vid) v = some t := h
    rw [dictGet_dictPop] at h'
    by_cases hv : v = vid
    · rw [if_pos hv] at h'
      cases h'
    · rw [if_neg hv] at h'
      exact h'

theorem remove_vertex_verts_up {g : DirectedGraph} {tok : String} {x : Nat}
    (h : x ∈ (g.remove_vertex tok).graph.vertices) : x ∈ g.graph.vertices := by
  unfold DirectedGraph.remove_vertex at h
  rcases hd : dictGet g.vertices_map tok with _ | vid
  · simp only [hd] at h
    exact h
  · simp only [hd] at h
    exact remove_vertex_mem_verts_up h

theorem remove_vertex_verts_down {g : DirectedGraph} {tok : String} {x : Nat}
    (hx : x ∈ g.graph.vertices) (hnot : dictGet g.vertices_map tok ≠ some x) :
    x ∈ (g.remove_vertex tok).graph.vertices := by
  unfold DirectedGraph.remove_vertex
  rcases hd : dictGet g.vertices_map tok with _ | vid
  · simp only [hd]
    exact hx
  · simp only [hd]
    refine remove_vertex_mem_verts_down hx ?_
    intro he
    subst he
    exact hnot hd

theorem remove_vertex_verts_out {g : DirectedGraph} {tok : String} {x : Nat}
    (hnd : g.graph.vertices.Nodup) (hd : dictGet g.vertices_map tok = some x) :
    x ∉ (g.remove_vertex tok).graph.vertices := by
  unfold DirectedGraph.remove_vertex
  simp only [hd]
  show x ∉ (g.graph.remove_vertex x).vertices
  unfold BaseDirectedGraph.remove_vertex
  split
  · intro hmem
    exact ((hnd.mem_erase_iff).mp hmem).1 rfl
  · next hmem => exact hmem

theorem remove_vertex_adj_up {g : DirectedGraph} {tok : String} {x y : Nat}
    (h : y ∈ (g.remove_vertex tok).graph.graph x) : y ∈ g.graph.graph x := by
  unfold DirectedGraph.remove_vertex at h
  rcases hd : dictGet g.vertices_map tok with _ | vid
  · simp only [hd] at h
    exact h
  · simp only [hd] at h
    exact remove_vertex_mem_adj_up h

theorem remove_vertex_adj_down {g : DirectedGraph} {tok : String} {x y : Nat}
    (h : y ∈ g.graph.graph x) (hx : dictGet g.vertices_map tok ≠ some x)
    (hy : dictGet g.vertices_map tok ≠ some y) :
    y ∈ (g.remove_vertex tok).graph.graph x := by
  unfold DirectedGraph.remove_vertex
  rcases hd : dictGet g.vertices_map tok with _ | vid
  · simp only [hd]
    exact h
  · simp only [hd]
    refine remove_vertex_mem_adj_down h ?_ ?_
    · intro he
      subst he
      exact hx hd
    · intro he
      subst he
      exact hy hd

theorem nodup_remove_vertex_tok {g : DirectedGraph} (h : g.graph.vertices.Nodup)
    (tok : String) : (g.remove_vertex tok).graph.vertices.Nodup := by
  unfold DirectedGraph.remove_vertex
  rcases hd : dictGet g.vertices_map tok with _ | vid
  · simp only [hd]
    exact h
  · simp only [hd]
    exact nodup_remove_vertex h vid

theorem vertsMapped_remove_vertex {g : DirectedGraph} (hnd : g.graph.vertices.Nodup)
    (h : g.VertsMapped) (tok : String) : (g.remove_vertex tok).VertsMapped := by
  unfold DirectedGraph.remove_vertex
  rcases hd : dictGet g.vertices_map tok with _ | vid
  · simp only [hd]
    exact h
  · simp only [hd]
    intro v hv
    have hv' : v ∈ (g.graph.remove_vertex vid).vertices := hv
    have hvfact : v ≠ vid ∧ v ∈ g.graph.vertices := by
      unfold BaseDirectedGraph.remove_vertex at hv'
      split at hv'
      · exact (hnd.mem_erase_iff).mp hv'
      · next hmem =>
        refine ⟨?_, hv'⟩
        intro he
        subst he
        exact hmem hv'
    obtain ⟨t, ht⟩ := h v hvfact.2
    refine ⟨t, ?_⟩
    show dictGet (dictPop g.vertices_map_inv vid) v = some t
    rw [dictGet_dictPop, if_neg hvfact.1]
    exact ht

theorem remove_vertex_adj_self {g : DirectedGraph} (hm : g.MapInv) {tok : String} {v : Nat}
    (hd : dictGet g.vertices_map tok = some v) :
    (g.remove_vertex tok).graph.graph v = [] := by
  unfold DirectedGraph.remove_vertex
  simp only [hd]
  show (g.graph.remove_vertex v).graph v = []
  unfold BaseDirectedGraph.remove_vertex
  rw [if_pos (hm.2 tok v hd).1]
  dsimp only
  rw [if_pos rfl]

/-- All facts needed about the repeated `remove_vertex` that builds the
deep copy handed to the final topological sort. -/
theorem fold_remove_spec : ∀ (ts : List String) (g : DirectedGraph),
    g.MapInv → g.graph.vertices.Nodup → g.VertsMapped →
    (ts.foldl (fun g t => DirectedGraph.remove_vertex g t) g).MapInv
    ∧ (ts.foldl (fun g t => DirectedGraph.remove_vertex g t) g).graph.vertices.Nodup
    ∧ (ts.foldl (fun g t => DirectedGraph.remove_vertex g t) g).VertsMapped
    ∧ (∀ x, x ∈ (ts.foldl (fun g t => DirectedGraph.remove_vertex g t) g).graph.vertices
        → x ∈ g.graph.vertices)
    ∧ (∀ x, x ∈ g.graph.vertices → (∀ t ∈ ts, dictGet g.vertices_map t ≠ some x)
        → x ∈ (ts.foldl (fun g t => DirectedGraph.remove_vertex g t) g).graph.vertices)
    ∧ (∀ x y, y ∈ (ts.foldl (fun g t => DirectedGraph.remove_vertex g t) g).graph.graph x
        → y ∈ g.graph.graph x)
    ∧ (∀ x y, y ∈ g.graph.graph x → (∀ t ∈ ts, dictGet g.vertices_map t ≠ some x)
        → (∀ t ∈ ts, dictGet g.vertices_map t ≠ some y)
        → y ∈ (ts.foldl (fun g t => DirectedGraph.remove_vertex g t) g).graph.graph x)
    ∧ (∀ v t, dictGet
          (ts.foldl (fun g t => DirectedGraph.remove_vertex g t) g).vertices_map_inv v
          = some t
        → dictGet g.vertices_map_inv v = some t)
    ∧ (∀ t v, t ∈ ts → dictGet g.vertices_map t = some v
        → v ∉ (ts.foldl (fun g t => DirectedGraph.remove_vertex g t) g).graph.vertices)
    ∧ (∀ t v, t ∈ ts → dictGet g.vertices_map t = some v
        → (ts.foldl (fun g t => DirectedGraph.remove_vertex g t) g).graph.graph v = []) := by
  intro ts
  induction ts with
  | nil =>
    intro g h1 h2 h3
    refine ⟨h1, h2, h3, fun x hx => hx, fun x hx _ => hx, fun x y hy => hy,
      fun x y hy _ _ => hy, fun v t ht => ht, ?_, ?_⟩
    · intro t v ht
      cases ht
    · intro t v ht
      cases ht
  | cons t0 ts ih =>
    intro g h1 h2 h3
    have h1' := mapInv_remove_vertex t0 h1
    have h2' := nodup_remove_vertex_tok h2 t0
    have h3' := vertsMapped_remove_vertex h2 h3 t0
    obtain ⟨i1, i2, i3, i4, i5, i6, i7, i8, i9, i10⟩ := ih (g.remove_vertex t0) h1' h2' h3'
    refine ⟨i1, i2, i3, ?_, ?_, ?_, ?_, ?_, ?_, ?_⟩
    · intro x hx
      exact remove_vertex_verts_up (i4 x hx)
    · intro x hx hc
      refine i5 x (remove_vertex_verts_down hx (hc t0 (by simp))) ?_
      intro t' ht'
      by_cases he : t' = t0
      · subst he
        rw [remove_vertex_map_self]
        intro hcon
        cases hcon
      · rw [remove_vertex_map_other t0 he]
        exact hc t' (List.mem_cons_of_mem _ ht')
    · intro x y hy
      exact remove_vertex_adj_up (i6 x y hy)
    · intro x y hy hcx hcy
      refine i7 x y (remove_vertex_adj_down hy (hcx t0 (by simp)) (hcy t0 (by simp))) ?_ ?_
      · intro t' ht'
        by_cases he : t' = t0
        · subst he
          rw [remove_vertex_map_self]
          intro hcon
          cases hcon
        · rw [remove_vertex_map_other t0 he]
          exact hcx t' (List.mem_cons_of_mem _ ht')
      · intro t' ht'
        by_cases he : t' = t0
        · subst he
          rw [remove_vertex_map_self]
          intro hcon
          cases hcon
        · rw [remove_vertex_map_other t0 he]
          exact hcy t' (List.mem_cons_of_mem _ ht')
    · intro v t ht
      exact remove_vertex_inv_up (i8 v t ht)
    · intro t v ht hv
      by_cases he : t = t0
      · subst he
        intro hmem
        exact remove_vertex_verts_out h2 hv (i4 v hmem)
      · rcases List.mem_cons.mp ht with h' | h'
        · exact absurd h' he
        · refine i9 t v h' ?_
          rw [remove_vertex_map_other t0 he]
          exact hv
    · intro t v ht hv
      by_cases he : t = t0
      · subst he
        have hstep : (g.remove_vertex t).graph.graph v = [] :=
          remove_vertex_adj_self h1 hv
        refine List.eq_nil_iff_forall_not_mem.mpr ?_
        intro y hy
        have := i6 v y hy
        rw [hstep] at this
        cases this
      · rcases List.mem_cons.mp ht with h' | h'
        · exact absurd h' he
        · refine i10 t v h' ?_
          rw [remove_vertex_map_other t0 he]
          exact hv

/-! ## Claim C1 — validity of the base topological sort -/

theorem get_next_end_vertex_ok {graph : BaseDirectedGraph} {remaining : List Nat} {v : Nat}
    (h : get_next_end_vertex graph remaining = .ok v) :
    v ∈ remaining ∧ graph.graph v = [] := by
  unfold get_next_end_vertex at h
  rcases remaining with _ | ⟨r, rs⟩
  · cases h
  · rcases hf : (r :: rs).find? (fun v => (graph.graph v).isEmpty) with _ | w
    · simp only [hf] at h
      cases h
    · simp only [hf] at h
      cases h
      refine ⟨List.mem_of_find?_eq_some hf, ?_⟩
      have := List.find?_some hf
      simpa using this

/-- Manual unfolding equation for `sort_graph_loop` (the automatic
equation generator does not handle its nested matches). -/
theorem sort_graph_loop_unfold (fuel : Nat) (working : BaseDirectedGraph)
    (unsorted sorted : List Nat) :
    sort_graph_loop fuel working unsorted sorted =
      if 1 < unsorted.length then
        match fuel with
        | 0 => .error .indexError
        | fuel + 1 =>
          match get_next_end_vertex working unsorted with
          | .error e => .error e
          | .ok v =>
            sort_graph_loop fuel (working.remove_vertex v) (unsorted.erase v) (sorted ++ [v])
      else
        match unsorted with
        | [] => .error .indexError
        | v :: _ => .ok ((sorted ++ [v]).reverse) := by
  cases fuel <;> rfl

/-- On success, the sorting loop returns the reversal of `sorted`
followed by some arrangement `app` of the unsorted vertices, in which
the target of every edge between still-unsorted vertices is placed
strictly before its source (so the final reversal puts sources first). -/
theorem sort_graph_loop_spec : ∀ (fuel : Nat) (working : BaseDirectedGraph)
    (unsorted sorted out : List Nat),
    unsorted.length ≤ fuel →
    sort_graph_loop fuel working unsorted sorted = .ok out →
    ∃ app, out = (sorted ++ app).reverse ∧ app.Perm unsorted ∧
      (∀ a b, a ∈ unsorted → b ∈ unsorted → b ∈ working.graph a → a ≠ b →
        ∃ p q, app = p ++ b :: q ∧ a ∈ q) := by
  intro fuel
  induction fuel with
  | zero =>
    intro working unsorted sorted out hle h
    rw [sort_graph_loop_unfold] at h
    rw [if_neg (by omega)] at h
    rcases unsorted with _ | ⟨v, rest⟩
    · cases h
    · exact absurd hle (by simp)
  | succ fuel ih =>
    intro working unsorted sorted out hle h
    rw [sort_graph_loop_unfold] at h
    by_cases hlen : 1 < unsorted.length
    · rw [if_pos hlen] at h
      rcases hnext : get_next_end_vertex working unsorted with e | v
      · simp only [hnext] at h
        cases h
      · simp only [hnext] at h
        obtain ⟨hvmem, hvadj⟩ := get_next_end_vertex_ok hnext
        have hlen' : (unsorted.erase v).length ≤ fuel := by
          rw [List.length_erase_of_mem hvmem]
          omega
        obtain ⟨app', heq', hperm', hord'⟩ := ih (working.remove_vertex v)
          (unsorted.erase v) (sorted ++ [v]) out hlen' h
        refine ⟨v :: app', ?_, ?_, ?_⟩
        · rw [heq']
          congr 1
          rw [List.append_assoc, List.singleton_append]
        · exact (hperm'.cons v).trans (List.perm_cons_erase hvmem).symm
        · intro a b ha hb hedge hne
          by_cases hav : a = v
          · subst hav
            rw [hvadj] at hedge
            cases hedge
          · by_cases hbv : b = v
            · subst hbv
              refine ⟨[], app', rfl, ?_⟩
              rw [hperm'.mem_iff]
              exact (List.mem_erase_of_ne hav).mpr ha
            · have hedge' : b ∈ (working.remove_vertex v).graph a := by
                unfold BaseDirectedGraph.remove_vertex
                split
                · dsimp only
                  rw [if_neg hav]
                  exact (List.mem_erase_of_ne hbv).mpr hedge
                · exact hedge
              obtain ⟨p, q, hpq, haq⟩ := hord' a b
                ((List.mem_erase_of_ne hav).mpr ha)
                ((List.mem_erase_of_ne hbv).mpr hb) hedge' hne
              exact ⟨v :: p, q, by rw [hpq]; rfl, haq⟩
    · rw [if_neg hlen] at h
      rcases unsorted with _ | ⟨v, rest⟩
      · cases h
      · have hrest : rest = [] := by
          have : rest.length = 0 := by
            simp only [List.length_cons] at hlen
            omega
          exact List.length_eq_zero.mp this
        subst hrest
        injection h with h'
        refine ⟨[v], h'.symm, List.Perm.refl _, ?_⟩
        intro a b ha hb hedge hne
        rcases List.mem_singleton.mp ha with rfl
        rcases List.mem_singleton.mp hb with rfl
        exact absurd rfl hne

/-- On success, `BaseDirectedGraph.sort_graph` returns an arrangement of
the vertex list in which the source of every edge between distinct
vertices appears strictly before its target. -/
theorem sort_graph_base_spec {g : BaseDirectedGraph} {out : List Nat}
    (hnd : g.vertices.Nodup) (h : g.sort_graph = .ok out) :
    out.Perm g.vertices ∧ out.Nodup ∧
      (∀ a b, a ∈ g.vertices → b ∈ g.vertices → b ∈ g.graph a → a ≠ b →
        out.indexOf a < out.indexOf b) := by
  obtain ⟨app, heq, hperm, hord⟩ := sort_graph_loop_spec g.vertices.length g
    g.vertices [] out (le_refl _) h
  have houtapp : out = app.reverse := by
    rw [heq]
    rfl
  have happnd : app.Nodup := (hperm.nodup_iff).mpr hnd
  have houtperm : out.Perm g.vertices := by
    rw [houtapp]
    exact (List.reverse_perm app).trans hperm
  have houtnd : out.Nodup := by
    rw [houtapp]
    exact List.nodup_reverse.mpr happnd
  refine ⟨houtperm, houtnd, ?_⟩
  intro a b ha hb hedge hne
  obtain ⟨p, q, hpq, haq⟩ := hord a b ha hb hedge hne
  obtain ⟨s, t, hst⟩ := List.append_of_mem (List.mem_reverse.mpr haq)
  have hout2 : out = s ++ a :: (t ++ b :: p.reverse) := by
    rw [houtapp, hpq]
    rw [List.reverse_append, List.reverse_cons, hst]
    simp
  exact indexOf_lt_of_decomp hout2 houtnd

/-! ## Claim C1 — the cycle check and the two order checks -/

theorem acyclic_of_cycle_empty (g : BaseDirectedGraph) (hnd : g.vertices.Nodup)
    (hec : g.EdgesClosed) (hempty : get_graph_cycle g = []) :
    ∀ w, ¬ Reaches g.graph w w := by
  intro w
  have hInv0 : DfsInv g (List.replicate g.vertices.length false)
      (List.replicate g.vertices.length false) := by
    refine ⟨?_, ?_, ?_⟩
    · intro x hx
      exact absurd hx (flagAt_replicate_false g _ x)
    · intro x hx
      exact absurd hx.1 (flagAt_replicate_false g _ x)
    · intro x hx
      exact absurd hx.1 (flagAt_replicate_false g _ x)
  have hdrop0 : g.vertices.drop 0 = g.vertices := List.drop_zero _
  have hlen : (List.replicate g.vertices.length (false : Bool)).length
      = g.vertices.length := List.length_replicate _ _
  rcases hgo : get_graph_cycleO g with _ | cyc
  · exact absurd hgo (graph_cycle_go_ne_none g hnd hec g.vertices 0 _ _ hdrop0 hlen)
  · have hcyc0 : cyc = [] := by
      unfold get_graph_cycle at hempty
      rw [hgo] at hempty
      exact hempty
    exact (graph_cycle_go_spec g hnd hec g.vertices 0 _ _ hdrop0 hlen hlen hInv0
      (fun x => flagAt_replicate_false g _ x) (fun x hx => Or.inl hx) cyc hgo).1 hcyc0 w

theorem wrapper_backward_query {g : DirectedGraph} {tok : String} {vid : Nat}
    (hd : dictGet g.vertices_map tok = some vid) :
    g.get_vertex_dependants tok "backward"
      = match get_vertex_dependants_core recursion_limit g.graph.graph_inv vid with
        | none => (g, .error .recursionError)
        | some (adjI, res) =>
          ({ g with graph := { g.graph with graph_inv := adjI } },
            .ok ((pySetList res).map g.tokenOf)) := by
  have hgv : g.get_vertex_id tok = (g, vid) := by
    unfold DirectedGraph.get_vertex_id
    simp only [hd]
  have hbase : g.graph.get_vertex_dependants vid "backward"
      = match get_vertex_dependants_core recursion_limit g.graph.graph_inv vid with
        | none => (g.graph, .error .recursionError)
        | some (adjI, res) => ({ g.graph with graph_inv := adjI }, .ok (pySetList res)) := by
    unfold BaseDirectedGraph.get_vertex_dependants
    simp only [show require_in_list "backward" ["forward", "backward"] = Except.ok ()
      from rfl]
    rw [if_neg (by decide : ¬ ("backward" : String) = "forward")]
  unfold DirectedGraph.get_vertex_dependants
  simp only [show require_in_list "backward" ["forward", "backward"] = Except.ok ()
    from rfl]
  simp only [hgv, hbase]
  rcases get_vertex_dependants_core recursion_limit g.graph.graph_inv vid
    with _ | ⟨adjI, res⟩
  · rfl
  · rfl

theorem wrapper_forward_query {g : DirectedGraph} {tok : String} {vid : Nat}
    (hd : dictGet g.vertices_map tok = some vid) :
    g.get_vertex_dependants tok "forward"
      = match get_vertex_dependants_core recursion_limit g.graph.graph vid with
        | none => (g, .error .recursionError)
        | some (adj1, res) =>
          ({ g with graph := { g.graph with graph := adj1 } },
            .ok ((pySetList res).map g.tokenOf)) := by
  have hgv : g.get_vertex_id tok = (g, vid) := by
    unfold DirectedGraph.get_vertex_id
    simp only [hd]
  have hbase : g.graph.get_vertex_dependants vid "forward"
      = match get_vertex_dependants_core recursion_limit g.graph.graph vid with
        | none => (g.graph, .error .recursionError)
        | some (adj1, res) => ({ g.graph with graph := adj1 }, .ok (pySetList res)) := by
    unfold BaseDirectedGraph.get_vertex_dependants
    simp only [show require_in_list "forward" ["forward", "backward"] = Except.ok ()
      from rfl]
    exact if_pos trivial
  unfold DirectedGraph.get_vertex_dependants
  simp only [show require_in_list "forward" ["forward", "backward"] = Except.ok ()
    from rfl]
  simp only [hgv, hbase]
  rcases get_vertex_dependants_core recursion_limit g.graph.graph vid
    with _ | ⟨adj1, res⟩
  · rfl
  · rfl

theorem check_start_nil {s : TestItemsSorter} (hnil : s.startIds = []) :
    s.check_start_items_execution_order = .ok s := by
  unfold TestItemsSorter.check_start_items_execution_order
  split
  · rfl
  · next heq =>
    rw [hnil] at heq
    cases heq

theorem check_end_nil {s : TestItemsSorter} (hnil : s.endIds = []) :
    s.check_end_items_execution_order = .ok s := by
  unfold TestItemsSorter.check_end_items_execution_order
  split
  · rfl
  · next heq =>
    rw [hnil] at heq
    cases heq

theorem check_start_ok_facts {s s1 : TestItemsSorter} {lt : String} {vid : Nat}
    (hlast : s.startIds.getLast? = some lt)
    (hd : dictGet s.graph.vertices_map lt = some vid)
    (h : s.check_start_items_execution_order = .ok s1) :
    (∀ x, Reaches s.graph.graph.graph_inv vid x → s.graph.tokenOf x ∈ s.startIds)
    ∧ s1.graph.graph.graph = s.graph.graph.graph
    ∧ s1.graph.graph.vertices = s.graph.graph.vertices
    ∧ s1.graph.vertices_map = s.graph.vertices_map
    ∧ s1.graph.vertices_map_inv = s.graph.vertices_map_inv
    ∧ s1.graph.new_id = s.graph.new_id
    ∧ s1.start_items = s.start_items
    ∧ s1.end_items = s.end_items := by
  unfold TestItemsSorter.check_start_items_execution_order at h
  split at h
  · next heq =>
    rw [heq] at hlast
    cases hlast
  · next h0 htl heq =>
    have hne : s.startIds ≠ [] := by
      rw [heq]
      exact List.cons_ne_nil _ _
    have hlt : s.startIds.getLast (by simp [heq]) = lt := by
      rw [List.getLast?_eq_getLast s.startIds (by simp [heq])] at hlast
      exact Option.some_injective _ hlast
    rw [show s.startIds.getLast (by simp [heq]) = lt from hlt] at h
    simp only [] at h
    rw [wrapper_backward_query hd] at h
    rcases hcore : get_vertex_dependants_core recursion_limit s.graph.graph.graph_inv vid
      with _ | ⟨adjI, res⟩
    · simp only [hcore] at h
      cases h
    · simp only [hcore] at h
      split at h
      · next heqord =>
        have hs1 : s1 = { s with graph :=
            { s.graph with graph := { s.graph.graph with graph_inv := adjI } } } := by
          cases h
          rfl
        subst hs1
        refine ⟨?_, rfl, rfl, rfl, rfl, rfl, rfl, rfl⟩
        intro x hx
        have hxres : x ∈ res := (deps_core_exact hcore x).mpr hx
        have hxtok : s.graph.tokenOf x
            ∈ (pySetList res).map s.graph.tokenOf :=
          List.mem_map_of_mem _ ((mem_pySetList x res).mpr hxres)
        rw [heqord]
        exact List.mem_append_left _ (List.mem_reverse.mpr hxtok)
      · cases h

theorem check_end_ok_facts {s s1 : TestItemsSorter} {t0 : String} {rest : List String}
    {vid : Nat}
    (hT : s.endIds = t0 :: rest)
    (hd : dictGet s.graph.vertices_map t0 = some vid)
    (h : s.check_end_items_execution_order = .ok s1) :
    (∀ x, Reaches s.graph.graph.graph vid x → s.graph.tokenOf x ∈ s.endIds)
    ∧ DepsGrowth s.graph.graph.graph s1.graph.graph.graph
    ∧ s1.graph.graph.vertices = s.graph.graph.vertices
    ∧ s1.graph.vertices_map = s.graph.vertices_map
    ∧ s1.graph.vertices_map_inv = s.graph.vertices_map_inv
    ∧ s1.graph.new_id = s.graph.new_id
    ∧ s1.start_items = s.start_items
    ∧ s1.end_items = s.end_items := by
  unfold TestItemsSorter.check_end_items_execution_order at h
  split at h
  · next heq =>
    rw [heq] at hT
    cases hT
  · next firstId tl heq =>
    have hfid : firstId = t0 := by
      rw [heq] at hT
      exact (List.cons_eq_cons.mp hT).1
    subst hfid
    simp only [] at h
    rw [wrapper_forward_query hd] at h
    rcases hcore : get_vertex_dependants_core recursion_limit s.graph.graph.graph vid
      with _ | ⟨adj1, res⟩
    · simp only [hcore] at h
      cases h
    · simp only [hcore] at h
      split at h
      · next heqord =>
        have hs1 : s1 = { s with graph :=
            { s.graph with graph := { s.graph.graph with graph := adj1 } } } := by
          cases h
          rfl
        subst hs1
        refine ⟨?_, ?_, rfl, rfl, rfl, rfl, rfl, rfl⟩
        · intro x hx
          have hxres : x ∈ res := (deps_core_exact hcore x).mpr hx
          have hxtok : s.graph.tokenOf x
              ∈ (pySetList res).map s.graph.tokenOf :=
            List.mem_map_of_mem _ ((mem_pySetList x res).mpr hxres)
          rw [heqord]
          exact List.mem_cons_of_mem _ hxtok
        · exact ((deps_success_spec recursion_limit).1 _ _ _ _ hcore).1
      · cases h

/-! ## Claim C1 — pipeline destructuring and transport helpers -/

theorem except_bind_ok {α β : Type} {x : Except PyErr α} {f : α → Except PyErr β} {b : β}
    (h : x >>= f = .ok b) : ∃ a, x = .ok a ∧ f a = .ok b := by
  rcases x with e | a
  · have h' : (Except.error e : Except PyErr β) = .ok b := h
    cases h'
  · exact ⟨a, rfl, h⟩

theorem check_no_loop_ok {s : TestItemsSorter}
    (h : s.check_no_execution_loop = .ok ()) : get_graph_cycle s.graph.graph = [] := by
  unfold TestItemsSorter.check_no_execution_loop at h
  split at h
  · next hc =>
    unfold DirectedGraph.is_graph_acyclic DirectedGraph.graph_cycle at hc
    rcases hgc : get_graph_cycle s.graph.graph with _ | ⟨c, cs⟩
    · rfl
    · rw [hgc] at hc
      simp at hc
  · cases h

theorem wrapper_sort_ok {g : DirectedGraph} {mid : List String}
    (h : g.sort_graph "end" = .ok mid) :
    ∃ out, g.graph.sort_graph = .ok out ∧ mid = out.map g.tokenOf := by
  unfold DirectedGraph.sort_graph at h
  simp only [show require_in_list "end" ["start", "end"] = Except.ok () from rfl] at h
  rcases hso : g.graph.sort_graph with e | out
  · simp only [hso] at h
    cases h
  · simp only [hso] at h
    cases h
    exact ⟨out, rfl, rfl⟩

theorem mapInv_transport {g g' : DirectedGraph}
    (hm : g'.vertices_map = g.vertices_map) (hi : g'.vertices_map_inv = g.vertices_map_inv)
    (hv : g'.graph.vertices = g.graph.vertices) (hn : g'.new_id = g.new_id)
    (h : g.MapInv) : g'.MapInv := by
  constructor
  · intro tok vid
    rw [hm, hi]
    exact h.1 tok vid
  · intro tok vid hh
    rw [hm] at hh
    rw [hv, hn]
    exact h.2 tok vid hh

theorem vertsMapped_transport {g g' : DirectedGraph}
    (hi : g'.vertices_map_inv = g.vertices_map_inv)
    (hv : g'.graph.vertices = g.graph.vertices)
    (h : g.VertsMapped) : g'.VertsMapped := by
  intro vid hvid
  rw [hv] at hvid
  rw [hi]
  exact h vid hvid

theorem sort_items_destruct {s s' : TestItemsSorter} {L : List String}
    (h : s.sort_test_items_ids = .ok (s', L)) :
    ∃ s1,
      (s.add_start_relations.add_end_relations).check_no_execution_loop = .ok ()
      ∧ (s.add_start_relations.add_end_relations).check_start_items_execution_order = .ok s1
      ∧ s1.check_end_items_execution_order = .ok s'
      ∧ ∃ mid,
        (s'.endIds.foldl (fun g t => DirectedGraph.remove_vertex g t)
          (s'.startIds.foldl (fun g t => DirectedGraph.remove_vertex g t) s'.graph)).sort_graph
            "end" = .ok mid
        ∧ L = s'.startIds ++ mid ++ s'.endIds := by
  unfold TestItemsSorter.sort_test_items_ids at h
  obtain ⟨s2, hchk, h⟩ := except_bind_ok h
  simp only [] at h
  obtain ⟨mid, hsort, h⟩ := except_bind_ok h
  have h' : Except.ok (s2, s2.startIds ++ mid ++ s2.endIds) = Except.ok (s', L) := h
  injection h' with h''
  have hs : s2 = s' := congrArg Prod.fst h''
  have hL : s2.startIds ++ mid ++ s2.endIds = L := congrArg Prod.snd h''
  subst hs
  unfold TestItemsSorter.check_if_sorting_possible at hchk
  simp only [] at hchk
  obtain ⟨u, hA, hchk⟩ := except_bind_ok hchk
  rcases u
  obtain ⟨s1, hB, hchk⟩ := except_bind_ok hchk
  obtain ⟨s2', hC, hchk⟩ := except_bind_ok hchk
  have hchk' : Except.ok s2' = Except.ok s2 := hchk
  injection hchk' with hse
  subst hse
  exact ⟨s1, hA, hB, hC, mid, hsort, hL.symm⟩

/-! ## Claim C1 — order facts along materialised slot chains -/

theorem chain_list_nodup {G : DirectedGraph} {l : List String}
    (hpair : ∀ i (hi : i + 1 < l.length),
      G.TokEdge (l.get ⟨i, Nat.lt_of_succ_lt hi⟩) (l.get ⟨i + 1, hi⟩))
    (hacyc : ∀ w, ¬ Reaches G.graph.graph w w) : l.Nodup := by
  rw [List.nodup_iff_injective_get]
  intro i j hget
  rcases lt_trichotomy i.1 j.1 with h' | h' | h'
  · exfalso
    obtain ⟨ix, iy, hix, hiy, hr⟩ := tok_chain_reach hpair j.1 j.2 i.1 h'
    rw [show l.get ⟨i.1, lt_trans h' j.2⟩ = l.get j from hget] at hix
    rw [show l.get ⟨j.1, j.2⟩ = l.get j from rfl] at hiy
    rw [hiy] at hix
    injection hix with h''
    subst h''
    exact hacyc iy hr
  · exact Fin.ext h'
  · exfalso
    obtain ⟨ix, iy, hix, hiy, hr⟩ := tok_chain_reach hpair i.1 i.2 j.1 h'
    rw [show l.get ⟨j.1, lt_trans h' i.2⟩ = l.get j from rfl] at hix
    rw [show l.get ⟨i.1, i.2⟩ = l.get j from hget] at hiy
    rw [hiy] at hix
    injection hix with h''
    subst h''
    exact hacyc iy hr

theorem chain_list_order {G : DirectedGraph} {l : List String}
    (hpair : ∀ i (hi : i + 1 < l.length),
      G.TokEdge (l.get ⟨i, Nat.lt_of_succ_lt hi⟩) (l.get ⟨i + 1, hi⟩))
    (hacyc : ∀ w, ¬ Reaches G.graph.graph w w) {a b : String} {ia ib : Nat}
    (hmemA : a ∈ l) (hmemB : b ∈ l)
    (hia : dictGet G.vertices_map a = some ia) (hib : dictGet G.vertices_map b = some ib)
    (hr : Reaches G.graph.graph ia ib) : l.indexOf a < l.indexOf b := by
  have hpa : l.indexOf a < l.length := List.indexOf_lt_length.2 hmemA
  have hpb : l.indexOf b < l.length := List.indexOf_lt_length.2 hmemB
  have hga : l.get ⟨l.indexOf a, hpa⟩ = a := List.indexOf_get hpa
  have hgb : l.get ⟨l.indexOf b, hpb⟩ = b := List.indexOf_get hpb
  rcases lt_trichotomy (l.indexOf a) (l.indexOf b) with h' | h' | h'
  · exact h'
  · exfalso
    have hab : a = b := by
      rw [← hga, ← hgb]
      congr 1
      exact Fin.ext h'
    subst hab
    rw [hia] at hib
    injection hib with h''
    subst h''
    exact hacyc ia hr
  · exfalso
    obtain ⟨ix, iy, hix, hiy, hr2⟩ := tok_chain_reach hpair (l.indexOf a) hpa (l.indexOf b) h'
    rw [show l.get ⟨l.indexOf b, lt_trans h' hpa⟩ = b from hgb] at hix
    rw [show l.get ⟨l.indexOf a, hpa⟩ = a from hga] at hiy
    rw [hib] at hix
    injection hix with h1'
    rw [hia] at hiy
    injection hiy with h2'
    subst h1'
    subst h2'
    exact hacyc ia (reaches_trans hr hr2)

theorem chain_reach_last {G : DirectedGraph} {l : List String}
    (hpair : ∀ i (hi : i + 1 < l.length),
      G.TokEdge (l.get ⟨i, Nat.lt_of_succ_lt hi⟩) (l.get ⟨i + 1, hi⟩))
    {t lt : String} {vt vl : Nat}
    (hmem : t ∈ l) (hvt : dictGet G.vertices_map t = some vt)
    (hlast : l.getLast? = some lt) (hvl : dictGet G.vertices_map lt = some vl) :
    vt = vl ∨ Reaches G.graph.graph vt vl := by
  have hne : l ≠ [] := by
    intro hh
    rw [hh] at hlast
    cases hlast
  have hpt : l.indexOf t < l.length := List.indexOf_lt_length.2 hmem
  have hgt : l.get ⟨l.indexOf t, hpt⟩ = t := List.indexOf_get hpt
  have hlen1 : l.length - 1 < l.length := by
    rcases l with _ | ⟨x, xs⟩
    · exact absurd rfl hne
    · simp
  have hglast : l.get ⟨l.length - 1, hlen1⟩ = lt := by
    rw [List.getLast?_eq_getLast l hne] at hlast
    have hl2 := Option.some_injective _ hlast
    rw [← hl2]
    exact (List.getLast_eq_get l hne).symm
  rcases Nat.lt_or_ge (l.indexOf t) (l.length - 1) with h' | h'
  · right
    obtain ⟨ix, iy, hix, hiy, hr⟩ := tok_chain_reach hpair (l.length - 1) hlen1 (l.indexOf t) h'
    rw [show l.get ⟨l.indexOf t, lt_trans h' hlen1⟩ = t from hgt] at hix
    rw [show l.get ⟨l.length - 1, hlen1⟩ = lt from hglast] at hiy
    rw [hvt] at hix
    injection hix with h1'
    rw [hvl] at hiy
    injection hiy with h2'
    subst h1'
    subst h2'
    exact hr
  · left
    have heq : l.indexOf t = l.length - 1 := by omega
    have htlt : t = lt := by
      rw [← hgt]
      rw [show (⟨l.indexOf t, hpt⟩ : Fin l.length) = ⟨l.length - 1, hlen1⟩ from Fin.ext heq]
      exact hglast
    subst htlt
    rw [hvt] at hvl
    exact Option.some_injective _ hvl

theorem chain_reach_from_head {G : DirectedGraph} {l : List String}
    (hpair : ∀ i (hi : i + 1 < l.length),
      G.TokEdge (l.get ⟨i, Nat.lt_of_succ_lt hi⟩) (l.get ⟨i + 1, hi⟩))
    {t t0 : String} {vt v0 : Nat}
    (hmem : t ∈ l) (hvt : dictGet G.vertices_map t = some vt)
    (hhead : l.head? = some t0) (hv0 : dictGet G.vertices_map t0 = some v0) :
    v0 = vt ∨ Reaches G.graph.graph v0 vt := by
  have hne : l ≠ [] := by
    intro hh
    rw [hh] at hhead
    cases hhead
  have h0 : 0 < l.length := List.length_pos.mpr hne
  have hg0 : l.get ⟨0, h0⟩ = t0 := by
    rcases l with _ | ⟨x, xs⟩
    · exact absurd rfl hne
    · exact Option.some_injective _ hhead
  have hpt : l.indexOf t < l.length := List.indexOf_lt_length.2 hmem
  have hgt : l.get ⟨l.indexOf t, hpt⟩ = t := List.indexOf_get hpt
  rcases Nat.eq_zero_or_pos (l.indexOf t) with h' | h'
  · left
    have htt0 : t = t0 := by
      rw [← hgt]
      rw [show (⟨l.indexOf t, hpt⟩ : Fin l.length) = ⟨0, h0⟩ from Fin.ext h']
      exact hg0
    subst htt0
    rw [hvt] at hv0
    exact (Option.some_injective _ hv0).symm
  · right
    obtain ⟨ix, iy, hix, hiy, hr⟩ := tok_chain_reach hpair (l.indexOf t) hpt 0 h'
    rw [show l.get ⟨0, lt_trans h' hpt⟩ = t0 from hg0] at hix
    rw [show l.get ⟨l.indexOf t, hpt⟩ = t from hgt] at hiy
    rw [hv0] at hix
    injection hix with h1'
    rw [hvt] at hiy
    injection hiy with h2'
    subst h1'
    subst h2'
    exact hr

/-! ## Claim C1 — the core topological-order argument -/

/-- Core of claim C1, stated over the post-materialisation state `σ`
(the sorter after `add_start_relations`/`add_end_relations`): if the
cycle check and both order checks pass and the final sort of the
slot-stripped copy succeeds, every token-level edge of the final graph
is respected by the concatenated output list. -/
theorem resolve_order_core (σ s1 s2 : TestItemsSorter) (mid : List String)
    (hwf0 : σ.graph.WellFormed)
    (hpairH : ∀ i (hi : i + 1 < σ.startIds.length),
      σ.graph.TokEdge (σ.startIds.get ⟨i, Nat.lt_of_succ_lt hi⟩)
        (σ.startIds.get ⟨i + 1, hi⟩))
    (hpairT : ∀ i (hi : i + 1 < σ.endIds.length),
      σ.graph.TokEdge (σ.endIds.get ⟨i, Nat.lt_of_succ_lt hi⟩)
        (σ.endIds.get ⟨i + 1, hi⟩))
    (hregH : ∀ t ∈ σ.startIds, ∃ v, dictGet σ.graph.vertices_map t = some v)
    (hregT : ∀ t ∈ σ.endIds, ∃ v, dictGet σ.graph.vertices_map t = some v)
    (h1 : σ.check_no_execution_loop = .ok ())
    (h2 : σ.check_start_items_execution_order = .ok s1)
    (h3 : s1.check_end_items_execution_order = .ok s2)
    (hsortw : (s2.endIds.foldl (fun g t => DirectedGraph.remove_vertex g t)
        (s2.startIds.foldl (fun g t => DirectedGraph.remove_vertex g t) s2.graph)).sort_graph
          "end" = .ok mid) :
    ∀ a b, s2.graph.TokEdge a b →
      (s2.startIds ++ mid ++ s2.endIds).indexOf a
        < (s2.startIds ++ mid ++ s2.endIds).indexOf b := by
  obtain ⟨hmapinv, hnodup, hec, hsym, hvm⟩ := hwf0
  have hcyc0 := check_no_loop_ok h1
  have hacyc : ∀ w, ¬ Reaches σ.graph.graph.graph w w :=
    acyclic_of_cycle_empty σ.graph.graph hnodup hec hcyc0
  have hstart : (∀ x t vt, t ∈ σ.startIds → dictGet σ.graph.vertices_map t = some vt →
        Reaches σ.graph.graph.graph x vt → σ.graph.tokenOf x ∈ σ.startIds)
      ∧ s1.graph.graph.graph = σ.graph.graph.graph
      ∧ s1.graph.graph.vertices = σ.graph.graph.vertices
      ∧ s1.graph.vertices_map = σ.graph.vertices_map
      ∧ s1.graph.vertices_map_inv = σ.graph.vertices_map_inv
      ∧ s1.graph.new_id = σ.graph.new_id
      ∧ s1.start_items = σ.start_items
      ∧ s1.end_items = σ.end_items := by
    by_cases hHnil : σ.startIds = []
    · have hnil := check_start_nil hHnil
      rw [hnil] at h2
      injection h2 with h2'
      subst h2'
      refine ⟨?_, rfl, rfl, rfl, rfl, rfl, rfl, rfl⟩
      intro x t vt ht
      rw [hHnil] at ht
      cases ht
    · have hne : σ.startIds ≠ [] := hHnil
      have hlastmem : σ.startIds.getLast hne ∈ σ.startIds := List.getLast_mem hne
      obtain ⟨vl, hvl⟩ := hregH _ hlastmem
      have hlq : σ.startIds.getLast? = some (σ.startIds.getLast hne) :=
        List.getLast?_eq_getLast _ hne
      obtain ⟨hP1, e1, e2, e3, e4, e5, e6, e7⟩ := check_start_ok_facts hlq hvl h2
      refine ⟨?_, e1, e2, e3, e4, e5, e6, e7⟩
      intro x t vt ht hvt hr
      have hstar := chain_reach_last hpairH ht hvt hlq hvl
      have hxvl : Reaches σ.graph.graph.graph x vl := by
        rcases hstar with he | hr2
        · rw [← he]
          exact hr
        · exact reaches_trans hr hr2
      exact hP1 x (reaches_symm hsym hxvl)
  obtain ⟨hPH, e1, e2, e3, e4, e5, e6, e7⟩ := hstart
  have hend1 : s1.endIds = σ.endIds := by
    unfold TestItemsSorter.endIds
    rw [e7]
  have htok1 : s1.graph.tokenOf = σ.graph.tokenOf := by
    funext v
    unfold DirectedGraph.tokenOf
    rw [e4]
  have hend : (∀ x t vt, t ∈ σ.endIds → dictGet σ.graph.vertices_map t = some vt →
        Reaches σ.graph.graph.graph vt x → σ.graph.tokenOf x ∈ σ.endIds)
      ∧ DepsGrowth σ.graph.graph.graph s2.graph.graph.graph
      ∧ s2.graph.graph.vertices = σ.graph.graph.vertices
      ∧ s2.graph.vertices_map = σ.graph.vertices_map
      ∧ s2.graph.vertices_map_inv = σ.graph.vertices_map_inv
      ∧ s2.graph.new_id = σ.graph.new_id
      ∧ s2.start_items = σ.start_items
      ∧ s2.end_items = σ.end_items := by
    by_cases hTnil : σ.endIds = []
    · have hnil := check_end_nil (show s1.endIds = [] by rw [hend1, hTnil])
      rw [hnil] at h3
      injection h3 with h3'
      subst h3'
      refine ⟨?_, ?_, e2, e3, e4, e5, e6, e7⟩
      · intro x t vt ht
        rw [hTnil] at ht
        cases ht
      · rw [e1]
        exact depsGrowth_refl _
    · obtain ⟨t0, trest, hTeq⟩ := List.exists_cons_of_ne_nil hTnil
      obtain ⟨v0, hv0⟩ := hregT t0 (by rw [hTeq]; simp)
      have hT1 : s1.endIds = t0 :: trest := by rw [hend1, hTeq]
      have hv0' : dictGet s1.graph.vertices_map t0 = some v0 := by
        rw [e3]
        exact hv0
      obtain ⟨hP2, hgr, f2, f3, f4, f5, f6, f7⟩ := check_end_ok_facts hT1 hv0' h3
      refine ⟨?_, ?_, ?_, ?_, ?_, ?_, ?_, ?_⟩
      · intro x t vt ht hvt hr
        have hhead : σ.endIds.head? = some t0 := by
          rw [hTeq]
          rfl
        have hstar := chain_reach_from_head hpairT ht hvt hhead hv0
        have hv0x : Reaches σ.graph.graph.graph v0 x := by
          rcases hstar with he | hr2
          · rw [he]
            exact hr
          · exact reaches_trans hr2 hr
        have hmem2 := hP2 x (by rw [e1]; exact hv0x)
        rw [htok1, hend1] at hmem2
        exact hmem2
      · rw [← e1]
        exact hgr
      · rw [f2, e2]
      · rw [f3, e3]
      · rw [f4, e4]
      · rw [f5, e5]
      · rw [f6, e6]
      · rw [f7, e7]
  obtain ⟨hST, hgrow, g2v, g2m, g2i, g2n, g2s, g2e⟩ := hend
  have hH2 : s2.startIds = σ.startIds := by
    unfold TestItemsSorter.startIds
    rw [g2s]
  have hT2 : s2.endIds = σ.endIds := by
    unfold TestItemsSorter.endIds
    rw [g2e]
  rw [hH2, hT2] at hsortw
  rw [← List.foldl_append] at hsortw
  have hmi2 : s2.graph.MapInv := mapInv_transport g2m g2i g2v g2n hmapinv
  have hnd2v : s2.graph.graph.vertices.Nodup := by
    rw [g2v]
    exact hnodup
  have hvm2 : s2.graph.VertsMapped := vertsMapped_transport g2i g2v hvm
  obtain ⟨F1, F2, F3, F4, F5, F6, F7, F8, F9, F10⟩ :=
    fold_remove_spec (σ.startIds ++ σ.endIds) s2.graph hmi2 hnd2v hvm2
  set cpy := (σ.startIds ++ σ.endIds).foldl
    (fun g t => DirectedGraph.remove_vertex g t) s2.graph with hcpy
  obtain ⟨out, hso, hmid⟩ := wrapper_sort_ok hsortw
  obtain ⟨houtperm, houtnd, hord⟩ := sort_graph_base_spec F2 hso
  have hec2 : ∀ x y, y ∈ s2.graph.graph.graph x →
      x ∈ σ.graph.graph.vertices ∧ y ∈ σ.graph.graph.vertices :=
    edgesClosed_growth hec hgrow
  have htokid : ∀ tok v, dictGet σ.graph.vertices_map tok = some v →
      σ.graph.tokenOf v = tok := by
    intro tok v hh
    unfold DirectedGraph.tokenOf
    rw [(hmapinv.1 tok v).mp hh]
    rfl
  have htokcopy : ∀ v ∈ cpy.graph.vertices,
      cpy.tokenOf v = σ.graph.tokenOf v
      ∧ dictGet σ.graph.vertices_map (σ.graph.tokenOf v) = some v := by
    intro v hv
    obtain ⟨t, ht⟩ := F3 v hv
    have hinvσ : dictGet σ.graph.vertices_map_inv v = some t := by
      rw [← g2i]
      exact F8 v t ht
    have hmapt : dictGet σ.graph.vertices_map t = some v := (hmapinv.1 t v).mpr hinvσ
    have htv : σ.graph.tokenOf v = t := by
      unfold DirectedGraph.tokenOf
      rw [hinvσ]
      rfl
    constructor
    · unfold DirectedGraph.tokenOf
      rw [ht, hinvσ]
    · rw [htv]
      exact hmapt
  have hinj_out : ∀ y ∈ out, ∀ z ∈ out, cpy.tokenOf y = cpy.tokenOf z → y = z := by
    intro y hy z hz he
    have hy' := htokcopy y (houtperm.mem_iff.mp hy)
    have hz' := htokcopy z (houtperm.mem_iff.mp hz)
    rw [hy'.1, hz'.1] at he
    have h2y := hy'.2
    rw [he, hz'.2] at h2y
    injection h2y with h''
    exact h''.symm
  have hananmid : ∀ (a : String) (v : Nat), dictGet σ.graph.vertices_map a = some v →
      v ∈ cpy.graph.vertices → a ∈ mid ∧ mid.indexOf a = out.indexOf v := by
    intro a v hva hvcopy
    have hvout : v ∈ out := houtperm.mem_iff.mpr hvcopy
    have htokv : cpy.tokenOf v = a := by
      have h' := htokcopy v hvcopy
      rw [h'.1]
      exact htokid a v hva
    constructor
    · rw [hmid, ← htokv]
      exact List.mem_map_of_mem _ hvout
    · rw [hmid, ← htokv]
      exact indexOf_map_of_inj (fun z hz he => hinj_out z hz v hvout he) hvout
  have hnotmid : ∀ (a : String) (v : Nat), dictGet σ.graph.vertices_map a = some v →
      a ∈ σ.startIds ++ σ.endIds → a ∉ mid := by
    intro a v hva hmem hcon
    rw [hmid] at hcon
    obtain ⟨x, hxout, hxeq⟩ := List.mem_map.mp hcon
    have hxcopy := houtperm.mem_iff.mp hxout
    have h' := htokcopy x hxcopy
    have hsx : σ.graph.tokenOf x = a := by
      rw [← h'.1]
      exact hxeq
    have hmapx : dictGet σ.graph.vertices_map a = some x := by
      rw [← hsx]
      exact h'.2
    rw [hva] at hmapx
    injection hmapx with h''
    subst h''
    exact F9 a v hmem (by rw [g2m]; exact hva) hxcopy
  have hnotrem : ∀ (tok : String) (v : Nat), dictGet σ.graph.vertices_map tok = some v →
      tok ∉ σ.startIds → tok ∉ σ.endIds →
      ∀ t ∈ σ.startIds ++ σ.endIds, dictGet s2.graph.vertices_map t ≠ some v := by
    intro tok v hv hnH hnT t ht htv
    rw [g2m] at htv
    have h1' := (hmapinv.1 t v).mp htv
    have h2' := (hmapinv.1 tok v).mp hv
    rw [h1'] at h2'
    injection h2' with h''
    subst h''
    rcases List.mem_append.mp ht with h' | h'
    · exact hnH h'
    · exact hnT h'
  have hstep : ∀ x y, y ∈ cpy.graph.graph x → out.indexOf x < out.indexOf y := by
    intro x y hy
    have hyadj2 : y ∈ s2.graph.graph.graph x := F6 x y hy
    have hxmem : x ∈ σ.graph.graph.vertices := (hec2 x y hyadj2).1
    have hymem : y ∈ σ.graph.graph.vertices := (hec2 x y hyadj2).2
    have hradj : Reaches σ.graph.graph.graph x y :=
      reaches_of_growth hgrow (reaches_of_mem hyadj2)
    have hxy : x ≠ y := by
      intro he
      subst he
      exact hacyc x hradj
    by_cases hxrem : ∃ t ∈ σ.startIds ++ σ.endIds,
        dictGet s2.graph.vertices_map t = some x
    · obtain ⟨t, ht, htv⟩ := hxrem
      rw [F10 t x ht htv] at hy
      cases hy
    · push_neg at hxrem
      have hxcopy : x ∈ cpy.graph.vertices := F5 x (by rw [g2v]; exact hxmem) hxrem
      by_cases hyrem : ∃ t ∈ σ.startIds ++ σ.endIds,
          dictGet s2.graph.vertices_map t = some y
      · obtain ⟨t, ht, hty⟩ := hyrem
        have hynotin : y ∉ cpy.graph.vertices := F9 t y ht hty
        have hyout : y ∉ out := fun hc => hynotin (houtperm.mem_iff.mp hc)
        have hxout : x ∈ out := houtperm.mem_iff.mpr hxcopy
        have hx1 : out.indexOf x < out.length := List.indexOf_lt_length.2 hxout
        have hy1 : out.indexOf y = out.length := List.indexOf_eq_length.mpr hyout
        omega
      · push_neg at hyrem
        have hycopy : y ∈ cpy.graph.vertices := F5 y (by rw [g2v]; exact hymem) hyrem
        exact hord x y hxcopy hycopy hy hxy
  have hreach_out : ∀ x y, Reaches cpy.graph.graph x y →
      out.indexOf x < out.indexOf y := by
    intro x y hr
    obtain ⟨l, hc⟩ := hr
    exact reach_order hstep l x y hc
  rw [hH2, hT2]
  intro a b hTE
  obtain ⟨ia, ib, hia, hib, hmem⟩ := hTE
  rw [g2m] at hia hib
  have hreachab : Reaches σ.graph.graph.graph ia ib :=
    reaches_of_growth hgrow (reaches_of_mem hmem)
  have htoka : σ.graph.tokenOf ia = a := htokid a ia hia
  have htokb : σ.graph.tokenOf ib = b := htokid b ib hib
  by_cases hbH : b ∈ σ.startIds
  · have haH : a ∈ σ.startIds := by
      have hmem2 := hPH ia b ib hbH hib hreachab
      rw [htoka] at hmem2
      exact hmem2
    have hlt : σ.startIds.indexOf a < σ.startIds.indexOf b :=
      chain_list_order hpairH hacyc haH hbH hia hib hreachab
    rw [List.indexOf_append_of_mem (List.mem_append_left _ haH),
      List.indexOf_append_of_mem haH,
      List.indexOf_append_of_mem (List.mem_append_left _ hbH),
      List.indexOf_append_of_mem hbH]
    exact hlt
  · by_cases haH : a ∈ σ.startIds
    · rw [List.indexOf_append_of_mem (List.mem_append_left _ haH),
        List.indexOf_append_of_mem haH]
      have halt : σ.startIds.indexOf a < σ.startIds.length :=
        List.indexOf_lt_length.2 haH
      by_cases hbm : b ∈ σ.startIds ++ mid
      · rw [List.indexOf_append_of_mem hbm, List.indexOf_append_of_not_mem hbH]
        omega
      · rw [List.indexOf_append_of_not_mem hbm, List.length_append]
        omega
    · by_cases haT : a ∈ σ.endIds
      · have hbT : b ∈ σ.endIds := by
          have hmem2 := hST ib a ia haT hia hreachab
          rw [htokb] at hmem2
          exact hmem2
        have hlt : σ.endIds.indexOf a < σ.endIds.indexOf b :=
          chain_list_order hpairT hacyc haT hbT hia hib hreachab
        have hanm : a ∉ mid := hnotmid a ia hia (List.mem_append_right _ haT)
        have hbnm : b ∉ mid := hnotmid b ib hib (List.mem_append_right _ hbT)
        have hanHm : a ∉ σ.startIds ++ mid := by
          intro hc
          rcases List.mem_append.mp hc with h' | h'
          · exact haH h'
          · exact hanm h'
        have hbnHm : b ∉ σ.startIds ++ mid := by
          intro hc
          rcases List.mem_append.mp hc with h' | h'
          · exact hbH h'
          · exact hbnm h'
        rw [List.indexOf_append_of_not_mem hanHm, List.indexOf_append_of_not_mem hbnHm]
        omega
      · by_cases hbT : b ∈ σ.endIds
        · have hiamem : ia ∈ σ.graph.graph.vertices := reach_source_mem hec hreachab
          have hianorem := hnotrem a ia hia haH haT
          have hiacopy : ia ∈ cpy.graph.vertices :=
            F5 ia (by rw [g2v]; exact hiamem) hianorem
          obtain ⟨hamid, hamididx⟩ := hananmid a ia hia hiacopy
          have hbnm : b ∉ mid := hnotmid b ib hib (List.mem_append_right _ hbT)
          have hbnHm : b ∉ σ.startIds ++ mid := by
            intro hc
            rcases List.mem_append.mp hc with h' | h'
            · exact hbH h'
            · exact hbnm h'
          rw [List.indexOf_append_of_mem (List.mem_append_right _ hamid),
            List.indexOf_append_of_not_mem haH,
            List.indexOf_append_of_not_mem hbnHm, List.length_append]
          have hmlt : mid.indexOf a < mid.length := List.indexOf_lt_length.2 hamid
          omega
        · have hiamem : ia ∈ σ.graph.graph.vertices := reach_source_mem hec hreachab
          have hibmem : ib ∈ σ.graph.graph.vertices := reach_target_mem hec hreachab
          have hianorem := hnotrem a ia hia haH haT
          have hibnorem := hnotrem b ib hib hbH hbT
          have hiacopy : ia ∈ cpy.graph.vertices :=
            F5 ia (by rw [g2v]; exact hiamem) hianorem
          have hibcopy : ib ∈ cpy.graph.vertices :=
            F5 ib (by rw [g2v]; exact hibmem) hibnorem
          have hsurv : ∀ (l : List Nat) (x : Nat),
              (∀ t ∈ σ.startIds ++ σ.endIds, dictGet s2.graph.vertices_map t ≠ some x) →
              ReachStar σ.graph.graph.graph ia x →
              chainB σ.graph.graph.graph x l ib = true →
              Reaches cpy.graph.graph x ib := by
            intro l
            induction l with
            | nil =>
              intro x hxnorem hstar hc
              simp only [chainB, decide_eq_true_eq] at hc
              exact reaches_of_mem
                (F7 x ib (depsGrowth_subset hgrow x ib hc) hxnorem hibnorem)
            | cons w l ih =>
              intro x hxnorem hstar hc
              simp only [chainB, Bool.and_eq_true, decide_eq_true_eq] at hc
              have hiw : Reaches σ.graph.graph.graph ia w := by
                rcases hstar with he | hr
                · rw [he]
                  exact reaches_of_mem hc.1
                · exact reaches_trans hr (reaches_of_mem hc.1)
              have hwnorem : ∀ t ∈ σ.startIds ++ σ.endIds,
                  dictGet s2.graph.vertices_map t ≠ some w := by
                intro t ht hc2
                rw [g2m] at hc2
                rcases List.mem_append.mp ht with htH | htT
                · have hmem2 := hPH ia t w htH hc2 hiw
                  rw [htoka] at hmem2
                  exact haH hmem2
                · have hwib : Reaches σ.graph.graph.graph w ib := ⟨l, hc.2⟩
                  have hmem2 := hST ib t w htT hc2 hwib
                  rw [htokb] at hmem2
                  exact hbT hmem2
              exact reaches_trans
                (reaches_of_mem (F7 x w (depsGrowth_subset hgrow x w hc.1) hxnorem hwnorem))
                (ih w hwnorem (Or.inr hiw) hc.2)
          have hcopyreach : Reaches cpy.graph.graph ia ib := by
            obtain ⟨l, hc⟩ := hreachab
            exact hsurv l ia hianorem (Or.inl rfl) hc
          have hout2 : out.indexOf ia < out.indexOf ib := hreach_out ia ib hcopyreach
          obtain ⟨hamid, hamididx⟩ := hananmid a ia hia hiacopy
          obtain ⟨hbmid, hbmididx⟩ := hananmid b ib hib hibcopy
          rw [List.indexOf_append_of_mem (List.mem_append_right _ hamid),
            List.indexOf_append_of_not_mem haH,
            List.indexOf_append_of_mem (List.mem_append_right _ hbmid),
            List.indexOf_append_of_not_mem hbH]
          omega

/-- C1.  For every session state whose identifier graph satisfies the
reachable-state invariant (`WellFormed`, which holds of every graph the
solver builds through its own operations) and whose occupied slot tokens
are registered, a successful `sort_test_items_ids` returns exactly the
concatenation of the occupied head-slot tokens in rank order, the
topological sort of the slot-stripped copy of the final graph (the
`remaining` list the code computes), and the occupied tail-slot tokens
in rank order; and for every token-level edge `(a, b)` present in the
final graph, `a` appears strictly before `b` in that list. -/
theorem c1_resolve_concat_topological (s s' : TestItemsSorter) (L : List String)
    (hwf : s.graph.WellFormed) (hslots : s.SlotsRegistered)
    (hrun : s.sort_test_items_ids = .ok (s', L)) :
    ∃ mid,
      (s'.endIds.foldl (fun g t => DirectedGraph.remove_vertex g t)
        (s'.startIds.foldl (fun g t => DirectedGraph.remove_vertex g t) s'.graph)).sort_graph
          "end" = .ok mid
      ∧ L = s'.startIds ++ mid ++ s'.endIds
      ∧ (∀ a b, s'.graph.TokEdge a b → L.indexOf a < L.indexOf b) := by
  obtain ⟨s1, h1, h2, h3, mid, hsortw, hLeq⟩ := sort_items_destruct hrun
  refine ⟨mid, hsortw, hLeq, ?_⟩
  rw [hLeq]
  have hwf0 : (s.add_start_relations.add_end_relations).graph.WellFormed :=
    wf_addChainEdges s.endIds (wf_addChainEdges s.startIds hwf)
  have hpairH : ∀ i (hi : i + 1 < (s.add_start_relations.add_end_relations).startIds.length),
      (s.add_start_relations.add_end_relations).graph.TokEdge
        ((s.add_start_relations.add_end_relations).startIds.get ⟨i, Nat.lt_of_succ_lt hi⟩)
        ((s.add_start_relations.add_end_relations).startIds.get ⟨i + 1, hi⟩) := by
    intro i hi
    exact tokEdge_addChainEdges_mono s.endIds (addChainEdges_pairs s.startIds s.graph i hi)
  have hpairT : ∀ i (hi : i + 1 < (s.add_start_relations.add_end_relations).endIds.length),
      (s.add_start_relations.add_end_relations).graph.TokEdge
        ((s.add_start_relations.add_end_relations).endIds.get ⟨i, Nat.lt_of_succ_lt hi⟩)
        ((s.add_start_relations.add_end_relations).endIds.get ⟨i + 1, hi⟩) := by
    intro i hi
    exact addChainEdges_pairs s.endIds (TestItemsSorter.addChainEdges s.graph s.startIds) i hi
  have hregH : ∀ t ∈ (s.add_start_relations.add_end_relations).startIds,
      ∃ v, dictGet (s.add_start_relations.add_end_relations).graph.vertices_map t
        = some v := by
    intro t ht
    obtain ⟨v, hv⟩ := hslots.1 t ht
    exact ⟨v, registered_addChainEdges s.endIds (registered_addChainEdges s.startIds hv)⟩
  have hregT : ∀ t ∈ (s.add_start_relations.add_end_relations).endIds,
      ∃ v, dictGet (s.add_start_relations.add_end_relations).graph.vertices_map t
        = some v := by
    intro t ht
    obtain ⟨v, hv⟩ := hslots.2 t ht
    exact ⟨v, registered_addChainEdges s.endIds (registered_addChainEdges s.startIds hv)⟩
  exact resolve_order_core (s.add_start_relations.add_end_relations) s1 s' mid
    hwf0 hpairH hpairT hregH hregT h1 h2 h3 hsortw

/-- C1 witness: the full pipeline on the concrete session with head
item `t1`, plain item `t2` related after `t1`, and tail item `t3`
succeeds with the output `[t1, t2, t3]`, and the theorem's order
conclusion applied to the edge `t1 → t2` of the final graph places `t1`
strictly before `t2`. -/
theorem c1_resolve_concat_topological_witness :
    TestItemsSorter.sort_test_items_ids sessionHeadMidTail
      = .ok (sessionHeadMidTailRun.1, ["t1", "t2", "t3"])
    ∧ (["t1", "t2", "t3"] : List String).indexOf "t1"
        < (["t1", "t2", "t3"] : List String).indexOf "t2" := by
  have hgeq : sessionHeadMidTail.graph
      = (((DirectedGraph.init.add_vertex "t1").1.add_vertex "t2").1.add_vertex
          "t3").1.add_edge "t1" "t2" := rfl
  have hwf : sessionHeadMidTail.graph.WellFormed := by
    rw [hgeq]
    exact wf_add_edge
      (wf_add_vertex (wf_add_vertex (wf_add_vertex wf_init (by rfl)) (by rfl)) (by rfl))
      "t1" "t2"
  have hslots : sessionHeadMidTail.SlotsRegistered := by
    constructor
    · intro t ht
      have ht1 : t = "t1" := by
        have hss : sessionHeadMidTail.startIds = ["t1"] := rfl
        rw [hss] at ht
        exact List.mem_singleton.mp ht
      subst ht1
      exact ⟨0, rfl⟩
    · intro t ht
      have ht3 : t = "t3" := by
        have hss : sessionHeadMidTail.endIds = ["t3"] := rfl
        rw [hss] at ht
        exact List.mem_singleton.mp ht
      subst ht3
      exact ⟨2, rfl⟩
  have hrun : TestItemsSorter.sort_test_items_ids sessionHeadMidTail
      = .ok (sessionHeadMidTailRun.1, ["t1", "t2", "t3"]) := rfl
  obtain ⟨mid, hms, hmL, hord⟩ := c1_resolve_concat_topological sessionHeadMidTail
    sessionHeadMidTailRun.1 ["t1", "t2", "t3"] hwf hslots hrun
  refine ⟨hrun, ?_⟩
  refine hord "t1" "t2" ⟨0, 1, ?_, ?_, ?_⟩
  · rfl
  · rfl
  · decide

end PyOrd
